import Mathlib

/-!
ArchLens server: vault ledger, signer and resilience kernel.

A shallow embedding of the Go sources under `server/` and the properties proved
about them.

Conventions of the embedding.

* A Go `[]byte` is a `List Byte` with `Byte = Fin 256`.
* A Go `string` is a Lean `String`.  The only strings whose bytes matter are hex
  strings; a character outside `0-9a-fA-F` makes `hex.DecodeString` fail in Go
  (every byte of its UTF-8 encoding is outside the hex alphabet) and in the model.
* Calls into other packages (`crypto/ed25519`, `crypto/sha256`, `encoding/json`,
  `uuid.New`, `time.Now`) are parameters: the primitives are fields of a
  structure, fresh identifiers and clock readings are arguments of the operation
  that consumes them.
* `encoding/hex` is modelled concretely, since the claims speak about it.
-/

namespace ArchLens

/-- One octet. -/
abbrev Byte := Fin 256

/-! ## `encoding/hex` -/

/-- The table `hextable = "0123456789abcdef"` of `encoding/hex`. -/
def hextable : List Char :=
  ['0', '1', '2', '3', '4', '5', '6', '7', '8', '9', 'a', 'b', 'c', 'd', 'e', 'f']

/-- The character `hextable[n]`. -/
def hexDigit (n : Nat) : Char := hextable.getD n '0'

/-- The characters written by `hex.Encode`: `hextable[v>>4]`, `hextable[v&0x0f]` for
each byte `v` of the source. -/
def hexEncode : List Byte → List Char
  | [] => []
  | v :: rest => hexDigit (v.val / 16) :: hexDigit (v.val % 16) :: hexEncode rest

/-- Go `hex.EncodeToString`. -/
def hexEncodeToString (src : List Byte) : String := String.mk (hexEncode src)

/-- The table `reverseHexTable` of `encoding/hex`: the value of a hex digit, `none`
where the table holds `0xff`. -/
def fromHexChar (c : Char) : Option Nat :=
  if '0'.toNat ≤ c.toNat ∧ c.toNat ≤ '9'.toNat then some (c.toNat - '0'.toNat)
  else if 'a'.toNat ≤ c.toNat ∧ c.toNat ≤ 'f'.toNat then some (c.toNat - 'a'.toNat + 10)
  else if 'A'.toNat ≤ c.toNat ∧ c.toNat ≤ 'F'.toNat then some (c.toNat - 'A'.toNat + 10)
  else none

/-- Go `hex.Decode`: pairs of digits are read left to right, `(a << 4) | b` is stored
for each; an invalid digit or an odd length is an error (`none`). -/
def hexDecode : List Char → Option (List Byte)
  | [] => some []
  | [_] => none
  | p :: q :: rest =>
    match fromHexChar p, fromHexChar q with
    | some a, some b =>
      match hexDecode rest with
      | some t => some (Fin.ofNat (a * 16 + b) :: t)
      | none => none
    | _, _ => none

/-- Go `hex.DecodeString`. -/
def hexDecodeString (s : String) : Option (List Byte) := hexDecode s.data

/-! ## `crypto/ed25519` and the signer of `vault-service/internal/crypto` -/

/-- The functions of `crypto/ed25519` the signer calls. -/
structure Ed25519 where
  /-- The function `ed25519.NewKeyFromSeed`. -/
  NewKeyFromSeed : List Byte → List Byte
  /-- The method `PrivateKey.Public`. -/
  Public : List Byte → List Byte
  /-- The function `ed25519.Sign(privateKey, message)`. -/
  Sign : List Byte → List Byte → List Byte
  /-- The function `ed25519.Verify(publicKey, message, sig)`. -/
  Verify : List Byte → List Byte → List Byte → Bool

/-- The constant `ed25519.SeedSize`. -/
def SeedSize : Nat := 32

/-- Correctness of the signature scheme: a signature made with the private key of a
seed verifies under the public key of that private key. -/
def Ed25519.Correct (E : Ed25519) : Prop :=
  ∀ seed msg : List Byte, seed.length = SeedSize →
    E.Verify (E.Public (E.NewKeyFromSeed seed)) msg (E.Sign (E.NewKeyFromSeed seed) msg) = true

/-- Go `Ed25519Signer`. -/
structure Ed25519Signer where
  privateKey : List Byte
  publicKey : List Byte
deriving DecidableEq

/-- Go `NewEd25519Signer`; `rnd` is what `ed25519.GenerateKey` reads from
`rand.Reader`: the 32 seed bytes, or `none` when the read fails.  `GenerateKey`
derives the pair from the seed as `NewKeyFromSeed` does. -/
def NewEd25519Signer (E : Ed25519) (rnd : Option { l : List Byte // l.length = SeedSize }) :
    Except String Ed25519Signer :=
  match rnd with
  | none => .error "failed to generate Ed25519 key pair"
  | some seed =>
    let priv := E.NewKeyFromSeed seed.val
    .ok { privateKey := priv, publicKey := E.Public priv }

/-- Go `NewEd25519SignerFromSeed`. -/
def NewEd25519SignerFromSeed (E : Ed25519) (seedHex : String) : Except String Ed25519Signer :=
  match hexDecodeString seedHex with
  | none => .error "invalid seed hex"
  | some seed =>
    if seed.length ≠ SeedSize then .error "seed must be 32 bytes"
    else
      let priv := E.NewKeyFromSeed seed
      .ok { privateKey := priv, publicKey := E.Public priv }

/-- Go `(*Ed25519Signer).Sign`. -/
def Ed25519Signer.Sign (E : Ed25519) (s : Ed25519Signer) (data : List Byte) : List Byte :=
  E.Sign s.privateKey data

/-- Go `(*Ed25519Signer).SignHex`. -/
def Ed25519Signer.SignHex (E : Ed25519) (s : Ed25519Signer) (data : List Byte) : String :=
  hexEncodeToString (s.Sign E data)

/-- Go `(*Ed25519Signer).Verify`. -/
def Ed25519Signer.Verify (E : Ed25519) (s : Ed25519Signer) (data signature : List Byte) : Bool :=
  E.Verify s.publicKey data signature

/-- Go `(*Ed25519Signer).VerifyHex`. -/
def Ed25519Signer.VerifyHex (E : Ed25519) (s : Ed25519Signer) (data : List Byte)
    (signatureHex : String) : Bool :=
  match hexDecodeString signatureHex with
  | none => false
  | some sig => s.Verify E data sig

/-- Go `(*Ed25519Signer).PublicKeyHex`. -/
def Ed25519Signer.PublicKeyHex (s : Ed25519Signer) : String := hexEncodeToString s.publicKey

/-- The signers the package can hand out: the values returned without error by one
of its two constructors (the fields are unexported). -/
def Ed25519Signer.Constructed (E : Ed25519) (s : Ed25519Signer) : Prop :=
  (∃ rnd, NewEd25519Signer E rnd = .ok s) ∨ (∃ seedHex, NewEd25519SignerFromSeed E seedHex = .ok s)

/-- A toy signature scheme used to instantiate the development: the key pair of a
seed is the seed itself, the signature of a message under a key is the key followed
by the message. -/
def toyEd25519 : Ed25519 where
  NewKeyFromSeed := fun seed => seed
  Public := fun priv => priv
  Sign := fun priv msg => priv ++ msg
  Verify := fun pub msg sig => decide (sig = pub ++ msg)

/-- The seed of 32 zero bytes. -/
def zeroSeed : { l : List Byte // l.length = SeedSize } := ⟨List.replicate 32 0, by simp [SeedSize]⟩

/-- The toy signer of the all-zero seed. -/
def toySigner : Ed25519Signer :=
  { privateKey := List.replicate 32 0, publicKey := List.replicate 32 0 }

/-! ## The ledger of `vault-service/internal/ledger` -/

/-- Go `time.Time` as the ledger reads it: whole seconds since the epoch and the
sub-second part. -/
structure Time where
  unix : Int
  nsec : Nat
deriving DecidableEq, Inhabited

/-- Go `Time.Unix`. -/
def Time.Unix (t : Time) : Int := t.unix

/-- Go `[]byte(s)` for a string `s`: its UTF-8 bytes. -/
def stringBytes (s : String) : List Byte := s.toUTF8.toList.map fun u => u.val

/-- The library calls of the ledger, over payloads of type `P` (Go
`map[string]interface{}`). -/
structure Std (P : Type) where
  /-- The package `crypto/ed25519`. -/
  ed : Ed25519
  /-- The function `sha256.Sum256`; its result type is `[32]byte`. -/
  Sum256 : List Byte → { l : List Byte // l.length = 32 }
  /-- The bytes `json.Marshal` returns for the map with the keys `entry_type`,
  `payload`, `previous_hash` and `timestamp` holding the four arguments (no bytes when
  it fails: `computeHash` drops the error). -/
  Marshal : String → P → String → Int → List Byte
  /-- The map literal holding the message of the genesis entry. -/
  genesisPayload : P

/-- Go `Entry`. -/
structure Entry (P : Type) where
  ID : String
  EntryType : String
  Payload : P
  Signature : String
  PublicKey : String
  PreviousHash : String
  Hash : String
  Timestamp : Time
deriving Inhabited

/-- Go `Service` (the configuration and the logger play no part in the chain). -/
structure Service (P : Type) where
  signer : Ed25519Signer
  chain : List (Entry P)

/-- Go `computeHash`. -/
def computeHash {P : Type} (L : Std P) (e : Entry P) : String :=
  let data := L.Marshal e.EntryType e.Payload e.PreviousHash e.Timestamp.Unix
  let h := L.Sum256 data
  hexEncodeToString h.val

/-- Go `NewService`; `id` is the value of `uuid.New().String()`, `now` that of
`time.Now().UTC()`. -/
def NewService {P : Type} (L : Std P) (signer : Ed25519Signer) (id : String) (now : Time) :
    Service P :=
  let genesis : Entry P :=
    { ID := id
      EntryType := "genesis"
      Payload := L.genesisPayload
      Signature := ""
      PublicKey := ""
      PreviousHash := "0000000000000000000000000000000000000000000000000000000000000000"
      Hash := ""
      Timestamp := now }
  let genesis := { genesis with Hash := computeHash L genesis }
  let genesis := { genesis with Signature := signer.SignHex L.ed (stringBytes genesis.Hash) }
  let genesis := { genesis with PublicKey := signer.PublicKeyHex }
  { signer := signer, chain := [genesis] }

/-- Go `(*Service).Append`; `id` and `now` as in `NewService`.  On an empty chain the
read of `s.chain[len(s.chain)-1]` panics: `none`. -/
def Service.Append {P : Type} (L : Std P) (s : Service P) (entryType : String) (payload : P)
    (id : String) (now : Time) : Option (Entry P × Service P) :=
  match s.chain.getLast? with
  | none => none
  | some prev =>
    let entry : Entry P :=
      { ID := id
        EntryType := entryType
        Payload := payload
        Signature := ""
        PublicKey := ""
        PreviousHash := prev.Hash
        Hash := ""
        Timestamp := now }
    let entry := { entry with Hash := computeHash L entry }
    let entry := { entry with Signature := s.signer.SignHex L.ed (stringBytes entry.Hash) }
    let entry := { entry with PublicKey := s.signer.PublicKeyHex }
    some (entry, { s with chain := s.chain ++ [entry] })

/-- The loop of `VerifyChain` from index `i` on. -/
def VerifyChain.loop {P : Type} (L : Std P) (chain : List (Entry P)) (i : Nat) : Bool × Int :=
  if h : i < chain.length then
    if chain[i].PreviousHash ≠ chain[i - 1].Hash then (false, (i : Int))
    else if chain[i].Hash ≠ computeHash L chain[i] then (false, (i : Int))
    else VerifyChain.loop L chain (i + 1)
  else (true, -1)
termination_by chain.length - i

/-- Go `(*Service).VerifyChain`. -/
def Service.VerifyChain {P : Type} (L : Std P) (s : Service P) : Bool × Int :=
  VerifyChain.loop L s.chain 1

/-- The arguments of one `Append` call, with the identifier and the clock reading it
draws. -/
structure AppendCall (P : Type) where
  entryType : String
  payload : P
  id : String
  now : Time

/-- A sequence of `Append` calls applied in order. -/
def appendAll {P : Type} (L : Std P) (s : Service P) : List (AppendCall P) → Option (Service P)
  | [] => some s
  | c :: rest =>
    match s.Append L c.entryType c.payload c.id c.now with
    | none => none
    | some (_, s') => appendAll L s' rest

/-- The services reachable from `NewService` by `Append` calls. -/
def Reachable {P : Type} (L : Std P) (signer : Ed25519Signer) (s : Service P) : Prop :=
  ∃ id now calls, appendAll L (NewService L signer id now) calls = some s

/-- Entry `i` of the chain fails one of the two tests of `VerifyChain`:
`chain[i].PreviousHash != chain[i-1].Hash` or `chain[i].Hash != computeHash(chain[i])`. -/
def entryBad {P : Type} (L : Std P) (chain : List (Entry P)) (i : Nat) : Bool :=
  match chain[i]?, chain[i - 1]? with
  | some e, some p => decide (e.PreviousHash ≠ p.Hash) || decide (e.Hash ≠ computeHash L e)
  | _, _ => false

/-- The invariant of the ledger: the chain is not empty, no index is bad, the signer is
the one given to `NewService`, and every entry carries the signer's key and its signature
of the entry's hash. -/
def LedgerInv {P : Type} (L : Std P) (signer : Ed25519Signer) (s : Service P) : Prop :=
  s.chain ≠ [] ∧ s.signer = signer ∧ (∀ j, 1 ≤ j → entryBad L s.chain j = false) ∧
    ∀ e ∈ s.chain, e.Hash = computeHash L e ∧ e.PublicKey = signer.PublicKeyHex ∧
      e.Signature = signer.SignHex L.ed (stringBytes e.Hash)

/-- The three ways of tampering with one entry. -/
inductive Tamper (P : Type) where
  | payload (p : P)
  | previousHash (h : String)
  | hash (h : String)

/-- The entry after tampering. -/
def Tamper.apply {P : Type} (t : Tamper P) (e : Entry P) : Entry P :=
  match t with
  | .payload p => { e with Payload := p }
  | .previousHash h => { e with PreviousHash := h }
  | .hash h => { e with Hash := h }

/-- The tampering changes the entry: a different `PreviousHash`, a different `Hash`, or a
`Payload` with a different recomputed hash. -/
def Tamper.Effective {P : Type} (L : Std P) (t : Tamper P) (e : Entry P) : Prop :=
  match t with
  | .payload p => computeHash L { e with Payload := p } ≠ computeHash L e
  | .previousHash h => h ≠ e.PreviousHash
  | .hash h => h ≠ e.Hash

/-- A toy instance of the library over payloads in `Nat`: the serialisation lists the
payload, the seconds and the lengths of the two strings, the digest repeats the sum of the
bytes it is given. -/
def toyStd : Std Nat where
  ed := toyEd25519
  Sum256 := fun d => ⟨List.replicate 32 (d.foldl (fun a b => a + b) 0), by simp⟩
  Marshal := fun et p ph ts => [Fin.ofNat p, Fin.ofNat ts.toNat, Fin.ofNat ph.length, Fin.ofNat et.length]
  genesisPayload := 0

/-- The entry with its `Signature` replaced. -/
def Entry.withSignature {P : Type} (e : Entry P) (sig : String) : Entry P :=
  { e with Signature := sig }

/-- A clock reading. -/
def t0 : Time := { unix := 1700000000, nsec := 0 }

/-- The toy ledger right after `NewService`. -/
def toyService0 : Service Nat := NewService toyStd toySigner "id-0" t0

/-- The one `Append` call of the toy ledger. -/
def toyCalls : List (AppendCall Nat) :=
  [{ entryType := "decision", payload := 1, id := "id-1", now := { unix := 1700000001, nsec := 5 } }]

/-- The toy ledger after its `Append` call. -/
def toyService1 : Service Nat := (appendAll toyStd toyService0 toyCalls).getD toyService0

/-- The toy ledger with the payload of its genesis entry replaced by 7. -/
def toyGenesisTampered : Service Nat :=
  { toyService1 with
    chain := toyService1.chain.set 0 ((Tamper.payload 7).apply (toyService1.chain.getD 0 default)) }

/-- The toy ledger with the signature of entry 1 replaced by a string that is no hex. -/
def toyBadSignature : Service Nat :=
  { toyService1 with
    chain := toyService1.chain.set 1 ((toyService1.chain.getD 1 default).withSignature "zz") }

/-- An entry of the toy ledger that agrees with entry 1 on its type, payload, previous
hash and whole seconds, and on nothing else. -/
def toyEntryOther : Entry Nat :=
  { (toyService1.chain.getD 1 default) with
    ID := "another-id"
    Signature := "00"
    PublicKey := "ff"
    Hash := "abc"
    Timestamp := { unix := 1700000001, nsec := 999 } }

/-! ## The circuit breaker of `api-gateway/internal/resilience`

The mutex makes each of the two critical sections of `Execute` atomic; the model is the
sequential one, in which the calls of `Execute` do not overlap.  A clock reading is a number
of nanoseconds, a `time.Duration` likewise.  The function `fn` acts on an outside world of
type `W` and returns a result (`nil` is `none`) and an error (`nil` is `none`).  The logger
and the `OnStateChange` callback (run on its own goroutine) are not modelled. -/

/-- The largest Go `int` (64 bits). -/
def maxInt64 : Int := 9223372036854775807

/-- A sum of Go `int`s wraps around in two's complement. -/
def wrapInt64 (x : Int) : Int := (x + 9223372036854775808) % 18446744073709551616 - 9223372036854775808

/-- Go `State`. -/
inductive State where
  | StateClosed
  | StateOpen
  | StateHalfOpen
deriving DecidableEq, Repr

/-- Go `error` values are told apart by their message. -/
abbrev GoError := String

/-- Go `ErrCircuitOpen`. -/
def ErrCircuitOpen : GoError := "circuit breaker is open"

/-- Go `CircuitBreakerConfig` without its callback. -/
structure CircuitBreakerConfig where
  Name : String
  MaxFailures : Int
  ResetTimeout : Int
  HalfOpenMaxCalls : Int
deriving DecidableEq, Repr

/-- Go `CircuitBreaker` without its logger and mutex. -/
structure CircuitBreaker where
  config : CircuitBreakerConfig
  state : State
  failures : Int
  successes : Int
  lastFailure : Int
  halfOpenCalls : Int
deriving DecidableEq, Repr

/-- Go `NewCircuitBreaker`; the zero `time.Time` is the clock reading 0. -/
def NewCircuitBreaker (cfg : CircuitBreakerConfig) : CircuitBreaker :=
  let cfg := if cfg.MaxFailures = 0 then { cfg with MaxFailures := 5 } else cfg
  let cfg := if cfg.ResetTimeout = 0 then { cfg with ResetTimeout := 30 * 1000000000 } else cfg
  let cfg := if cfg.HalfOpenMaxCalls = 0 then { cfg with HalfOpenMaxCalls := 3 } else cfg
  { config := cfg, state := .StateClosed, failures := 0, successes := 0, lastFailure := 0,
    halfOpenCalls := 0 }

/-- Go `time.Since(t)` read at the clock reading `now`: the difference, saturated to the
range of a `time.Duration`. -/
def timeSince (now t : Int) : Int := max (-maxInt64 - 1) (min maxInt64 (now - t))

/-- Go `(*CircuitBreaker).transitionTo`. -/
def CircuitBreaker.transitionTo (cb : CircuitBreaker) (newState : State) : CircuitBreaker :=
  let cb := { cb with state := newState, halfOpenCalls := 0 }
  if newState = .StateClosed then { cb with failures := 0, successes := 0 } else cb

/-- Go `(*CircuitBreaker).onSuccess`. -/
def CircuitBreaker.onSuccess (cb : CircuitBreaker) : CircuitBreaker :=
  let cb := { cb with failures := 0, successes := wrapInt64 (cb.successes + 1) }
  if cb.state = .StateHalfOpen then cb.transitionTo .StateClosed else cb

/-- Go `(*CircuitBreaker).onFailure`; `now` is the value of `time.Now()`. -/
def CircuitBreaker.onFailure (cb : CircuitBreaker) (now : Int) : CircuitBreaker :=
  let cb := { cb with failures := wrapInt64 (cb.failures + 1), lastFailure := now }
  if cb.state = .StateHalfOpen then cb.transitionTo .StateOpen
  else if cb.failures ≥ cb.config.MaxFailures then cb.transitionTo .StateOpen
  else cb

/-- The first critical section of `Execute`, at the clock reading `now`: the breaker
afterwards, and whether the call goes on to invoke `fn` (otherwise it returns
`ErrCircuitOpen`).  A Go `switch` does not fall through: the call that moves the breaker
from open to half-open does not count itself in `halfOpenCalls`. -/
def CircuitBreaker.enter (cb : CircuitBreaker) (now : Int) : CircuitBreaker × Bool :=
  match cb.state with
  | .StateOpen =>
    if timeSince now cb.lastFailure > cb.config.ResetTimeout then
      (cb.transitionTo .StateHalfOpen, true)
    else (cb, false)
  | .StateHalfOpen =>
    if cb.halfOpenCalls ≥ cb.config.HalfOpenMaxCalls then (cb, false)
    else ({ cb with halfOpenCalls := wrapInt64 (cb.halfOpenCalls + 1) }, true)
  | .StateClosed => (cb, true)

/-- The second critical section of `Execute`, entered with the error `fn` returned;
`now` is the clock reading of `onFailure`. -/
def CircuitBreaker.complete (cb : CircuitBreaker) (err : Option GoError) (now : Int) :
    CircuitBreaker :=
  match err with
  | some _ => cb.onFailure now
  | none => cb.onSuccess

/-- Go `(*CircuitBreaker).Execute` run without overlap: `t1` is the clock reading of the
first critical section, `t2` that of the second.  The value is the breaker afterwards, the
pair returned, and the world afterwards. -/
def CircuitBreaker.Execute {W R : Type} (cb : CircuitBreaker) (t1 t2 : Int)
    (fn : W → (Option R × Option GoError) × W) (w : W) :
    CircuitBreaker × (Option R × Option GoError) × W :=
  match cb.enter t1 with
  | (cb1, false) => (cb1, (none, some ErrCircuitOpen), w)
  | (cb1, true) =>
    match fn w with
    | ((result, some e), w1) => (cb1.complete (some e) t2, (result, some e), w1)
    | ((result, none), w1) => (cb1.complete none t2, (result, none), w1)

/-- One `Execute` call: its two clock readings and its function. -/
structure Call (W R : Type) where
  t1 : Int
  t2 : Int
  fn : W → (Option R × Option GoError) × W

/-- A sequence of `Execute` calls made one after the other: the breaker afterwards, the
pairs returned, the world afterwards. -/
def executeAll {W R : Type} (cb : CircuitBreaker) :
    List (Call W R) → W → CircuitBreaker × List (Option R × Option GoError) × W
  | [], w => (cb, [], w)
  | c :: rest, w =>
    match cb.Execute c.t1 c.t2 c.fn w with
    | (cb1, out, w1) =>
      match executeAll cb1 rest w1 with
      | (cb2, outs, w2) => (cb2, out :: outs, w2)

/-- The functions of a sequence of calls invoked directly, once each and in order: the
pairs they return and the world afterwards. -/
def invokeAll {W R : Type} : List (Call W R) → W → List (Option R × Option GoError) × W
  | [], w => ([], w)
  | c :: rest, w =>
    match c.fn w with
    | (out, w1) =>
      match invokeAll rest w1 with
      | (outs, w2) => (out :: outs, w2)

/-- A function that counts its invocations in the world and fails. -/
def failingFn : Nat → (Option Nat × Option GoError) × Nat :=
  fun n => ((none, some "boom"), n + 1)

/-- Three failing calls. -/
def threeFailures : List (Call Nat Nat) :=
  [{ t1 := 10, t2 := 11, fn := failingFn }, { t1 := 20, t2 := 21, fn := failingFn },
    { t1 := 30, t2 := 31, fn := failingFn }]

/-- A configuration with `MaxFailures = 3`. -/
def cfg3 : CircuitBreakerConfig :=
  { Name := "dep", MaxFailures := 3, ResetTimeout := 50000000, HalfOpenMaxCalls := 1 }

/-- Calls that arrive one after the other while none of them completes: their first
critical sections only, at the given clock readings.  The value is the breaker afterwards
and, for each arrival, whether the call goes on to invoke its function. -/
def enterAll (cb : CircuitBreaker) : List Int → CircuitBreaker × List Bool
  | [] => (cb, [])
  | t :: rest =>
    match cb.enter t with
    | (cb1, ok) =>
      match enterAll cb1 rest with
      | (cb2, oks) => (cb2, ok :: oks)

/-- A function that counts its invocations in the world and succeeds. -/
def succeedingFn : Nat → (Option Nat × Option GoError) × Nat :=
  fun n => ((some 42, none), n + 1)

/-- An open breaker with `HalfOpenMaxCalls = 1` and `ResetTimeout` 50 ms whose last failure
was at the clock reading 100. -/
def openBreaker : CircuitBreaker :=
  { config := cfg3, state := .StateOpen, failures := 3, successes := 0, lastFailure := 100,
    halfOpenCalls := 0 }

/-- A half-open breaker that has admitted no call yet. -/
def halfOpenBreaker : CircuitBreaker :=
  { config := cfg3, state := .StateHalfOpen, failures := 3, successes := 0, lastFailure := 100,
    halfOpenCalls := 0 }

/-- Two failures, a success, two failures. -/
def mixedCalls : List (Call Nat Nat) :=
  [{ t1 := 10, t2 := 11, fn := failingFn }, { t1 := 20, t2 := 21, fn := failingFn },
    { t1 := 30, t2 := 31, fn := succeedingFn }, { t1 := 40, t2 := 41, fn := failingFn },
    { t1 := 50, t2 := 51, fn := failingFn }]

/-! ## The retry driver of `api-gateway/internal/resilience`

`calculateDelay` is floating point arithmetic over a sample of the global random source; in
the driver it is a field of the environment, as are the reads of the context and the
`select` between `ctx.Done()` and the timer.  The function `fn` acts on an outside world of
type `W`.  The driver's value lists what it did to the outside, in order. -/

/-- Go `RetryConfig`; `F` stands for `float64`. -/
structure RetryConfig (F : Type) where
  MaxAttempts : Int
  InitialDelay : Int
  MaxDelay : Int
  Multiplier : F
  JitterFactor : F

/-- What the driver does to the outside: an invocation of `fn` with the error it returned, or
a wait of the given delay, `cancelled` when the `select` took `ctx.Done()` and not the
timer. -/
inductive RetryEvent where
  | invoked (err : Option GoError)
  | waited (delay : Int) (cancelled : Bool)
deriving DecidableEq, Repr

/-- How a call of the driver ends: it returns an error (`nil` is `none`), or it panics. -/
inductive RetryResult where
  | returned (err : Option GoError)
  | panicked
deriving DecidableEq, Repr

/-- The surroundings of the driver. -/
structure RetryEnv (F W : Type) where
  /-- The value of `ctx.Err()`. -/
  ctxErr : W → Option GoError
  /-- The value of `calculateDelay(attempt, cfg)` and the world after the random draw. -/
  calculateDelay : Int → RetryConfig F → W → Int × W
  /-- The `select` on `ctx.Done()` and `time.After(delay)`: `true` when the first case is
  taken, and the world after the wait. -/
  select : Int → W → Bool × W

/-- What follows the loop of `RetryWithBackoff`: `lastErr.Error()` is evaluated for the log
line, which is a nil dereference when `lastErr` is still `nil`; then `lastErr` is returned. -/
def RetryWithBackoff.exhausted {W : Type} (lastErr : Option GoError) (w : W) :
    RetryResult × List RetryEvent × W :=
  match lastErr with
  | none => (.panicked, [], w)
  | some e => (.returned (some e), [], w)

/-- The loop of `RetryWithBackoff` from the given attempt on, and what follows the loop. -/
def RetryWithBackoff.loop {F W : Type} (env : RetryEnv F W) (cfg : RetryConfig F)
    (fn : W → Option GoError × W) (attempt : Int) (lastErr : Option GoError) (w : W) :
    RetryResult × List RetryEvent × W :=
  if _h : attempt < cfg.MaxAttempts then
    match env.ctxErr w with
    | some e => (.returned (some e), [], w)
    | none =>
      match fn w with
      | (none, w1) => (.returned none, [.invoked none], w1)
      | (some e, w1) =>
        if attempt < cfg.MaxAttempts - 1 then
          match env.calculateDelay attempt cfg w1 with
          | (delay, w2) =>
            match env.select delay w2 with
            | (true, w3) =>
              (.returned (env.ctxErr w3), [.invoked (some e), .waited delay true], w3)
            | (false, w3) =>
              match RetryWithBackoff.loop env cfg fn (attempt + 1) (some e) w3 with
              | (r, evs, w4) => (r, .invoked (some e) :: .waited delay false :: evs, w4)
        else
          match RetryWithBackoff.loop env cfg fn (attempt + 1) (some e) w1 with
          | (r, evs, w2) => (r, .invoked (some e) :: evs, w2)
  else RetryWithBackoff.exhausted lastErr w
termination_by (cfg.MaxAttempts - attempt).toNat
decreasing_by all_goals (simp_wf; omega)

/-- Go `RetryWithBackoff`. -/
def RetryWithBackoff {F W : Type} (env : RetryEnv F W) (cfg : RetryConfig F)
    (fn : W → Option GoError × W) (w : W) : RetryResult × List RetryEvent × W :=
  RetryWithBackoff.loop env cfg fn 0 none w

/-- The number of invocations of `fn` in a list of events. -/
def invocations : List RetryEvent → Nat
  | [] => 0
  | .invoked _ :: rest => invocations rest + 1
  | .waited _ _ :: rest => invocations rest

/-- The number of waits that ran to the end of their delay in a list of events. -/
def waits : List RetryEvent → Nat
  | [] => 0
  | .invoked _ :: rest => waits rest
  | .waited _ false :: rest => waits rest + 1
  | .waited _ true :: rest => waits rest

/-- The context is never cancelled: `ctx.Err()` is always `nil` and every `select` takes the
timer. -/
def RetryEnv.NeverCancelled {F W : Type} (env : RetryEnv F W) : Prop :=
  (∀ w, env.ctxErr w = none) ∧ ∀ d w, (env.select d w).1 = false

/-- A cancelled context stays cancelled through the random draw and the wait. -/
def RetryEnv.CancelPersists {F W : Type} (env : RetryEnv F W) (cfg : RetryConfig F) : Prop :=
  ∀ w, env.ctxErr w ≠ none →
    (∀ a, env.ctxErr (env.calculateDelay a cfg w).2 ≠ none) ∧
      ∀ d, env.ctxErr (env.select d w).2 ≠ none

/-- The function `count` counts the invocations of `fn`: an invocation adds one to it, the
random draw and the wait leave it alone. -/
def RetryEnv.Counts {F W : Type} (env : RetryEnv F W) (cfg : RetryConfig F)
    (fn : W → Option GoError × W) (count : W → Nat) : Prop :=
  (∀ w, count (fn w).2 = count w + 1) ∧
    (∀ a w, count (env.calculateDelay a cfg w).2 = count w) ∧
      ∀ d w, count (env.select d w).2 = count w

/-- A toy world for the driver: the number of invocations so far and whether the context is
cancelled. -/
structure RetryWorld where
  calls : Nat
  cancelled : Bool
deriving DecidableEq, Repr

/-- A toy environment: the delay is `InitialDelay`, the `select` takes `ctx.Done()` exactly
when the context is cancelled. -/
def toyRetryEnv : RetryEnv Nat RetryWorld where
  ctxErr := fun w => if w.cancelled then some "context canceled" else none
  calculateDelay := fun _ cfg w => (cfg.InitialDelay, w)
  select := fun _ w => (w.cancelled, w)

/-- A toy environment whose context is never cancelled. -/
def calmRetryEnv : RetryEnv Nat RetryWorld where
  ctxErr := fun _ => none
  calculateDelay := fun _ cfg w => (cfg.InitialDelay, w)
  select := fun _ w => (false, w)

/-- A configuration with `MaxAttempts = 5` and `InitialDelay` 10 ms. -/
def retryCfg5 : RetryConfig Nat :=
  { MaxAttempts := 5, InitialDelay := 10000000, MaxDelay := 1000000000, Multiplier := 2,
    JitterFactor := 0 }

/-- A function that always fails. -/
def alwaysFails : RetryWorld → Option GoError × RetryWorld :=
  fun w => (some "boom", { w with calls := w.calls + 1 })

/-- A function that fails twice and succeeds from its third invocation on. -/
def succeedsThird : RetryWorld → Option GoError × RetryWorld :=
  fun w => (if w.calls + 1 < 3 then some "boom" else none, { w with calls := w.calls + 1 })

/-- A function that fails and cancels the context. -/
def failsAndCancels : RetryWorld → Option GoError × RetryWorld :=
  fun w => (some "boom", { calls := w.calls + 1, cancelled := true })

/-! ## The dead-letter queue of `api-gateway/internal/resilience`

The map `messages` is a list of pairs of a key and the message stored under it, with no key
twice; the order of the list means nothing.  The order in which a `range` over the map
visits its entries is not fixed by Go: the operation that ranges takes it as an argument,
a function that reorders the entries.  A `time.Time` is the number of nanoseconds since the
zero `time.Time`.  Messages are values: the pointers of the Go code are not modelled. -/

/-- Go `DeadLetterMessage`. -/
structure DeadLetterMessage where
  ID : String
  OriginalTopic : String
  Payload : List Byte
  Error : String
  RetryCount : Int
  MaxRetries : Int
  FirstFailed : Int
  LastFailed : Int
  Metadata : List (String × String)
deriving DecidableEq, Repr

/-- Go `DeadLetterQueue` without its logger and mutex. -/
structure DeadLetterQueue where
  messages : List (String × DeadLetterMessage)
  maxSize : Int
deriving DecidableEq, Repr

/-- Go `delete(m, k)`. -/
def mapDelete (m : List (String × DeadLetterMessage)) (k : String) :
    List (String × DeadLetterMessage) :=
  m.filter fun e => decide (e.1 ≠ k)

/-- Go `m[k] = v`. -/
def mapInsert (m : List (String × DeadLetterMessage)) (k : String) (v : DeadLetterMessage) :
    List (String × DeadLetterMessage) :=
  mapDelete m k ++ [(k, v)]

/-- Go `m[k]` with its `ok`. -/
def mapLookup (m : List (String × DeadLetterMessage)) (k : String) : Option DeadLetterMessage :=
  (m.find? fun e => decide (e.1 = k)).map fun e => e.2

/-- Go `NewDeadLetterQueue`. -/
def NewDeadLetterQueue (maxSize : Int) : DeadLetterQueue :=
  { messages := [], maxSize := if maxSize = 0 then 10000 else maxSize }

/-- The loop of `evictOldest` over the entries in the order they are visited: `oldest` is
replaced by a message whose `FirstFailed` is before its own. -/
def evictOldest.scan :
    Option DeadLetterMessage → List (String × DeadLetterMessage) → Option DeadLetterMessage
  | oldest, [] => oldest
  | none, e :: rest => evictOldest.scan (some e.2) rest
  | some o, e :: rest =>
    if e.2.FirstFailed < o.FirstFailed then evictOldest.scan (some e.2) rest
    else evictOldest.scan (some o) rest

/-- Go `(*DeadLetterQueue).evictOldest`; `range` gives the order of the visit. -/
def DeadLetterQueue.evictOldest (q : DeadLetterQueue)
    (range : List (String × DeadLetterMessage) → List (String × DeadLetterMessage)) :
    DeadLetterQueue :=
  match evictOldest.scan none (range q.messages) with
  | none => q
  | some oldest => { q with messages := mapDelete q.messages oldest.ID }

/-- Go `(*DeadLetterQueue).Enqueue`; `now` is the value of `time.Now().UTC()`.  The value
is the queue afterwards and the message as the call leaves it. -/
def DeadLetterQueue.Enqueue (q : DeadLetterQueue) (msg : DeadLetterMessage) (now : Int)
    (range : List (String × DeadLetterMessage) → List (String × DeadLetterMessage)) :
    DeadLetterQueue × DeadLetterMessage :=
  let q := if (q.messages.length : Int) ≥ q.maxSize then q.evictOldest range else q
  let msg := { msg with LastFailed := now }
  let msg := if msg.FirstFailed = 0 then { msg with FirstFailed := msg.LastFailed } else msg
  let msg := { msg with RetryCount := wrapInt64 (msg.RetryCount + 1) }
  ({ q with messages := mapInsert q.messages msg.ID msg }, msg)

/-- Go `(*DeadLetterQueue).Dequeue`. -/
def DeadLetterQueue.Dequeue (q : DeadLetterQueue) (id : String) :
    DeadLetterQueue × Option DeadLetterMessage :=
  match mapLookup q.messages id with
  | some msg => ({ q with messages := mapDelete q.messages id }, some msg)
  | none => (q, none)

/-- Go `(*DeadLetterQueue).Size`. -/
def DeadLetterQueue.Size (q : DeadLetterQueue) : Int := (q.messages.length : Int)

/-- One `Enqueue` call: the message, the clock reading, and the order in which the map is
visited should the call evict. -/
structure EnqueueCall where
  msg : DeadLetterMessage
  now : Int
  range : List (String × DeadLetterMessage) → List (String × DeadLetterMessage)

/-- A sequence of `Enqueue` calls made one after the other. -/
def enqueueAll (q : DeadLetterQueue) : List EnqueueCall → DeadLetterQueue
  | [] => q
  | c :: rest => enqueueAll (q.Enqueue c.msg c.now c.range).1 rest

/-- The keys of the map. -/
def DeadLetterQueue.keys (q : DeadLetterQueue) : List String := q.messages.map fun e => e.1

/-- The map is well formed: no key twice, and every message is stored under its `ID`. -/
def DeadLetterQueue.WellFormed (q : DeadLetterQueue) : Prop :=
  q.keys.Nodup ∧ ∀ e ∈ q.messages, e.2.ID = e.1

/-- A message with the given `ID` that has not failed before. -/
def newMessage (id : String) : DeadLetterMessage :=
  { ID := id, OriginalTopic := "events", Payload := [], Error := "timeout", RetryCount := 0,
    MaxRetries := 3, FirstFailed := 0, LastFailed := 0, Metadata := [] }

/-- Three `Enqueue` calls with different `ID`s; the map is visited in the order of the
list, or in the reverse order. -/
def threeEnqueues : List EnqueueCall :=
  [{ msg := newMessage "a", now := 100, range := id },
    { msg := newMessage "b", now := 200, range := List.reverse },
    { msg := newMessage "c", now := 300, range := id }]

/-- The toy queue with `maxSize = 2` after the first two of the three `Enqueue` calls: it
holds the messages `a` and `b`. -/
def fullQueue : DeadLetterQueue := enqueueAll (NewDeadLetterQueue 2) (threeEnqueues.take 2)

/-! ## Request mediation of the API gateway

A `fiber.Ctx` is the request headers, the route parameters, the locals and the response
headers set so far.  A handler either answers (status and JSON body) or calls `c.Next()`;
its value is the `Reply`, with the context as the handler leaves it.  The library
`golang-jwt` and `strings.ToLower` are parameters. -/

/-- A value held in the locals (Go `interface{}`): a string, or anything else. -/
inductive LocalValue where
  | str (s : String)
  | other
deriving DecidableEq, Repr

/-- Go `v, _ := x.(string)` on a local that may be absent. -/
def LocalValue.asString : Option LocalValue → String
  | some (.str s) => s
  | _ => ""

/-- The value stored under a key in a list of pairs. -/
def assocGet {α : Type} (m : List (String × α)) (k : String) : Option α :=
  (m.find? fun e => decide (e.1 = k)).map fun e => e.2

/-- The list of pairs with the key set to the value. -/
def assocSet {α : Type} (m : List (String × α)) (k : String) (v : α) : List (String × α) :=
  (m.filter fun e => decide (e.1 ≠ k)) ++ [(k, v)]

/-- The parts of Go `fiber.Ctx` the handlers use. -/
structure Ctx where
  headers : List (String × String)
  params : List (String × String)
  locals : List (String × LocalValue)
  respHeaders : List (String × String)
deriving DecidableEq, Repr

/-- Go `c.Get(key)`: the request header, or the empty string. -/
def Ctx.Get (c : Ctx) (key : String) : String := (assocGet c.headers key).getD ""

/-- Go `c.Params(key)`: the route parameter, or the empty string. -/
def Ctx.Params (c : Ctx) (key : String) : String := (assocGet c.params key).getD ""

/-- Go `c.Locals(key)`. -/
def Ctx.Locals (c : Ctx) (key : String) : Option LocalValue := assocGet c.locals key

/-- Go `c.Locals(key, value)`. -/
def Ctx.SetLocals (c : Ctx) (key : String) (v : LocalValue) : Ctx :=
  { c with locals := assocSet c.locals key v }

/-- Go `c.Set(key, value)`: a response header. -/
def Ctx.Set (c : Ctx) (key : String) (v : String) : Ctx :=
  { c with respHeaders := assocSet c.respHeaders key v }

/-- A value of a JSON body: a string or a list of strings. -/
inductive JsonField where
  | str (s : String)
  | strs (l : List String)
deriving DecidableEq, Repr

/-- What a handler does: it answers with a status and a JSON body, or it calls the next
handler. -/
inductive Reply where
  | responded (status : Nat) (body : List (String × JsonField)) (c : Ctx)
  | next (c : Ctx)
deriving DecidableEq, Repr

/-- The constant `fiber.StatusForbidden`. -/
def StatusForbidden : Nat := 403

/-- The constant `fiber.StatusUnauthorized`. -/
def StatusUnauthorized : Nat := 401

/-- Go `TenantIsolation()`, the handler it returns. -/
def TenantIsolation (c : Ctx) : Reply :=
  let orgID := LocalValue.asString (c.Locals "org_id")
  if orgID = "" then
    .responded StatusForbidden
      [("error", .str "tenant context missing — org_id not found in token")] c
  else
    let paramOrgID := c.Params "orgId"
    if paramOrgID ≠ "" ∧ paramOrgID ≠ orgID then
      .responded StatusForbidden [("error", .str "cross-tenant access denied")] c
    else
      let c := c.Set "X-Tenant-ID" orgID
      let c := c.SetLocals "tenant_id" (.str orgID)
      .next c

/-- The map `roleSet` built by `RoleGuard`. -/
def RoleGuard.roleSet (allowedRoles : List String) : List (String × Bool) :=
  allowedRoles.foldl (fun m r => assocSet m r true) []

/-- Go `RoleGuard(allowedRoles...)`, the handler it returns. -/
def RoleGuard (allowedRoles : List String) (c : Ctx) : Reply :=
  let roleSet := RoleGuard.roleSet allowedRoles
  let role := LocalValue.asString (c.Locals "role")
  if !((assocGet roleSet role).getD false) then
    .responded StatusForbidden
      [("error", .str "insufficient permissions"), ("required_roles", .strs allowedRoles)] c
  else .next c

/-- Go `Claims`: the subject of the registered claims and the three custom claims. -/
structure Claims where
  Subject : String
  OrgID : String
  Role : String
  Email : String
deriving DecidableEq, Repr

/-- Go `jwt.Token` as the gateway reads it: whether `Method` is a `*jwt.SigningMethodHMAC`,
and `Valid`. -/
structure JwtToken where
  isHMAC : Bool
  Valid : Bool
deriving DecidableEq, Repr

/-- The library `golang-jwt` and `strings.ToLower`. -/
structure GatewayLib where
  /-- The function `jwt.ParseWithClaims(tokenStr, claims, keyFunc)`: the error or the token
  it returns, and the claims it has filled in. -/
  ParseWithClaims : String → (JwtToken → Except GoError (List Byte)) →
    Except GoError JwtToken × Claims
  /-- The token the library decodes from the string, before any verification, and hands to
  the key function; `none` for a string that is no token. -/
  Unverified : String → Option JwtToken
  /-- The function `strings.ToLower`. -/
  ToLower : String → String

/-- The contract of `jwt.ParseWithClaims`: it returns no error only if the key function
accepted the token decoded from the string, and the token returned has the method of that
token. -/
def GatewayLib.KeyFuncRespected (L : GatewayLib) : Prop :=
  ∀ s kf t c, L.ParseWithClaims s kf = (.ok t, c) →
    ∃ t0 key, L.Unverified s = some t0 ∧ kf t0 = .ok key ∧ t.isHMAC = t0.isHMAC

/-- Go `config.Config` of the gateway, the field the handlers read. -/
structure GatewayConfig where
  JWTSecret : String
deriving DecidableEq, Repr

/-- Go `strings.SplitN(s, " ", 2)`. -/
def splitN2 (s : String) : List String :=
  match s.data.span fun ch => decide (ch ≠ ' ') with
  | (a, []) => [String.mk a]
  | (a, _ :: b) => [String.mk a, String.mk b]

/-- The key function `JWTAuth` hands to `jwt.ParseWithClaims`. -/
def JWTAuth.keyFunc (cfg : GatewayConfig) (t : JwtToken) : Except GoError (List Byte) :=
  if !t.isHMAC then .error "unexpected signing method"
  else .ok (stringBytes cfg.JWTSecret)

/-- Go `JWTAuth(cfg)`, the handler it returns. -/
def JWTAuth (L : GatewayLib) (cfg : GatewayConfig) (c : Ctx) : Reply :=
  let authHeader := c.Get "Authorization"
  if authHeader = "" then
    .responded StatusUnauthorized
      [("error", .str "unauthorized"), ("message", .str "missing authorization header")] c
  else
    let parts := splitN2 authHeader
    if parts.length ≠ 2 ∨ L.ToLower (parts.getD 0 "") ≠ "bearer" then
      .responded StatusUnauthorized
        [("error", .str "unauthorized"), ("message", .str "invalid authorization format")] c
    else
      let tokenStr := parts.getD 1 ""
      match L.ParseWithClaims tokenStr (JWTAuth.keyFunc cfg) with
      | (.ok token, claims) =>
        if !token.Valid then
          .responded StatusUnauthorized
            [("error", .str "unauthorized"), ("message", .str "invalid or expired token")] c
        else
          let c := c.SetLocals "user_id" (.str claims.Subject)
          let c := c.SetLocals "org_id" (.str claims.OrgID)
          let c := c.SetLocals "role" (.str claims.Role)
          let c := c.SetLocals "email" (.str claims.Email)
          .next c
      | (.error _, _) =>
        .responded StatusUnauthorized
          [("error", .str "unauthorized"), ("message", .str "invalid or expired token")] c

/-- A handler of a route of the gateway: one of the three mediation handlers, or the
handler of the resource, by the name of the function that builds it. -/
inductive Handler where
  | JWTAuth
  | TenantIsolation
  | RoleGuard (allowedRoles : List String)
  | resource (name : String)
deriving DecidableEq, Repr

/-- A route: method, path and the handlers in the order they are called. -/
structure Route where
  method : String
  path : String
  chain : List Handler
deriving DecidableEq, Repr

/-- A route of the group `protected := v1.Group("", middleware.JWTAuth(cfg))`. -/
def protectedRoute (method path name : String) : Route :=
  { method := method, path := "/api/v1" ++ path, chain := [.JWTAuth, .resource name] }

/-- The routes registered by `main` under `/api/v1`, and `/ws`. -/
def routes : List Route :=
  [{ method := "POST", path := "/api/v1/auth/token", chain := [.resource "AuthToken"] },
    protectedRoute "GET" "/organizations" "ListOrganizations",
    protectedRoute "POST" "/organizations" "CreateOrganization",
    protectedRoute "GET" "/organizations/:orgId" "GetOrganization",
    protectedRoute "GET" "/organizations/:orgId/repos" "ListRepositories",
    protectedRoute "POST" "/organizations/:orgId/repos" "CreateRepository",
    protectedRoute "GET" "/repos/:repoId" "GetRepository",
    protectedRoute "POST" "/repos/:repoId/analyze" "TriggerAnalysis",
    protectedRoute "GET" "/repos/:repoId/analyses" "ListAnalyses",
    protectedRoute "GET" "/analyses/:analysisId" "GetAnalysis",
    protectedRoute "GET" "/analyses/:analysisId/dependencies" "GetDependencyGraph",
    protectedRoute "GET" "/repos/:repoId/drift" "ListDriftEvents",
    protectedRoute "PATCH" "/drift/:driftId" "UpdateDriftEvent",
    protectedRoute "GET" "/organizations/:orgId/rules" "ListRules",
    protectedRoute "POST" "/organizations/:orgId/rules" "CreateRule",
    protectedRoute "PUT" "/rules/:ruleId" "UpdateRule",
    protectedRoute "DELETE" "/rules/:ruleId" "DeleteRule",
    protectedRoute "POST" "/repos/:repoId/phantom" "CreatePhantomExecution",
    protectedRoute "GET" "/phantom/:phantomId" "GetPhantomExecution",
    protectedRoute "GET" "/drift/:driftId/fixes" "ListSyntheticFixes",
    protectedRoute "POST" "/fixes/:fixId/apply" "ApplySyntheticFix",
    protectedRoute "GET" "/repos/:repoId/metrics" "GetArchitectureMetrics",
    protectedRoute "GET" "/organizations/:orgId/audit" "ListAuditLog",
    { method := "GET", path := "/ws", chain := [.JWTAuth, .resource "WebSocketUpgrade"] }]

/-- How a request ends on a chain of handlers: a mediation handler answers, or the handler
of the resource is reached. -/
inductive Served where
  | rejected (status : Nat) (body : List (String × JsonField)) (c : Ctx)
  | reached (name : String) (c : Ctx)
deriving DecidableEq, Repr

/-- A chain of handlers run on a request; `none` when the chain ends without a resource. -/
def runChain (L : GatewayLib) (cfg : GatewayConfig) : List Handler → Ctx → Option Served
  | [], _ => none
  | .resource name :: _, c => some (.reached name c)
  | .JWTAuth :: rest, c =>
    match JWTAuth L cfg c with
    | .responded status body c1 => some (.rejected status body c1)
    | .next c1 => runChain L cfg rest c1
  | .TenantIsolation :: rest, c =>
    match TenantIsolation c with
    | .responded status body c1 => some (.rejected status body c1)
    | .next c1 => runChain L cfg rest c1
  | .RoleGuard allowed :: rest, c =>
    match RoleGuard allowed c with
    | .responded status body c1 => some (.rejected status body c1)
    | .next c1 => runChain L cfg rest c1

/-- A toy library: the only token it accepts is the string `good`, signed with an HMAC
method, whose claims name the organisation `A`; the string `rsa` is a token with another
signing method. -/
def toyGatewayLib : GatewayLib where
  ParseWithClaims := fun s kf =>
    if s = "good" then
      match kf { isHMAC := true, Valid := false } with
      | .ok _ =>
        (.ok { isHMAC := true, Valid := true },
          { Subject := "u1", OrgID := "A", Role := "admin", Email := "u1@a.example" })
      | .error e => (.error e, { Subject := "", OrgID := "", Role := "", Email := "" })
    else if s = "rsa" then
      match kf { isHMAC := false, Valid := false } with
      | .ok _ =>
        (.ok { isHMAC := false, Valid := true },
          { Subject := "u2", OrgID := "A", Role := "admin", Email := "u2@a.example" })
      | .error e => (.error e, { Subject := "", OrgID := "", Role := "", Email := "" })
    else (.error "token is malformed", { Subject := "", OrgID := "", Role := "", Email := "" })
  Unverified := fun s =>
    if s = "good" then some { isHMAC := true, Valid := false }
    else if s = "rsa" then some { isHMAC := false, Valid := false }
    else none
  ToLower := fun s => String.mk (s.data.map Char.toLower)

/-- The toy configuration. -/
def toyGatewayConfig : GatewayConfig := { JWTSecret := "secret" }

/-- A request for `/api/v1/organizations/B` that carries the token `good`. -/
def crossTenantRequest : Ctx :=
  { headers := [("Authorization", "Bearer good")], params := [("orgId", "B")], locals := [],
    respHeaders := [] }

/-- A request for `/api/v1/organizations/A` that carries the token `good`. -/
def sameTenantRequest : Ctx :=
  { headers := [("Authorization", "Bearer good")], params := [("orgId", "A")], locals := [],
    respHeaders := [] }

/-- A request that carries the token `rsa`. -/
def rsaRequest : Ctx :=
  { headers := [("Authorization", "Bearer rsa")], params := [], locals := [],
    respHeaders := [] }

/-- A request with the scheme `Basic`. -/
def basicRequest : Ctx :=
  { headers := [("Authorization", "Basic good")], params := [], locals := [],
    respHeaders := [] }

/-! ## The pipeline orchestrator of `api-gateway/internal/pipeline`

A stage function reads the run and acts on an outside world of type `W`; it returns an
output of type `O` (`nil` is `none`) and an error.  The context and the clock are read from
the world.  The four goroutines of the parallel block run their stages one after the other
in an order that the scheduler chooses: the order is an argument, a function that reorders
the list of the parallel stages.  A `time.Time` is a number of nanoseconds, and so are the
two durations (the Go fields hold them as `float64` milliseconds).  Loggers and listeners
are not modelled. -/

/-- Go `Stage`. -/
abbrev Stage := String

/-- Go `StageUpload`. -/
def StageUpload : Stage := "upload"
/-- Go `StageAuth`. -/
def StageAuth : Stage := "authentication"
/-- Go `StageParse`. -/
def StageParse : Stage := "wasm_parsing"
/-- Go `StageAST`. -/
def StageAST : Stage := "structural_ast"
/-- Go `StageAIAnalysis`. -/
def StageAIAnalysis : Stage := "gemini_analysis"
/-- Go `StageRuleEngine`. -/
def StageRuleEngine : Stage := "rule_evaluation"
/-- Go `StageAuditTrail`. -/
def StageAuditTrail : Stage := "audit_trail"
/-- Go `StageLedger`. -/
def StageLedger : Stage := "sovereign_ledger"
/-- Go `StageDashboard`. -/
def StageDashboard : Stage := "dashboard_update"
/-- Go `StageSecAlerts`. -/
def StageSecAlerts : Stage := "security_alerts"
/-- Go `StageCompliance`. -/
def StageCompliance : Stage := "compliance_reports"
/-- Go `StageInsights`. -/
def StageInsights : Stage := "strategic_insights"

/-- Go `PipelineStatus`. -/
inductive PipelineStatus where
  | StatusPending
  | StatusRunning
  | StatusCompleted
  | StatusFailed
  | StatusCancelled
deriving DecidableEq, Repr

/-- Go `StageResult`. -/
structure StageResult (O : Type) where
  Stage : ArchLens.Stage
  Status : PipelineStatus
  StartedAt : Int
  EndedAt : Option Int
  Duration : Int
  Output : Option O
  Error : String

/-- Go `PipelineRun`. -/
structure PipelineRun (O : Type) where
  ID : String
  RepoID : String
  OrgID : String
  CommitSHA : String
  Branch : String
  Status : PipelineStatus
  Stages : List (StageResult O)
  CreatedAt : Int
  CompletedAt : Option Int
  TotalDuration : Int
  Metadata : List (String × String)

/-- A stage function: `func(ctx, run) (interface{}, error)`. -/
abbrev StageFn (W O : Type) := PipelineRun O → W → (Option O × Option GoError) × W

/-- The context and the clock of the orchestrator. -/
structure PipelineEnv (W : Type) where
  /-- The value of `ctx.Err()`. -/
  ctxErr : W → Option GoError
  /-- The value of `time.Now()`. -/
  now : W → Int

/-- The twelve stage functions of the orchestrator. -/
structure StageFns (W O : Type) where
  stageUpload : StageFn W O
  stageAuth : StageFn W O
  stageParse : StageFn W O
  stageAST : StageFn W O
  stageAIAnalysis : StageFn W O
  stageRuleEngine : StageFn W O
  stageAuditTrail : StageFn W O
  stageLedger : StageFn W O
  stageDashboard : StageFn W O
  stageSecurityAlerts : StageFn W O
  stageCompliance : StageFn W O
  stageInsights : StageFn W O

/-- The slice `sequentialStages` of `executePipeline`. -/
def sequentialStages {W O : Type} (fns : StageFns W O) : List (Stage × StageFn W O) :=
  [(StageUpload, fns.stageUpload), (StageAuth, fns.stageAuth), (StageParse, fns.stageParse),
    (StageAST, fns.stageAST), (StageAIAnalysis, fns.stageAIAnalysis),
    (StageRuleEngine, fns.stageRuleEngine), (StageAuditTrail, fns.stageAuditTrail),
    (StageLedger, fns.stageLedger)]

/-- The slice `parallelStages` of `executePipeline`. -/
def parallelStages {W O : Type} (fns : StageFns W O) : List (Stage × StageFn W O) :=
  [(StageDashboard, fns.stageDashboard), (StageSecAlerts, fns.stageSecurityAlerts),
    (StageCompliance, fns.stageCompliance), (StageInsights, fns.stageInsights)]

/-- Go `(*Orchestrator).StartPipeline` up to the `go` statement: the run it creates; `id`
is the value of `uuid.New().String()`. -/
def StartPipeline {W O : Type} (env : PipelineEnv W) (id repoID orgID commitSHA branch : String)
    (w : W) : PipelineRun O :=
  { ID := id, RepoID := repoID, OrgID := orgID, CommitSHA := commitSHA, Branch := branch,
    Status := .StatusRunning, Stages := [], CreatedAt := env.now w, CompletedAt := none,
    TotalDuration := 0, Metadata := [] }

/-- Go `(*Orchestrator).executeStage`: the run with the result appended, the result, and
the world afterwards. -/
def executeStage {W O : Type} (env : PipelineEnv W) (run : PipelineRun O) (stage : Stage)
    (fn : StageFn W O) (w : W) : PipelineRun O × StageResult O × W :=
  let start := env.now w
  match fn run w with
  | ((output, err), w1) =>
    let now := env.now w1
    let result : StageResult O :=
      match err with
      | some e =>
        { Stage := stage, Status := .StatusFailed, StartedAt := start, EndedAt := some now,
          Duration := now - start, Output := none, Error := e }
      | none =>
        { Stage := stage, Status := .StatusCompleted, StartedAt := start, EndedAt := some now,
          Duration := now - start, Output := output, Error := "" }
    ({ run with Stages := run.Stages ++ [result] }, result, w1)

/-- Go `(*Orchestrator).failPipeline`; the reason goes to the log only. -/
def failPipeline {W O : Type} (env : PipelineEnv W) (run : PipelineRun O) (_reason : String)
    (w : W) : PipelineRun O :=
  let now := env.now w
  { run with Status := .StatusFailed, CompletedAt := some now,
             TotalDuration := now - run.CreatedAt }

/-- Where an execution of the pipeline stands: the successive values of the run, one for
each write, oldest first; the run; the world; and whether `executePipeline` goes on (`false`
once it has returned from the sequential loop). -/
structure Progress (W O : Type) where
  states : List (PipelineRun O)
  run : PipelineRun O
  w : W
  ok : Bool

/-- The loop of `executePipeline` over the sequential stages. -/
def executePipeline.sequential {W O : Type} (env : PipelineEnv W) :
    List (Stage × StageFn W O) → PipelineRun O → W → Progress W O
  | [], run, w => { states := [], run := run, w := w, ok := true }
  | s :: rest, run, w =>
    match env.ctxErr w with
    | some _ =>
      { states := [failPipeline env run "pipeline cancelled" w],
        run := failPipeline env run "pipeline cancelled" w, w := w, ok := false }
    | none =>
      if (executeStage env run s.1 s.2 w).2.1.Status = .StatusFailed then
        { states := [(executeStage env run s.1 s.2 w).1,
            failPipeline env (executeStage env run s.1 s.2 w).1
              ("stage " ++ s.1 ++ " failed: " ++ (executeStage env run s.1 s.2 w).2.1.Error)
              (executeStage env run s.1 s.2 w).2.2],
          run := failPipeline env (executeStage env run s.1 s.2 w).1
              ("stage " ++ s.1 ++ " failed: " ++ (executeStage env run s.1 s.2 w).2.1.Error)
              (executeStage env run s.1 s.2 w).2.2,
          w := (executeStage env run s.1 s.2 w).2.2, ok := false }
      else
        { executePipeline.sequential env rest (executeStage env run s.1 s.2 w).1
            (executeStage env run s.1 s.2 w).2.2 with
          states := (executeStage env run s.1 s.2 w).1 ::
            (executePipeline.sequential env rest (executeStage env run s.1 s.2 w).1
              (executeStage env run s.1 s.2 w).2.2).states }

/-- The parallel block of `executePipeline`, its stages taken in the order in which they
complete. -/
def executePipeline.parallel {W O : Type} (env : PipelineEnv W) :
    List (Stage × StageFn W O) → PipelineRun O → W → Progress W O
  | [], run, w => { states := [], run := run, w := w, ok := true }
  | s :: rest, run, w =>
    { executePipeline.parallel env rest (executeStage env run s.1 s.2 w).1
        (executeStage env run s.1 s.2 w).2.2 with
      states := (executeStage env run s.1 s.2 w).1 ::
        (executePipeline.parallel env rest (executeStage env run s.1 s.2 w).1
          (executeStage env run s.1 s.2 w).2.2).states }

/-- Go `(*Orchestrator).executePipeline`; `schedule` gives the order in which the stages of
the parallel block complete. -/
def executePipeline {W O : Type} (env : PipelineEnv W) (fns : StageFns W O)
    (schedule : List (Stage × StageFn W O) → List (Stage × StageFn W O))
    (run : PipelineRun O) (w : W) : Progress W O :=
  let p1 := executePipeline.sequential env (sequentialStages fns) run w
  if !p1.ok then p1
  else
    let p2 := executePipeline.parallel env (schedule (parallelStages fns)) p1.run p1.w
    let now := env.now p2.w
    let done : PipelineRun O :=
      { p2.run with CompletedAt := some now, Status := .StatusCompleted,
                    TotalDuration := now - p2.run.CreatedAt }
    { states := p1.states ++ p2.states ++ [done], run := done, w := p2.w, ok := true }

/-- The stages of the sequential block, in order. -/
def sequentialNames : List Stage :=
  [StageUpload, StageAuth, StageParse, StageAST, StageAIAnalysis, StageRuleEngine,
    StageAuditTrail, StageLedger]

/-- The stages of the parallel block. -/
def parallelNames : List Stage :=
  [StageDashboard, StageSecAlerts, StageCompliance, StageInsights]

/-- The order of a stage list: its first entries, up to eight, are a prefix of the sequential
block; an entry of the parallel block stands after the eighth place, and then the first
eight entries are the sequential block, all completed; no stage occurs twice. -/
def StageOrder {O : Type} (stages : List (StageResult O)) : Prop :=
  List.IsPrefix ((stages.map fun t => t.Stage).take 8) sequentialNames ∧
    (∀ i t, stages[i]? = some t → t.Stage ∈ parallelNames →
      8 ≤ i ∧ (stages.take 8).map (fun t => t.Stage) = sequentialNames ∧
        ∀ u ∈ stages.take 8, u.Status = .StatusCompleted) ∧
    (stages.map fun t => t.Stage).Nodup

/-- The stages of the list succeed one after the other: at the check before each stage the
context is not cancelled, the stage function returns no error, and the rest succeeds from
the run and the world that the stage leaves. -/
def SequentialSucceeds {W O : Type} (env : PipelineEnv W) :
    List (Stage × StageFn W O) → PipelineRun O → W → Prop
  | [], _, _ => True
  | s :: rest, run, w =>
    env.ctxErr w = none ∧ (s.2 run w).1.2 = none ∧
      SequentialSucceeds env rest (executeStage env run s.1 s.2 w).1
        (executeStage env run s.1 s.2 w).2.2

/-- The stage at place `k` of the list (counted from 0) is the first to fail, with the error
`e`, and no cancellation is seen at the checks up to it. -/
def FirstFailureAt {W O : Type} (env : PipelineEnv W) (e : GoError) :
    List (Stage × StageFn W O) → Nat → PipelineRun O → W → Prop
  | [], _, _, _ => False
  | s :: _, 0, run, w => env.ctxErr w = none ∧ (s.2 run w).1.2 = some e
  | s :: rest, k + 1, run, w =>
    env.ctxErr w = none ∧ (s.2 run w).1.2 = none ∧
      FirstFailureAt env e rest k (executeStage env run s.1 s.2 w).1
        (executeStage env run s.1 s.2 w).2.2

/-- A toy world of the pipeline: the clock. -/
abbrev Clock := Int

/-- The toy environment: the context is never cancelled, the clock is the world. -/
def toyPipelineEnv : PipelineEnv Clock where
  ctxErr := fun _ => none
  now := fun w => w

/-- A stage function that takes 10 ns and succeeds. -/
def stageOk : StageFn Clock Nat := fun _ w => ((some 1, none), w + 10)

/-- A stage function that takes 10 ns and fails. -/
def stageBad : StageFn Clock Nat := fun _ w => ((none, some "boom"), w + 10)

/-- Stage functions that all succeed but `stageCompliance`. -/
def toyStageFns : StageFns Clock Nat :=
  { stageUpload := stageOk, stageAuth := stageOk, stageParse := stageOk, stageAST := stageOk,
    stageAIAnalysis := stageOk, stageRuleEngine := stageOk, stageAuditTrail := stageOk,
    stageLedger := stageOk, stageDashboard := stageOk, stageSecurityAlerts := stageOk,
    stageCompliance := stageBad, stageInsights := stageOk }

/-- Stage functions that all succeed but `stageAST`, the fourth. -/
def toyStageFnsAST : StageFns Clock Nat :=
  { toyStageFns with stageAST := stageBad, stageCompliance := stageOk }

/-- The toy run. -/
def toyRun : PipelineRun Nat := StartPipeline toyPipelineEnv "run-1" "r1" "o1" "sha" "main" 0

/-- The cancellation is seen at the check before the stage at place `k` of the list (counted
from 0): at the checks before the stages ahead of it the context is not cancelled and their
functions return no error. -/
def CancelledAt {W O : Type} (env : PipelineEnv W) :
    List (Stage × StageFn W O) → Nat → PipelineRun O → W → Prop
  | [], _, _, _ => False
  | _ :: _, 0, _, w => env.ctxErr w ≠ none
  | s :: rest, k + 1, run, w =>
    env.ctxErr w = none ∧ (s.2 run w).1.2 = none ∧
      CancelledAt env rest k (executeStage env run s.1 s.2 w).1
        (executeStage env run s.1 s.2 w).2.2

/-- A toy environment whose context is cancelled from the clock reading 30 on. -/
def cancellingPipelineEnv : PipelineEnv Clock where
  ctxErr := fun w => if 30 ≤ w then some "context canceled" else none
  now := fun w => w

/-- The values the run takes inside `failPipeline`, one after each of its three assignments
(`Status`, `CompletedAt`, `TotalDuration`), in the order of the source. -/
def failPipeline.writes {W O : Type} (env : PipelineEnv W) (run : PipelineRun O) (w : W) :
    List (PipelineRun O) :=
  let now := env.now w
  [{ run with Status := .StatusFailed },
    { run with Status := .StatusFailed, CompletedAt := some now },
    { run with Status := .StatusFailed, CompletedAt := some now,
               TotalDuration := now - run.CreatedAt }]

/-- The values the run takes inside the block `// Mark complete` of `executePipeline`, one
after each of its three assignments (`CompletedAt`, `Status`, `TotalDuration`), in the order
of the source. -/
def executePipeline.completeWrites {W O : Type} (env : PipelineEnv W) (run : PipelineRun O)
    (w : W) : List (PipelineRun O) :=
  let now := env.now w
  [{ run with CompletedAt := some now },
    { run with CompletedAt := some now, Status := .StatusCompleted },
    { run with CompletedAt := some now, Status := .StatusCompleted,
               TotalDuration := now - run.CreatedAt }]

/-- The values the run takes in the loop of `executePipeline` over the sequential stages,
one after each assignment to one of its fields: the append of `executeStage` and the three
assignments of `failPipeline`. -/
def executePipeline.sequentialWrites {W O : Type} (env : PipelineEnv W) :
    List (Stage × StageFn W O) → PipelineRun O → W → List (PipelineRun O)
  | [], _, _ => []
  | s :: rest, run, w =>
    match env.ctxErr w with
    | some _ => failPipeline.writes env run w
    | none =>
      if (executeStage env run s.1 s.2 w).2.1.Status = .StatusFailed then
        (executeStage env run s.1 s.2 w).1 ::
          failPipeline.writes env (executeStage env run s.1 s.2 w).1
            (executeStage env run s.1 s.2 w).2.2
      else
        (executeStage env run s.1 s.2 w).1 ::
          executePipeline.sequentialWrites env rest (executeStage env run s.1 s.2 w).1
            (executeStage env run s.1 s.2 w).2.2

/-- The values the run takes during `executePipeline`, one after each assignment to one of
its fields, oldest first; `schedule` gives the order in which the stages of the parallel
block complete. -/
def executePipeline.writes {W O : Type} (env : PipelineEnv W) (fns : StageFns W O)
    (schedule : List (Stage × StageFn W O) → List (Stage × StageFn W O))
    (run : PipelineRun O) (w : W) : List (PipelineRun O) :=
  let p1 := executePipeline.sequential env (sequentialStages fns) run w
  if !p1.ok then executePipeline.sequentialWrites env (sequentialStages fns) run w
  else
    let p2 := executePipeline.parallel env (schedule (parallelStages fns)) p1.run p1.w
    executePipeline.sequentialWrites env (sequentialStages fns) run w ++ p2.states ++
      executePipeline.completeWrites env p2.run p2.w

/-- Every recorded stage result is completed or failed and has its `EndedAt` set. -/
def StagesFinal {O : Type} (stages : List (StageResult O)) : Prop :=
  ∀ t ∈ stages, (t.Status = .StatusCompleted ∨ t.Status = .StatusFailed) ∧ t.EndedAt ≠ none

/-- The run is under way: `Status` is running, `CompletedAt` is unset, and the recorded
stage results are final. -/
def Live {O : Type} (r : PipelineRun O) : Prop :=
  r.Status = .StatusRunning ∧ r.CompletedAt = none ∧ StagesFinal r.Stages

/-- The run has ended with the given status: `CompletedAt` is set and the recorded stage
results are final. -/
def Ended {O : Type} (st : PipelineStatus) (r : PipelineRun O) : Prop :=
  r.Status = st ∧ r.CompletedAt ≠ none ∧ StagesFinal r.Stages

/-- A trace of run values with one change of status: first values that are under way; then
one value between the two assignments of the closing block, where `Status` and `CompletedAt`
disagree (failed with `CompletedAt` unset, as `failPipeline` assigns `Status` first, or
running with `CompletedAt` set, as the completion block assigns `CompletedAt` first); then at
least one value that has ended, all with the same status, failed in the first case and
completed in the second. -/
def OneStatusChange {O : Type} (tr : List (PipelineRun O)) : Prop :=
  ∃ (pre : List (PipelineRun O)) (mid : PipelineRun O) (post : List (PipelineRun O)),
    tr = pre ++ mid :: post ∧ post ≠ [] ∧ (∀ r ∈ pre, Live r) ∧ StagesFinal mid.Stages ∧
      ((mid.Status = .StatusFailed ∧ mid.CompletedAt = none ∧
          ∀ r ∈ post, Ended .StatusFailed r) ∨
        (mid.Status = .StatusRunning ∧ mid.CompletedAt ≠ none ∧
          ∀ r ∈ post, Ended .StatusCompleted r))

/-- One step of an execution in which calls of `Execute` overlap: a call arrives and runs
the first critical section at the clock reading `now`, or a call that was let in earlier
runs the second critical section with the error its function returned. -/
inductive BreakerStep where
  | arrive (now : Int)
  | finish (err : Option GoError) (now : Int)
deriving DecidableEq, Repr

/-- An interleaving of the critical sections of overlapping `Execute` calls, run from the
breaker `cb` with `inFlight` calls let in and not yet finished: the breaker and the number
of calls in flight afterwards.  A call can only finish when one is in flight; a list of
steps that breaks this is no interleaving and has no value. -/
def runSteps (cb : CircuitBreaker) (inFlight : Nat) :
    List BreakerStep → Option (CircuitBreaker × Nat)
  | [] => some (cb, inFlight)
  | .arrive now :: rest =>
    match cb.enter now with
    | (cb1, true) => runSteps cb1 (inFlight + 1) rest
    | (cb1, false) => runSteps cb1 inFlight rest
  | .finish err now :: rest =>
    match inFlight with
    | 0 => none
    | n + 1 => runSteps (cb.complete err now) n rest

/-- Two calls that overlap and both fail. -/
def overlappingSteps : List BreakerStep :=
  [.arrive 10, .arrive 11, .finish (some "boom") 12, .finish (some "boom") 13]

/-- A configuration of the retry driver with `MaxAttempts = 0`. -/
def retryCfg0 : RetryConfig Nat :=
  { MaxAttempts := 0, InitialDelay := 10000000, MaxDelay := 1000000000, Multiplier := 2,
    JitterFactor := 0 }

/-! ## The encryptor of `api-gateway/internal/security`

Only the key derivation is modelled.  A byte slice is a list of bytes; `^=` on a `byte` is
the bitwise exclusive or. -/

/-- Go `AESEncryptor`. -/
structure AESEncryptor where
  masterKey : List Byte
deriving DecidableEq, Repr

/-- Go `copy(dst, src)`: the slice `dst` afterwards, its first `min(len(dst), len(src))`
bytes replaced by those of `src`. -/
def goCopy (dst src : List Byte) : List Byte :=
  src.take dst.length ++ dst.drop src.length

/-- The loop `for i, b := range tenantBytes { derived[i%32] ^= b }` of `DerivePerTenantKey`
from the index `i` on.  The slice `derived` has 32 bytes, so the index is in range. -/
def DerivePerTenantKey.loop : List Byte → Nat → List Byte → List Byte
  | derived, _, [] => derived
  | derived, i, b :: rest =>
    DerivePerTenantKey.loop (derived.set (i % 32) (derived.getD (i % 32) 0 ^^^ b)) (i + 1) rest

/-- Go `(*AESEncryptor).DerivePerTenantKey`. -/
def AESEncryptor.DerivePerTenantKey (e : AESEncryptor) (tenantID : String) :
    Except GoError AESEncryptor :=
  let derived := goCopy (List.replicate 32 0) e.masterKey
  let tenantBytes := stringBytes tenantID
  .ok { masterKey := DerivePerTenantKey.loop derived 0 tenantBytes }

/-- The exclusive or of the bytes that stand in `bytes` at the positions `p` with
`(i + p) % 32 = j`, folded from the left starting with 0. -/
def tenantPadFrom (i : Nat) (bytes : List Byte) (j : Nat) : Byte :=
  ((bytes.enumFrom i).filter fun p => p.1 % 32 = j).foldl (fun acc p => acc ^^^ p.2) 0

/-- The fold of the bytes of a tenant ID at the positions `p` with `p % 32 = j`. -/
def tenantPad (bytes : List Byte) (j : Nat) : Byte := tenantPadFrom 0 bytes j

/-- A tenant ID in the form of a UUID. -/
def tenantA : String := "00000000-0000-4000-8000-000000001111"

/-- Another tenant ID in the form of a UUID: `tenantA` with its first four characters and
its last four exchanged. -/
def tenantB : String := "11110000-0000-4000-8000-000000000000"

/-- A tenant ID of 64 characters: the same 32 characters twice. -/
def tenantTwice : String := "0123456789abcdef0123456789abcdef0123456789abcdef0123456789abcdef"

/-- A toy encryptor: a master key of 32 bytes `0x11`. -/
def toyEncryptor : AESEncryptor := { masterKey := List.replicate 32 17 }

/-! ## The rationale store of `vault-service/internal/rationale` and the routes of the vault

The map `store` is a list of pairs of a key and the rationale stored under it; a `range`
over it visits the entries in an order that the operation takes as an argument.  A rationale
is a value: the update of the Go code, which writes through the pointer held in the map, is
the assignment of the updated value to the same key.  A `[]string` that may be `nil` is an
`Option`.  The body of a request is what `c.BodyParser` makes of it, `none` when it returns
an error. -/

set_option linter.dupNamespace false in
/-- Go `Rationale`. -/
structure Rationale where
  ID : String
  OrgID : String
  RepoID : String
  Title : String
  Rationale : String
  Category : String
  Tags : Option (List String)
  RelatedFiles : Option (List String)
  Signature : String
  CreatedBy : String
  CreatedAt : Time
  UpdatedAt : Time
deriving DecidableEq

/-- Go `rationale.Service` (the configuration and the logger play no part). -/
structure rationale.Service where
  signer : Ed25519Signer
  store : List (String × Rationale)

/-- The struct `req` of `CreateHandler`. -/
structure rationale.CreateRequest where
  OrgID : String
  RepoID : String
  Title : String
  Rationale : String
  Category : String
  Tags : Option (List String)
  RelatedFiles : Option (List String)
  CreatedBy : String

/-- The struct `req` of `UpdateHandler`. -/
structure rationale.UpdateRequest where
  Title : String
  Rationale : String
  Category : String
  Tags : Option (List String)

/-- What a handler of the rationale store answers: an error, one rationale, or a list with
its `total`; each with the HTTP status. -/
inductive rationale.Response where
  | error (status : Nat) (message : String)
  | one (status : Nat) (r : Rationale)
  | list (status : Nat) (data : List Rationale) (total : Int)

/-- The HTTP status of an answer. -/
def rationale.Response.status : rationale.Response → Nat
  | .error st _ => st
  | .one st _ => st
  | .list st _ _ => st

/-- Go `rationale.NewService`. -/
def rationale.NewService (signer : Ed25519Signer) : rationale.Service :=
  { signer := signer, store := [] }

/-- The loop of `ListHandler` over the entries in the order they are visited. -/
def rationale.ListHandler.scan (orgID repoID : String) :
    List (String × Rationale) → List Rationale → List Rationale
  | [], results => results
  | e :: rest, results =>
    if orgID ≠ "" ∧ e.2.OrgID ≠ orgID then rationale.ListHandler.scan orgID repoID rest results
    else if repoID ≠ "" ∧ e.2.RepoID ≠ repoID then
      rationale.ListHandler.scan orgID repoID rest results
    else rationale.ListHandler.scan orgID repoID rest (results ++ [e.2])

/-- Go `(*Service).ListHandler`; `orgID` and `repoID` are the values of `c.Query`, `range`
gives the order of the visit. -/
def rationale.Service.ListHandler (s : rationale.Service) (orgID repoID : String)
    (range : List (String × Rationale) → List (String × Rationale)) : rationale.Response :=
  let results := rationale.ListHandler.scan orgID repoID (range s.store) []
  .list 200 results (results.length : Int)

/-- Go `(*Service).CreateHandler`; `id` is the value of `uuid.New().String()`, `now` that of
`time.Now().UTC()`. -/
def rationale.Service.CreateHandler (E : Ed25519) (s : rationale.Service)
    (body : Option rationale.CreateRequest) (id : String) (now : Time) :
    rationale.Service × rationale.Response :=
  match body with
  | none => (s, .error 400 "invalid body")
  | some req =>
    let r : Rationale :=
      { ID := id, OrgID := req.OrgID, RepoID := req.RepoID, Title := req.Title,
        Rationale := req.Rationale, Category := req.Category, Tags := req.Tags,
        RelatedFiles := req.RelatedFiles, Signature := "", CreatedBy := req.CreatedBy,
        CreatedAt := now, UpdatedAt := now }
    let r := { r with Signature := s.signer.SignHex E (stringBytes (r.ID ++ r.Rationale)) }
    ({ s with store := assocSet s.store r.ID r }, .one 201 r)

/-- Go `(*Service).GetHandler`; `id` is the value of `c.Params("id")`. -/
def rationale.Service.GetHandler (s : rationale.Service) (id : String) : rationale.Response :=
  match assocGet s.store id with
  | none => .error 404 "rationale not found"
  | some r => .one 200 r

/-- Go `(*Service).UpdateHandler`; `id` is the value of `c.Params("id")`, `now` that of
`time.Now().UTC()`. -/
def rationale.Service.UpdateHandler (E : Ed25519) (s : rationale.Service) (id : String)
    (body : Option rationale.UpdateRequest) (now : Time) :
    rationale.Service × rationale.Response :=
  match assocGet s.store id with
  | none => (s, .error 404 "rationale not found")
  | some r =>
    match body with
    | none => (s, .error 400 "invalid body")
    | some req =>
      let r := if req.Title ≠ "" then { r with Title := req.Title } else r
      let r := if req.Rationale ≠ "" then { r with Rationale := req.Rationale } else r
      let r := if req.Category ≠ "" then { r with Category := req.Category } else r
      let r := match req.Tags with
        | some tags => { r with Tags := some tags }
        | none => r
      let r := { r with UpdatedAt := now }
      let r := { r with Signature := s.signer.SignHex E (stringBytes (r.ID ++ r.Rationale)) }
      ({ s with store := assocSet s.store id r }, .one 200 r)

/-- A create or an update of the rationale store. -/
inductive rationale.Op where
  | create (body : Option rationale.CreateRequest) (id : String) (now : Time)
  | update (id : String) (body : Option rationale.UpdateRequest) (now : Time)

/-- The store after one operation. -/
def rationale.Service.apply (E : Ed25519) (s : rationale.Service) :
    rationale.Op → rationale.Service
  | .create body id now => (s.CreateHandler E body id now).1
  | .update id body now => (s.UpdateHandler E id body now).1

/-- The store after a sequence of operations made one after the other. -/
def rationale.Service.applyAll (E : Ed25519) (s : rationale.Service) :
    List rationale.Op → rationale.Service
  | [] => s
  | op :: rest => rationale.Service.applyAll E (s.apply E op) rest

/-- The two services that `main` of the vault makes, over the one signer. -/
structure Vault (P : Type) where
  ledger : Service P
  rationales : rationale.Service

/-- The services as `main` of the vault makes them: `ledger.NewService` and
`rationale.NewService` with the same signer; `id` and `now` go to the genesis entry. -/
def NewVault {P : Type} (L : Std P) (signer : Ed25519Signer) (id : String) (now : Time) :
    Vault P :=
  { ledger := NewService L signer id now, rationales := rationale.NewService signer }

/-- A request to one of the routes that `main` of the vault registers. -/
inductive VaultRequest where
  /-- The route `GET /health`. -/
  | health
  /-- The route `GET /api/v1/rationales/`. -/
  | listRationales (orgID repoID : String)
      (range : List (String × Rationale) → List (String × Rationale))
  /-- The route `POST /api/v1/rationales/`. -/
  | createRationale (body : Option rationale.CreateRequest) (id : String) (now : Time)
  /-- The route `GET /api/v1/rationales/:id`. -/
  | getRationale (id : String)
  /-- The route `PUT /api/v1/rationales/:id`. -/
  | updateRationale (id : String) (body : Option rationale.UpdateRequest) (now : Time)
  /-- The route `GET /api/v1/ledger/`. -/
  | listLedger
  /-- The route `GET /api/v1/ledger/:hash`. -/
  | getLedgerByHash (hash : String)
  /-- The route `POST /api/v1/ledger/verify`. -/
  | verifyLedger
  /-- The route `POST /api/v1/sign`; `body` is the field `data`, `none` when the body does
  not parse. -/
  | sign (body : Option String)
  /-- The route `POST /api/v1/verify`; `body` holds the fields `data` and `signature`. -/
  | verify (body : Option (String × String))

/-- The handler that `main` registers for the route of the request: the services
afterwards and the HTTP status of the answer. -/
def Vault.serve {P : Type} (L : Std P) (v : Vault P) : VaultRequest → Vault P × Nat
  | .health => (v, 200)
  | .listRationales orgID repoID range =>
    (v, (v.rationales.ListHandler orgID repoID range).status)
  | .createRationale body id now =>
    ({ v with rationales := (v.rationales.CreateHandler L.ed body id now).1 },
      (v.rationales.CreateHandler L.ed body id now).2.status)
  | .getRationale id => (v, (v.rationales.GetHandler id).status)
  | .updateRationale id body now =>
    ({ v with rationales := (v.rationales.UpdateHandler L.ed id body now).1 },
      (v.rationales.UpdateHandler L.ed id body now).2.status)
  | .listLedger => (v, 200)
  | .getLedgerByHash hash => (v, if v.ledger.chain.any (fun e => e.Hash = hash) then 200 else 404)
  | .verifyLedger => (v, 200)
  | .sign body => (v, if body.isSome then 200 else 400)
  | .verify body => (v, if body.isSome then 200 else 400)

/-- The services after a sequence of requests served one after the other. -/
def Vault.serveAll {P : Type} (L : Std P) (v : Vault P) : List VaultRequest → Vault P
  | [] => v
  | req :: rest => Vault.serveAll L (v.serve L req).1 rest

/-- A toy request to create a rationale. -/
def toyCreateRequest : rationale.CreateRequest :=
  { OrgID := "o1", RepoID := "r1", Title := "Use a ledger", Rationale := "Append only",
    Category := "storage", Tags := some ["ledger"], RelatedFiles := none, CreatedBy := "ada" }

/-- A toy request to update a rationale: a new body, the title left alone. -/
def toyUpdateRequest : rationale.UpdateRequest :=
  { Title := "", Rationale := "Append only, signed", Category := "", Tags := none }

/-- A create followed by an update of the rationale created. -/
def toyOps : List rationale.Op :=
  [.create (some toyCreateRequest) "rat-1" { unix := 1700000100, nsec := 0 },
    .update "rat-1" (some toyUpdateRequest) { unix := 1700000200, nsec := 0 }]

/-- A toy store with two rationales of different organisations. -/
def toyStore : rationale.Service :=
  ((rationale.NewService toySigner).apply toyEd25519
      (.create (some toyCreateRequest) "rat-1" { unix := 1700000100, nsec := 0 })).apply
    toyEd25519
    (.create (some { toyCreateRequest with OrgID := "o2" }) "rat-2"
      { unix := 1700000300, nsec := 0 })

/-! ## Lemmas on hex -/

theorem fromHexChar_hexDigit (n : Fin 16) : fromHexChar (hexDigit n.val) = some n.val := by
  revert n; decide

theorem hexDecode_hexEncode (bs : List Byte) : hexDecode (hexEncode bs) = some bs := by
  induction bs with
  | nil => rfl
  | cons v rest ih =>
    have h1 := fromHexChar_hexDigit ⟨v.val / 16, by omega⟩
    have h2 := fromHexChar_hexDigit ⟨v.val % 16, by omega⟩
    simp only at h1 h2
    simp only [hexEncode, hexDecode, h1, h2, ih]
    congr 2
    apply Fin.ext
    simp only [Fin.ofNat, Fin.val_mk]
    omega

theorem hexDecodeString_hexEncodeToString (bs : List Byte) :
    hexDecodeString (hexEncodeToString bs) = some bs := by
  simp [hexDecodeString, hexEncodeToString, hexDecode_hexEncode]

theorem hexEncode_length (bs : List Byte) : (hexEncode bs).length = 2 * bs.length := by
  induction bs with
  | nil => rfl
  | cons v rest ih => simp [hexEncode, ih]; omega

theorem hexDigit_mem (n : Nat) : hexDigit n ∈ hextable := by
  by_cases h : n < 16
  · have : ∀ m : Fin 16, hexDigit m.val ∈ hextable := by decide
    exact this ⟨n, h⟩
  · have hd : hexDigit n = '0' := by
      unfold hexDigit
      exact List.getD_eq_default _ _ (by simp only [hextable, List.length]; omega)
    rw [hd]
    decide

theorem hexEncode_mem (bs : List Byte) : ∀ c ∈ hexEncode bs, c ∈ hextable := by
  induction bs with
  | nil => intro c hc; simp [hexEncode] at hc
  | cons v rest ih =>
    intro c hc
    simp only [hexEncode, List.mem_cons] at hc
    rcases hc with h | h | h
    · rw [h]; exact hexDigit_mem _
    · rw [h]; exact hexDigit_mem _
    · exact ih c h

theorem toyEd25519_correct : toyEd25519.Correct := by
  intro seed msg _
  simp [toyEd25519]

theorem toySigner_constructed : toySigner.Constructed toyEd25519 :=
  Or.inl ⟨some zeroSeed, rfl⟩

theorem Constructed_keys (E : Ed25519) (s : Ed25519Signer) (hs : s.Constructed E) :
    ∃ seed : List Byte, seed.length = SeedSize ∧
      s.privateKey = E.NewKeyFromSeed seed ∧ s.publicKey = E.Public (E.NewKeyFromSeed seed) := by
  rcases hs with ⟨rnd, h⟩ | ⟨seedHex, h⟩
  · cases rnd with
    | none => simp [NewEd25519Signer] at h
    | some seed =>
      simp only [NewEd25519Signer, Except.ok.injEq] at h
      exact ⟨seed.val, seed.property, by rw [← h], by rw [← h]⟩
  · unfold NewEd25519SignerFromSeed at h
    split at h
    · simp at h
    · rename_i seed _
      split at h
      · simp at h
      · rename_i hlen
        simp only [Except.ok.injEq] at h
        exact ⟨seed, by simpa using hlen, by rw [← h], by rw [← h]⟩

theorem Constructed_verify_sign (E : Ed25519) (hE : E.Correct) (s : Ed25519Signer)
    (hs : s.Constructed E) (d : List Byte) :
    s.Verify E d (s.Sign E d) = true ∧ s.VerifyHex E d (s.SignHex E d) = true := by
  obtain ⟨seed, hlen, hpriv, hpub⟩ := Constructed_keys E s hs
  have hv : s.Verify E d (s.Sign E d) = true := by
    simp only [Ed25519Signer.Verify, Ed25519Signer.Sign, hpriv, hpub]
    exact hE seed d hlen
  refine ⟨hv, ?_⟩
  simp only [Ed25519Signer.VerifyHex, Ed25519Signer.SignHex, hexDecodeString_hexEncodeToString]
  exact hv

/-- C9. For every signer returned by a constructor of the package (over a correct
Ed25519 implementation) and every byte string `d`, `s.Verify(d, s.Sign(d))` is true and
`s.VerifyHex(d, s.SignHex(d))` is true: `VerifyHex` decodes exactly what `SignHex`
encoded. -/
theorem signer_sign_verify_roundtrip (E : Ed25519) (hE : E.Correct) (s : Ed25519Signer)
    (hs : s.Constructed E) (d : List Byte) :
    s.Verify E d (s.Sign E d) = true ∧ s.VerifyHex E d (s.SignHex E d) = true :=
  Constructed_verify_sign E hE s hs d

theorem signer_sign_verify_roundtrip_witness :
    toyEd25519.Correct ∧ toySigner.Constructed toyEd25519 ∧
      toySigner.Verify toyEd25519 [1, 2] (toySigner.Sign toyEd25519 [1, 2]) = true ∧
      toySigner.VerifyHex toyEd25519 [1, 2] (toySigner.SignHex toyEd25519 [1, 2]) = true :=
  ⟨toyEd25519_correct, toySigner_constructed,
    signer_sign_verify_roundtrip toyEd25519 toyEd25519_correct toySigner toySigner_constructed [1, 2]⟩

/-! ## Lemmas on the ledger -/

section Ledger

variable {P : Type}

theorem entryBad_lt (L : Std P) (chain : List (Entry P)) (i : Nat)
    (h : entryBad L chain i = true) : i < chain.length := by
  unfold entryBad at h
  split at h
  · rename_i e p he hp
    exact (List.getElem?_eq_some.mp he).1
  · simp at h

theorem entryBad_eq (L : Std P) (chain : List (Entry P)) (i : Nat) (h : i < chain.length)
    (h1 : 1 ≤ i) :
    entryBad L chain i =
      (decide (chain[i].PreviousHash ≠ chain[i - 1].Hash) ||
        decide (chain[i].Hash ≠ computeHash L chain[i])) := by
  have h2 : i - 1 < chain.length := by omega
  simp only [entryBad, List.getElem?_eq_getElem h, List.getElem?_eq_getElem h2]

/-- From a start index `i ≥ 1` the loop stops at the first bad index at or after `i`. -/
theorem loop_first_bad (L : Std P) (chain : List (Entry P)) :
    ∀ (n i j : Nat), 1 ≤ i → j = i + n → entryBad L chain j = true →
      (∀ k, i ≤ k → k < j → entryBad L chain k = false) →
      VerifyChain.loop L chain i = (false, (j : Int)) := by
  intro n
  induction n with
  | zero =>
    intro i j hi hj hbad _
    simp only [Nat.add_zero] at hj
    subst hj
    have hlt := entryBad_lt L chain j hbad
    rw [entryBad_eq L chain j hlt hi] at hbad
    rw [VerifyChain.loop]
    simp only [hlt, dite_true]
    simp only [Bool.or_eq_true, decide_eq_true_eq] at hbad
    by_cases hp : chain[j].PreviousHash ≠ chain[j - 1].Hash
    · simp [hp]
    · have hh : chain[j].Hash ≠ computeHash L chain[j] := by
        rcases hbad with h | h
        · exact absurd h hp
        · exact h
      rw [if_neg hp, if_pos hh]
  | succ n ih =>
    intro i j hi hj hbad hgood
    have hlt : i < chain.length := by
      have := entryBad_lt L chain j hbad
      omega
    have hgi := hgood i (le_refl i) (by omega)
    rw [entryBad_eq L chain i hlt hi] at hgi
    simp only [Bool.or_eq_false_iff, decide_eq_false_iff_not, not_not] at hgi
    rw [VerifyChain.loop]
    simp only [hlt, dite_true, hgi.1, hgi.2, ne_eq, not_true_eq_false, if_false]
    exact ih (i + 1) j (by omega) (by omega) hbad (fun k hk hkj => hgood k (by omega) hkj)

/-- From a start index `i ≥ 1` with no bad index at or after it the loop runs to the end. -/
theorem loop_all_good (L : Std P) (chain : List (Entry P)) :
    ∀ (n i : Nat), 1 ≤ i → chain.length ≤ i + n →
      (∀ k, i ≤ k → entryBad L chain k = false) →
      VerifyChain.loop L chain i = (true, -1) := by
  intro n
  induction n with
  | zero =>
    intro i _ hlen _
    rw [VerifyChain.loop]
    have : ¬ i < chain.length := by omega
    simp [this]
  | succ n ih =>
    intro i hi hlen hgood
    rw [VerifyChain.loop]
    by_cases hlt : i < chain.length
    · have hgi := hgood i (le_refl i)
      rw [entryBad_eq L chain i hlt hi] at hgi
      simp only [Bool.or_eq_false_iff, decide_eq_false_iff_not, not_not] at hgi
      simp only [hlt, dite_true, hgi.1, hgi.2, ne_eq, not_true_eq_false, if_false]
      exact ih (i + 1) (by omega) (by omega) (fun k hk => hgood k (by omega))
    · simp [hlt]

theorem VerifyChain_of_first_bad (L : Std P) (s : Service P) (i : Nat) (h1 : 1 ≤ i)
    (hbad : entryBad L s.chain i = true)
    (hgood : ∀ j, 1 ≤ j → j < i → entryBad L s.chain j = false) :
    s.VerifyChain L = (false, (i : Int)) :=
  loop_first_bad L s.chain (i - 1) 1 i (le_refl 1) (by omega) hbad hgood

theorem VerifyChain_of_all_good (L : Std P) (s : Service P)
    (hgood : ∀ j, 1 ≤ j → j < s.chain.length → entryBad L s.chain j = false) :
    s.VerifyChain L = (true, -1) := by
  refine loop_all_good L s.chain s.chain.length 1 (le_refl 1) (by omega) (fun j hj => ?_)
  by_cases hlt : j < s.chain.length
  · exact hgood j hj hlt
  · by_contra hb
    exact hlt (entryBad_lt L s.chain j (by simpa using hb))

/-- Either no index is bad, or there is a least bad index. -/
theorem bad_cases (L : Std P) (chain : List (Entry P)) :
    (∀ j, 1 ≤ j → entryBad L chain j = false) ∨
    ∃ i, 1 ≤ i ∧ entryBad L chain i = true ∧ ∀ j, 1 ≤ j → j < i → entryBad L chain j = false := by
  by_cases h : ∃ i, 1 ≤ i ∧ entryBad L chain i = true
  · right
    refine ⟨Nat.find h, (Nat.find_spec h).1, (Nat.find_spec h).2, ?_⟩
    intro j hj hlt
    have := Nat.find_min h hlt
    simp only [not_and, Bool.not_eq_true] at this
    exact this hj
  · left
    intro j hj
    by_contra hb
    exact h ⟨j, hj, by simpa using hb⟩

theorem entryBad_congr (L : Std P) (c1 c2 : List (Entry P)) (j : Nat)
    (h1 : c1[j]? = c2[j]?) (h2 : c1[j - 1]? = c2[j - 1]?) :
    entryBad L c1 j = entryBad L c2 j := by
  simp only [entryBad, h1, h2]

theorem VerifyChain_congr (L : Std P) (s1 s2 : Service P)
    (h : ∀ j, 1 ≤ j → entryBad L s1.chain j = entryBad L s2.chain j) :
    s1.VerifyChain L = s2.VerifyChain L := by
  rcases bad_cases L s1.chain with hg | ⟨i, h1, hb, hg⟩
  · rw [VerifyChain_of_all_good L s1 (fun j hj _ => hg j hj),
      VerifyChain_of_all_good L s2 (fun j hj _ => by rw [← h j hj]; exact hg j hj)]
  · rw [VerifyChain_of_first_bad L s1 i h1 hb hg,
      VerifyChain_of_first_bad L s2 i h1 (by rw [← h i h1]; exact hb)
        (fun j hj hlt => by rw [← h j hj]; exact hg j hj hlt)]

/-- What `Append` returns and stores. -/
theorem Append_spec (L : Std P) (s : Service P) (entryType : String) (payload : P) (id : String)
    (now : Time) (prev : Entry P) (hprev : s.chain.getLast? = some prev) :
    ∃ e, s.Append L entryType payload id now = some (e, { s with chain := s.chain ++ [e] }) ∧
      e.ID = id ∧ e.EntryType = entryType ∧ e.Payload = payload ∧ e.Timestamp = now ∧
      e.PreviousHash = prev.Hash ∧ e.Hash = computeHash L e ∧
      e.Signature = s.signer.SignHex L.ed (stringBytes e.Hash) ∧
      e.PublicKey = s.signer.PublicKeyHex := by
  simp only [Service.Append, hprev]
  exact ⟨_, rfl, rfl, rfl, rfl, rfl, rfl, rfl, rfl, rfl⟩

/-- Appending a well linked entry to a chain without bad index leaves it so. -/
theorem entryBad_append (L : Std P) (chain : List (Entry P)) (prev e : Entry P)
    (hprev : chain.getLast? = some prev) (hp : e.PreviousHash = prev.Hash)
    (hh : e.Hash = computeHash L e) (hgood : ∀ j, 1 ≤ j → entryBad L chain j = false) :
    ∀ j, 1 ≤ j → entryBad L (chain ++ [e]) j = false := by
  intro j hj
  rcases Nat.lt_trichotomy j chain.length with hlt | heq | hgt
  · rw [entryBad_congr L (chain ++ [e]) chain j (List.getElem?_append_left hlt)
      (List.getElem?_append_left (by omega))]
    exact hgood j hj
  · subst heq
    rw [List.getLast?_eq_getElem?] at hprev
    have h0 : (chain ++ [e])[chain.length - 1]? = some prev := by
      rw [List.getElem?_append_left (by omega)]; exact hprev
    simp only [entryBad, List.getElem?_concat_length, h0, hp, hh]
    simp
  · have hnone : (chain ++ [e])[j]? = none :=
      List.getElem?_eq_none (by simp only [List.length_append, List.length_singleton]; omega)
    simp only [entryBad, hnone]

theorem LedgerInv_NewService (L : Std P) (signer : Ed25519Signer) (id : String) (now : Time) :
    LedgerInv L signer (NewService L signer id now) := by
  refine ⟨by simp [NewService], rfl, ?_, ?_⟩
  · intro j hj
    have hnone : (NewService L signer id now).chain[j]? = none :=
      List.getElem?_eq_none (by simp only [NewService, List.length_singleton]; omega)
    simp only [entryBad, hnone]
  · intro e he
    simp only [NewService, List.mem_singleton] at he
    subst he
    exact ⟨rfl, rfl, rfl⟩

theorem LedgerInv_Append (L : Std P) (signer : Ed25519Signer) (s : Service P)
    (hinv : LedgerInv L signer s) (entryType : String) (payload : P) (id : String) (now : Time) :
    ∃ e s', s.Append L entryType payload id now = some (e, s') ∧ LedgerInv L signer s' := by
  obtain ⟨hne, hsig, hgood, hall⟩ := hinv
  obtain ⟨prev, hprev⟩ : ∃ prev, s.chain.getLast? = some prev := by
    cases h : s.chain.getLast? with
    | none => exact absurd (List.getLast?_eq_none_iff.mp h) hne
    | some prev => exact ⟨prev, rfl⟩
  obtain ⟨e, happ, _, _, _, _, hp, hh, hs, hk⟩ := Append_spec L s entryType payload id now prev hprev
  refine ⟨e, _, happ, by simp, hsig, entryBad_append L s.chain prev e hprev hp hh hgood, ?_⟩
  intro x hx
  simp only [List.mem_append, List.mem_singleton] at hx
  rcases hx with hx | hx
  · exact hall x hx
  · subst hx
    rw [hsig] at hs hk
    exact ⟨hh, hk, hs⟩

theorem LedgerInv_appendAll (L : Std P) (signer : Ed25519Signer) (calls : List (AppendCall P)) :
    ∀ s, LedgerInv L signer s → ∃ s', appendAll L s calls = some s' ∧ LedgerInv L signer s' := by
  induction calls with
  | nil => intro s hs; exact ⟨s, rfl, hs⟩
  | cons c rest ih =>
    intro s hs
    obtain ⟨e, s1, happ, hinv⟩ := LedgerInv_Append L signer s hs c.entryType c.payload c.id c.now
    obtain ⟨s2, h2, hinv2⟩ := ih s1 hinv
    exact ⟨s2, by simp only [appendAll, happ, h2], hinv2⟩

theorem LedgerInv_of_Reachable (L : Std P) (signer : Ed25519Signer) (s : Service P)
    (hs : Reachable L signer s) : LedgerInv L signer s := by
  obtain ⟨id, now, calls, h⟩ := hs
  obtain ⟨s', h', hinv⟩ := LedgerInv_appendAll L signer calls _ (LedgerInv_NewService L signer id now)
  rw [h] at h'
  cases h'
  exact hinv

/-- Replacing entry `i` by an entry with the same `PreviousHash`, `Hash` and recomputed
hash changes no test of `VerifyChain`. -/
theorem entryBad_set_same (L : Std P) (chain : List (Entry P)) (i : Nat) (hi : i < chain.length)
    (e' : Entry P) (hp : e'.PreviousHash = chain[i].PreviousHash) (hh : e'.Hash = chain[i].Hash)
    (hc : computeHash L e' = computeHash L chain[i]) (j : Nat) :
    entryBad L (chain.set i e') j = entryBad L chain j := by
  have hget : chain[i]? = some chain[i] := List.getElem?_eq_getElem hi
  by_cases h1 : i = j <;> by_cases h2 : i = j - 1
  · subst h1
    have h2' : i - 1 = i := h2.symm
    simp only [entryBad, h2', List.getElem?_set_self hi, hget, hp, hh, hc]
  · subst h1
    cases hj : chain[i - 1]? with
    | none => simp only [entryBad, List.getElem?_set_self hi, List.getElem?_set_ne h2, hget, hj]
    | some p =>
      simp only [entryBad, List.getElem?_set_self hi, List.getElem?_set_ne h2, hget, hj, hp, hh, hc]
  · subst h2
    cases hj : chain[j]? with
    | none => simp only [entryBad, List.getElem?_set_ne h1, hj]
    | some e =>
      simp only [entryBad, List.getElem?_set_ne h1, List.getElem?_set_self hi, hj, hget, hh]
  · exact entryBad_congr L _ _ j (List.getElem?_set_ne h1) (List.getElem?_set_ne h2)

theorem toyService1_reachable : Reachable toyStd toySigner toyService1 :=
  ⟨"id-0", t0, toyCalls, rfl⟩

end Ledger

/-! ## The ledger: claims -/

/-- C1. Every finite sequence of `Append` calls applied to a ledger freshly built by
`NewService` runs through (no call panics) and `VerifyChain` then returns `(true, -1)`,
for every signer, entry types, payloads, identifiers and timestamps. -/
theorem verifyChain_after_appends {P : Type} (L : Std P) (signer : Ed25519Signer) (id : String)
    (now : Time) (calls : List (AppendCall P)) :
    ∃ s, appendAll L (NewService L signer id now) calls = some s ∧
      s.VerifyChain L = (true, -1) := by
  obtain ⟨s, hs, hinv⟩ :=
    LedgerInv_appendAll L signer calls _ (LedgerInv_NewService L signer id now)
  exact ⟨s, hs, VerifyChain_of_all_good L s (fun j hj _ => hinv.2.2.1 j hj)⟩

/-- C2 (counterexample). In the toy ledger of two entries the payload of the genesis
entry (index 0) is replaced by one with a different recomputed hash, and `VerifyChain`
still returns `(true, -1)`, not `(false, 0)`. -/
theorem genesis_tamper_not_reported :
    Tamper.Effective toyStd (Tamper.payload 7) (toyService1.chain.getD 0 default) ∧
      toyGenesisTampered.VerifyChain toyStd = (true, -1) ∧
      toyGenesisTampered.VerifyChain toyStd ≠ (false, 0) := by
  have h : toyGenesisTampered.VerifyChain toyStd = (true, -1) :=
    VerifyChain_of_all_good toyStd toyGenesisTampered (by decide)
  refine ⟨?_, h, ?_⟩
  · simp only [Tamper.Effective]
    decide
  · rw [h]
    decide

/-- C2 (amended). In every chain reachable from `NewService` by `Append` calls, replacing
exactly entry `i`, for an index `i ≥ 1` of the chain, by the same entry with a different
`PreviousHash`, a different `Hash`, or a `Payload` that changes the recomputed hash makes
`VerifyChain` return `(false, i)`. -/
theorem tamper_reported_at_index {P : Type} (L : Std P) (signer : Ed25519Signer) (s : Service P)
    (hs : Reachable L signer s) (i : Nat) (h1 : 1 ≤ i) (hi : i < s.chain.length) (t : Tamper P)
    (ht : t.Effective L s.chain[i]) :
    Service.VerifyChain L { s with chain := s.chain.set i (t.apply s.chain[i]) } =
      (false, (i : Int)) := by
  have hgood := (LedgerInv_of_Reachable L signer s hs).2.2.1
  have hgi := hgood i h1
  rw [entryBad_eq L s.chain i hi h1] at hgi
  simp only [Bool.or_eq_false_iff, decide_eq_false_iff_not, not_not] at hgi
  have hne : i ≠ i - 1 := by omega
  have hprev : s.chain[i - 1]? = some s.chain[i - 1] := List.getElem?_eq_getElem (by omega)
  apply VerifyChain_of_first_bad L _ i h1
  · simp only [entryBad, List.getElem?_set_self hi, List.getElem?_set_ne hne, hprev]
    cases t with
    | payload p =>
      have hc : computeHash L { s.chain[i] with Payload := p } ≠ s.chain[i].Hash := by
        rw [hgi.2]; exact ht
      simp only [Tamper.apply, Bool.or_eq_true, decide_eq_true_eq]
      exact Or.inr (fun h => hc h.symm)
    | previousHash h =>
      have hc : h ≠ s.chain[i - 1].Hash := by rw [← hgi.1]; exact ht
      simp only [Tamper.apply, Bool.or_eq_true, decide_eq_true_eq]
      exact Or.inl hc
    | hash h =>
      have hc : h ≠ computeHash L s.chain[i] := by rw [← hgi.2]; exact ht
      simp only [Tamper.apply, Bool.or_eq_true, decide_eq_true_eq]
      exact Or.inr hc
  · intro j hj hlt
    rw [entryBad_congr L _ s.chain j (List.getElem?_set_ne (by omega))
      (List.getElem?_set_ne (by omega))]
    exact hgood j hj

theorem tamper_reported_at_index_witness :
    Service.VerifyChain toyStd
      { toyService1 with
        chain := toyService1.chain.set 1 ((Tamper.payload 7).apply (toyService1.chain.get ⟨1, by decide⟩)) } =
      (false, 1) :=
  tamper_reported_at_index toyStd toySigner toyService1 toyService1_reachable 1 (by decide)
    (by decide) (Tamper.payload 7) (by simp only [Tamper.Effective]; decide)

/-- C3 (counterexample). In the toy ledger the signature of entry 1 is replaced by a
string that does not verify over the entry's hash, and `VerifyChain` still returns
`(true, -1)`, not `(false, 1)`. -/
theorem bad_signature_not_reported :
    (∃ e, toyBadSignature.chain[1]? = some e ∧
      toySigner.VerifyHex toyStd.ed (stringBytes e.Hash) e.Signature = false) ∧
      toyBadSignature.VerifyChain toyStd = (true, -1) ∧
      toyBadSignature.VerifyChain toyStd ≠ (false, 1) := by
  have h : toyBadSignature.VerifyChain toyStd = (true, -1) :=
    VerifyChain_of_all_good toyStd toyBadSignature (by decide)
  refine ⟨⟨_, rfl, by decide⟩, h, ?_⟩
  rw [h]
  decide

/-- C3 (amended). `VerifyChain` does not read signatures: replacing the `Signature` of any
entry of any chain by any value leaves the result of `VerifyChain` unchanged (so an
otherwise intact chain still yields `(true, -1)`). -/
theorem verifyChain_ignores_signature {P : Type} (L : Std P) (s : Service P) (i : Nat)
    (hi : i < s.chain.length) (sig : String) :
    Service.VerifyChain L { s with chain := s.chain.set i (s.chain[i].withSignature sig) } =
      s.VerifyChain L :=
  VerifyChain_congr L _ s
    (fun j _ => entryBad_set_same L s.chain i hi (s.chain[i].withSignature sig) rfl rfl rfl j)

theorem verifyChain_ignores_signature_witness :
    toyBadSignature.VerifyChain toyStd = toyService1.VerifyChain toyStd :=
  verifyChain_ignores_signature toyStd toyService1 1 (by decide) "zz"

/-- C4. For every chain, `VerifyChain` returns `(false, i)` for the least index `i ≥ 1` at
which `chain[i].PreviousHash != chain[i-1].Hash` or `chain[i].Hash != computeHash(chain[i])`,
returns `(true, -1)` exactly when there is no such index, and never returns anything but
`(true, -1)` or `(false, k)` with `1 ≤ k ≤ len - 1`. -/
theorem verifyChain_least_bad_index {P : Type} (L : Std P) (s : Service P) :
    (∀ i : Nat, 1 ≤ i ∧ entryBad L s.chain i = true ∧
        (∀ j, 1 ≤ j → j < i → entryBad L s.chain j = false) →
        s.VerifyChain L = (false, (i : Int))) ∧
      (s.VerifyChain L = (true, -1) ↔ ∀ i, 1 ≤ i → entryBad L s.chain i = false) ∧
      (s.VerifyChain L = (true, -1) ∨
        ∃ k : Nat, 1 ≤ k ∧ k < s.chain.length ∧ s.VerifyChain L = (false, (k : Int))) := by
  refine ⟨fun i h => VerifyChain_of_first_bad L s i h.1 h.2.1 h.2.2, ⟨?_, ?_⟩, ?_⟩
  · intro hv
    rcases bad_cases L s.chain with hg | ⟨i, h1, hb, hg⟩
    · exact hg
    · rw [VerifyChain_of_first_bad L s i h1 hb hg] at hv
      simp at hv
  · exact fun hg => VerifyChain_of_all_good L s (fun j hj _ => hg j hj)
  · rcases bad_cases L s.chain with hg | ⟨i, h1, hb, hg⟩
    · exact Or.inl (VerifyChain_of_all_good L s (fun j hj _ => hg j hj))
    · exact Or.inr ⟨i, h1, entryBad_lt L s.chain i hb, VerifyChain_of_first_bad L s i h1 hb hg⟩

/-- C5. On a ledger with a non-empty chain `c`, `Append(entryType, payload)` returns an
entry `e` with the given type and payload, `e.PreviousHash` the `Hash` of the last entry of
`c` and `e.Hash = computeHash(e)`; the chain afterwards is `c` followed by `e`: one entry
longer, every earlier entry in place. -/
theorem append_extends_chain {P : Type} (L : Std P) (s : Service P) (hne : s.chain ≠ [])
    (entryType : String) (payload : P) (id : String) (now : Time) :
    ∃ e s', s.Append L entryType payload id now = some (e, s') ∧
      e.EntryType = entryType ∧ e.Payload = payload ∧
      e.PreviousHash = (s.chain.getLast hne).Hash ∧ e.Hash = computeHash L e ∧
      s'.chain = s.chain ++ [e] ∧ s'.chain.length = s.chain.length + 1 ∧
      (∀ i, i < s.chain.length → s'.chain[i]? = s.chain[i]?) ∧
      s'.chain[s.chain.length]? = some e := by
  have hprev : s.chain.getLast? = some (s.chain.getLast hne) := List.getLast?_eq_getLast _ hne
  obtain ⟨e, happ, _, ht, hp, _, hph, hh, _, _⟩ :=
    Append_spec L s entryType payload id now _ hprev
  refine ⟨e, _, happ, ht, hp, hph, hh, rfl, by simp, ?_, ?_⟩
  · intro i hi
    exact List.getElem?_append_left hi
  · exact List.getElem?_concat_length s.chain e

theorem append_extends_chain_witness :
    ∃ e s', toyService0.Append toyStd "decision" 1 "id-1" t0 = some (e, s') ∧
      e.EntryType = "decision" ∧ e.Payload = 1 ∧
      e.PreviousHash = (toyService0.chain.getLast (by simp [toyService0, NewService])).Hash ∧
      e.Hash = computeHash toyStd e ∧
      s'.chain = toyService0.chain ++ [e] ∧ s'.chain.length = toyService0.chain.length + 1 ∧
      (∀ i, i < toyService0.chain.length → s'.chain[i]? = toyService0.chain[i]?) ∧
      s'.chain[toyService0.chain.length]? = some e :=
  append_extends_chain toyStd toyService0 (by simp [toyService0, NewService]) "decision" 1 "id-1" t0

/-- C6. Over a correct Ed25519 implementation, for every signer `s` returned by a
constructor and every chain reachable from `NewService(s)` by `Append` calls, every entry
of the chain, the genesis entry included, has `PublicKey = s.PublicKeyHex()` and a
`Signature` for which `s.VerifyHex([]byte(entry.Hash), Signature)` is true. -/
theorem reachable_entries_signed {P : Type} (L : Std P) (hE : L.ed.Correct)
    (signer : Ed25519Signer) (hc : signer.Constructed L.ed) (s : Service P)
    (hs : Reachable L signer s) :
    ∀ e ∈ s.chain, e.PublicKey = signer.PublicKeyHex ∧
      signer.VerifyHex L.ed (stringBytes e.Hash) e.Signature = true := by
  intro e he
  obtain ⟨_, hk, hsig⟩ := (LedgerInv_of_Reachable L signer s hs).2.2.2 e he
  refine ⟨hk, ?_⟩
  rw [hsig]
  exact (Constructed_verify_sign L.ed hE signer hc _).2

theorem reachable_entries_signed_witness :
    ∃ e, toyService1.chain[1]? = some e ∧ e.PublicKey = toySigner.PublicKeyHex ∧
      toySigner.VerifyHex toyStd.ed (stringBytes e.Hash) e.Signature = true :=
  ⟨_, rfl, reachable_entries_signed toyStd toyEd25519_correct toySigner toySigner_constructed
    toyService1 toyService1_reachable _ (List.getElem?_mem (n := 1) rfl)⟩

/-- C7. `computeHash` is a function of `EntryType`, `Payload`, `PreviousHash` and the
timestamp in whole unix seconds only: two entries that agree on these four have the same
`computeHash`, whatever their `ID`, `Signature`, `PublicKey`, stored `Hash` and sub-second
part; with both entries the same this is the repeatability of the hash. -/
theorem computeHash_four_inputs {P : Type} (L : Std P) (e1 e2 : Entry P)
    (ht : e1.EntryType = e2.EntryType) (hp : e1.Payload = e2.Payload)
    (hh : e1.PreviousHash = e2.PreviousHash) (hu : e1.Timestamp.Unix = e2.Timestamp.Unix) :
    computeHash L e1 = computeHash L e2 := by
  simp only [computeHash, ht, hp, hh, hu]

theorem computeHash_four_inputs_witness :
    toyEntryOther.ID ≠ (toyService1.chain.getD 1 default).ID ∧
      toyEntryOther.Hash ≠ (toyService1.chain.getD 1 default).Hash ∧
      toyEntryOther.Timestamp ≠ (toyService1.chain.getD 1 default).Timestamp ∧
      computeHash toyStd toyEntryOther = computeHash toyStd (toyService1.chain.getD 1 default) :=
  ⟨by decide, by decide, by decide,
    computeHash_four_inputs toyStd toyEntryOther (toyService1.chain.getD 1 default) rfl rfl rfl rfl⟩

/-- C8. For every signer, the service returned by `NewService` has a chain of length
exactly 1 whose entry 0 has `EntryType` "genesis", `PreviousHash` the string of exactly
64 characters `0`, and `Hash = computeHash(entry 0)`, a string of 64 characters of the
lowercase hex alphabet. -/
theorem newService_genesis {P : Type} (L : Std P) (signer : Ed25519Signer) (id : String)
    (now : Time) :
    ∃ g, (NewService L signer id now).chain = [g] ∧ g.EntryType = "genesis" ∧
      g.PreviousHash = String.mk (List.replicate 64 '0') ∧ g.Hash = computeHash L g ∧
      g.Hash.length = 64 ∧ ∀ c ∈ g.Hash.data, c ∈ hextable := by
  have hz : "0000000000000000000000000000000000000000000000000000000000000000" =
      String.mk (List.replicate 64 '0') := by decide
  refine ⟨_, rfl, rfl, hz, rfl, ?_, ?_⟩
  · show (hexEncodeToString _).length = 64
    simp only [hexEncodeToString, String.length, hexEncode_length]
    rw [(L.Sum256 _).property]
  · intro c hc
    exact hexEncode_mem _ c hc

/-! ## The circuit breaker: lemmas -/

theorem wrapInt64_of_range (x : Int) (h0 : -9223372036854775808 ≤ x) (h1 : x ≤ maxInt64) :
    wrapInt64 x = x := by
  unfold wrapInt64
  unfold maxInt64 at h1
  omega

/-- A failure recorded by a closed breaker below its threshold. -/
theorem onFailure_closed (cb : CircuitBreaker) (now : Int) (hst : cb.state = .StateClosed)
    (h0 : 0 ≤ cb.failures) (hlt : cb.failures < cb.config.MaxFailures)
    (hmax : cb.config.MaxFailures ≤ maxInt64) :
    (cb.onFailure now).config = cb.config ∧ (cb.onFailure now).failures = cb.failures + 1 ∧
      (cb.onFailure now).lastFailure = now ∧
      (cb.onFailure now).state =
        if cb.failures + 1 < cb.config.MaxFailures then .StateClosed else .StateOpen := by
  have hw : wrapInt64 (cb.failures + 1) = cb.failures + 1 :=
    wrapInt64_of_range _ (by omega) (by omega)
  by_cases h : cb.failures + 1 < cb.config.MaxFailures
  · have h' : ¬ cb.failures + 1 ≥ cb.config.MaxFailures := by omega
    simp [CircuitBreaker.onFailure, hst, hw, h, h']
  · have h' : cb.failures + 1 ≥ cb.config.MaxFailures := by omega
    simp [CircuitBreaker.onFailure, CircuitBreaker.transitionTo, hst, hw, h, h']

theorem enter_closed (cb : CircuitBreaker) (now : Int) (hst : cb.state = .StateClosed) :
    cb.enter now = (cb, true) := by
  simp [CircuitBreaker.enter, hst]

/-- A closed breaker runs the function once and hands back what it returned. -/
theorem Execute_closed {W R : Type} (cb : CircuitBreaker) (t1 t2 : Int)
    (fn : W → (Option R × Option GoError) × W) (w : W) (hst : cb.state = .StateClosed) :
    cb.Execute t1 t2 fn w = (cb.complete (fn w).1.2 t2, (fn w).1, (fn w).2) := by
  unfold CircuitBreaker.Execute
  rw [enter_closed cb t1 hst]
  rcases hfn : fn w with ⟨⟨result, err⟩, w1⟩
  cases err <;> rfl

theorem executeAll_failing {W R : Type} (calls : List (Call W R)) :
    ∀ (cb : CircuitBreaker) (w : W), cb.state = .StateClosed → 0 ≤ cb.failures →
      cb.failures < cb.config.MaxFailures → cb.config.MaxFailures ≤ maxInt64 →
      cb.failures + (calls.length : Int) ≤ cb.config.MaxFailures →
      (∀ out ∈ (invokeAll calls w).1, out.2 ≠ none) →
      (executeAll cb calls w).2 = invokeAll calls w ∧
        (executeAll cb calls w).1.state =
          if cb.failures + (calls.length : Int) < cb.config.MaxFailures then .StateClosed
          else .StateOpen := by
  induction calls with
  | nil =>
    intro cb w hst _ hlt _ _ _
    simp [executeAll, invokeAll, hst, hlt]
  | cons c rest ih =>
    intro cb w hst h0 hlt hmax hlen hfail
    have hex := Execute_closed cb c.t1 c.t2 c.fn w hst
    have herr : (c.fn w).1.2 ≠ none := hfail (c.fn w).1 (by simp [invokeAll])
    obtain ⟨e, he⟩ := Option.ne_none_iff_exists'.mp herr
    obtain ⟨hcfg, hf, _, hs⟩ := onFailure_closed cb c.t2 hst h0 hlt hmax
    have hcompl : cb.complete (c.fn w).1.2 c.t2 = cb.onFailure c.t2 := by
      rw [he]; rfl
    rw [hcompl] at hex
    simp only [List.length_cons, Nat.cast_add, Nat.cast_one] at hlen ⊢
    by_cases hlast : cb.failures + 1 < cb.config.MaxFailures
    · rw [if_pos hlast] at hs
      have hrest := ih (cb.onFailure c.t2) (c.fn w).2 hs (by omega) (by rw [hf, hcfg]; exact hlast)
        (by rw [hcfg]; exact hmax) (by rw [hf, hcfg]; omega)
        (fun out hout => hfail out (by simp only [invokeAll, List.mem_cons]; exact Or.inr hout))
      rw [hf, hcfg] at hrest
      simp only [executeAll, hex, invokeAll, hrest.1]
      refine ⟨trivial, ?_⟩
      rw [hrest.2]
      have : cb.failures + 1 + (rest.length : Int) = cb.failures + ((rest.length : Int) + 1) := by
        omega
      rw [this]
    · rw [if_neg hlast] at hs
      have hnil : rest = [] := by
        apply List.eq_nil_of_length_eq_zero
        omega
      subst hnil
      have hge : ¬ cb.failures + ((([] : List (Call W R)).length : Int) + 1) <
          cb.config.MaxFailures := by
        simp only [List.length_nil, Nat.cast_zero, zero_add]; exact hlast
      simp only [executeAll, hex, invokeAll, hs, if_neg hge]
      trivial

/-! ## The circuit breaker: claims -/

/-- C10. For every `N ≥ 1`, a breaker freshly created with `MaxFailures = N` and driven by
`k ≤ N` consecutive `Execute` calls whose functions all return an error is closed after them
when `k < N` and open when `k = N`; each call invokes its function exactly once and returns
what the function returned, its error included: the values returned and the outside world
are those of invoking the functions directly, once each and in order. -/
theorem breaker_opens_at_max_failures {W R : Type} (cfg : CircuitBreakerConfig)
    (hN : 1 ≤ cfg.MaxFailures) (hmax : cfg.MaxFailures ≤ maxInt64) (calls : List (Call W R))
    (w : W) (hlen : (calls.length : Int) ≤ cfg.MaxFailures)
    (hfail : ∀ out ∈ (invokeAll calls w).1, out.2 ≠ none) :
    (executeAll (NewCircuitBreaker cfg) calls w).2 = invokeAll calls w ∧
      (executeAll (NewCircuitBreaker cfg) calls w).1.state =
        if (calls.length : Int) < cfg.MaxFailures then .StateClosed else .StateOpen := by
  have hne : cfg.MaxFailures ≠ 0 := by omega
  have hcfg : (NewCircuitBreaker cfg).config.MaxFailures = cfg.MaxFailures := by
    simp only [NewCircuitBreaker, hne, if_false]
    split_ifs <;> rfl
  have h := executeAll_failing calls (NewCircuitBreaker cfg) w rfl (le_refl 0)
    (by rw [hcfg]; exact hN) (by rw [hcfg]; exact hmax)
    (by rw [hcfg]; simpa [NewCircuitBreaker] using hlen) hfail
  rw [hcfg] at h
  have hz : (NewCircuitBreaker cfg).failures = 0 := rfl
  rw [hz] at h
  simpa using h

theorem breaker_opens_at_max_failures_witness :
    (executeAll (NewCircuitBreaker cfg3) threeFailures 0).2 = invokeAll threeFailures 0 ∧
      (executeAll (NewCircuitBreaker cfg3) threeFailures 0).1.state = .StateOpen ∧
      (executeAll (NewCircuitBreaker cfg3) (threeFailures.take 2) 0).1.state = .StateClosed :=
  ⟨(breaker_opens_at_max_failures cfg3 (by decide) (by decide) threeFailures 0 (by decide)
      (by decide)).1,
    (breaker_opens_at_max_failures cfg3 (by decide) (by decide) threeFailures 0 (by decide)
      (by decide)).2,
    (breaker_opens_at_max_failures cfg3 (by decide) (by decide) (threeFailures.take 2) 0
      (by decide) (by decide)).2⟩

theorem onSuccess_closed (cb : CircuitBreaker) (hst : cb.state = .StateClosed) :
    cb.onSuccess.config = cb.config ∧ cb.onSuccess.failures = 0 ∧
      cb.onSuccess.state = .StateClosed := by
  simp [CircuitBreaker.onSuccess, hst]

theorem invokeAll_cons {W R : Type} (c : Call W R) (rest : List (Call W R)) (w : W) :
    invokeAll (c :: rest) w =
      ((c.fn w).1 :: (invokeAll rest (c.fn w).2).1, (invokeAll rest (c.fn w).2).2) := rfl

theorem executeAll_cons {W R : Type} (cb : CircuitBreaker) (c : Call W R)
    (rest : List (Call W R)) (w : W) :
    executeAll cb (c :: rest) w =
      ((executeAll (cb.Execute c.t1 c.t2 c.fn w).1 rest (cb.Execute c.t1 c.t2 c.fn w).2.2).1,
        (cb.Execute c.t1 c.t2 c.fn w).2.1 ::
          (executeAll (cb.Execute c.t1 c.t2 c.fn w).1 rest (cb.Execute c.t1 c.t2 c.fn w).2.2).2.1,
        (executeAll (cb.Execute c.t1 c.t2 c.fn w).1 rest (cb.Execute c.t1 c.t2 c.fn w).2.2).2.2) :=
  rfl

/-- An open breaker within its timeout turns the call away and stays as it is. -/
theorem Execute_open_within {W R : Type} (cb : CircuitBreaker) (t1 t2 : Int)
    (fn : W → (Option R × Option GoError) × W) (w : W) (hst : cb.state = .StateOpen)
    (hwithin : timeSince t1 cb.lastFailure ≤ cb.config.ResetTimeout) :
    cb.Execute t1 t2 fn w = (cb, (none, some ErrCircuitOpen), w) := by
  have h : ¬ timeSince t1 cb.lastFailure > cb.config.ResetTimeout := by omega
  simp [CircuitBreaker.Execute, CircuitBreaker.enter, hst, h]

/-- A breaker that lets the call in runs the function once and hands back what it
returned. -/
theorem Execute_entered {W R : Type} (cb cb1 : CircuitBreaker) (t1 t2 : Int)
    (fn : W → (Option R × Option GoError) × W) (w : W) (hin : cb.enter t1 = (cb1, true)) :
    cb.Execute t1 t2 fn w = (cb1.complete (fn w).1.2 t2, (fn w).1, (fn w).2) := by
  unfold CircuitBreaker.Execute
  rw [hin]
  rcases hfn : fn w with ⟨⟨result, err⟩, w1⟩
  cases err <;> rfl

/-- A failure recorded by a half-open breaker. -/
theorem onFailure_halfOpen (cb : CircuitBreaker) (now : Int) (hst : cb.state = .StateHalfOpen) :
    (cb.onFailure now).state = .StateOpen ∧ (cb.onFailure now).lastFailure = now ∧
      (cb.onFailure now).config = cb.config := by
  simp [CircuitBreaker.onFailure, CircuitBreaker.transitionTo, hst]

theorem executeAll_no_run {W R : Type} (calls : List (Call W R)) :
    ∀ (cb : CircuitBreaker) (w : W) (F : List (Option R × Option GoError)),
      cb.state = .StateClosed → cb.failures = (F.length : Int) → (∀ o ∈ F, o.2 ≠ none) →
      (F.length : Int) < cb.config.MaxFailures → cb.config.MaxFailures ≤ maxInt64 →
      (∀ run, List.IsInfix run (F ++ (invokeAll calls w).1) →
        (run.length : Int) = cb.config.MaxFailures → ∃ out ∈ run, out.2 = none) →
      (executeAll cb calls w).1.state = .StateClosed ∧
        (executeAll cb calls w).2 = invokeAll calls w := by
  induction calls with
  | nil =>
    intro cb w F hst _ _ _ _ _
    exact ⟨hst, rfl⟩
  | cons c rest ih =>
    intro cb w F hst hf hF hlt hmax hrun
    have hex := Execute_closed cb c.t1 c.t2 c.fn w hst
    rw [executeAll_cons, invokeAll_cons, hex]
    rw [invokeAll_cons] at hrun
    simp only
    cases herr : (c.fn w).1.2 with
    | none =>
      obtain ⟨hcfg, hf0, hs⟩ := onSuccess_closed cb hst
      have hcompl : cb.complete none c.t2 = cb.onSuccess := rfl
      rw [hcompl]
      have hrest := ih cb.onSuccess (c.fn w).2 [] hs (by rw [hf0]; rfl) (by simp)
        (by rw [hcfg]; simp only [List.length_nil, Nat.cast_zero]; omega) (by rw [hcfg]; exact hmax)
        (by
          intro run hinf hlen
          rw [hcfg] at hlen
          apply hrun run _ hlen
          obtain ⟨s, t, hst'⟩ := hinf
          refine ⟨F ++ [(c.fn w).1] ++ s, t, ?_⟩
          simp only [List.nil_append] at hst'
          rw [← hst']
          simp [List.append_assoc])
      exact ⟨hrest.1, by rw [hrest.2]⟩
    | some e =>
      have hcompl : cb.complete (some e) c.t2 = cb.onFailure c.t2 := rfl
      rw [hcompl]
      have hall : ∀ o ∈ F ++ [(c.fn w).1], o.2 ≠ none := by
        intro o ho
        simp only [List.mem_append, List.mem_singleton] at ho
        rcases ho with ho | ho
        · exact hF o ho
        · rw [ho, herr]; simp
      have hk : (F.length : Int) + 1 < cb.config.MaxFailures := by
        by_contra hge
        have hlen : ((F ++ [(c.fn w).1]).length : Int) = cb.config.MaxFailures := by
          simp only [List.length_append, List.length_singleton, Nat.cast_add, Nat.cast_one]
          omega
        obtain ⟨out, hout, hnone⟩ := hrun (F ++ [(c.fn w).1])
          ⟨[], (invokeAll rest (c.fn w).2).1, by simp⟩ hlen
        exact hall out hout hnone
      obtain ⟨hcfg, hf1, _, hs⟩ := onFailure_closed cb c.t2 hst (by omega) (by omega) hmax
      rw [hf] at hf1 hs
      rw [if_pos hk] at hs
      have hrest := ih (cb.onFailure c.t2) (c.fn w).2 (F ++ [(c.fn w).1]) hs
        (by rw [hf1]; simp) hall (by rw [hcfg]; simpa using hk) (by rw [hcfg]; exact hmax)
        (by
          intro run hinf hlen
          rw [hcfg] at hlen
          apply hrun run _ hlen
          simpa [List.append_assoc] using hinf)
      exact ⟨hrest.1, by rw [hrest.2]⟩

/-- C11. For every breaker in state open, an `Execute` call made while the time since
`lastFailure` is not greater than `ResetTimeout` returns `(nil, ErrCircuitOpen)`, does not
invoke `fn` (the outside world is untouched) and leaves the breaker, with its state,
failures, successes, lastFailure and halfOpenCalls, unchanged. -/
theorem open_breaker_rejects {W R : Type} (cb : CircuitBreaker) (t1 t2 : Int)
    (fn : W → (Option R × Option GoError) × W) (w : W) (hst : cb.state = .StateOpen)
    (hwithin : timeSince t1 cb.lastFailure ≤ cb.config.ResetTimeout) :
    cb.Execute t1 t2 fn w = (cb, (none, some ErrCircuitOpen), w) :=
  Execute_open_within cb t1 t2 fn w hst hwithin

theorem open_breaker_rejects_witness :
    openBreaker.Execute 40000100 40000200 failingFn 7 =
      (openBreaker, (none, some ErrCircuitOpen), 7) :=
  open_breaker_rejects openBreaker 40000100 40000200 failingFn 7 rfl (by decide)

/-- C12. For every breaker in state open whose time since `lastFailure` exceeds
`ResetTimeout`, the next `Execute` call moves it to half-open in its first critical section
and invokes `fn` exactly once, returning what `fn` returned; if `fn` succeeds the error
returned is `nil` and the breaker ends in state closed with failures, successes and
halfOpenCalls all 0. -/
theorem open_breaker_probe {W R : Type} (cb : CircuitBreaker) (t1 t2 : Int)
    (fn : W → (Option R × Option GoError) × W) (w : W) (hst : cb.state = .StateOpen)
    (helapsed : timeSince t1 cb.lastFailure > cb.config.ResetTimeout) :
    (cb.enter t1).1.state = .StateHalfOpen ∧ (cb.enter t1).2 = true ∧
      (cb.Execute t1 t2 fn w).2 = fn w ∧
      ((fn w).1.2 = none →
        (cb.Execute t1 t2 fn w).2.1.2 = none ∧
          (cb.Execute t1 t2 fn w).1.state = .StateClosed ∧
          (cb.Execute t1 t2 fn w).1.failures = 0 ∧ (cb.Execute t1 t2 fn w).1.successes = 0 ∧
          (cb.Execute t1 t2 fn w).1.halfOpenCalls = 0) := by
  have hin : cb.enter t1 = (cb.transitionTo .StateHalfOpen, true) := by
    simp [CircuitBreaker.enter, hst, helapsed]
  have hex := Execute_entered cb _ t1 t2 fn w hin
  refine ⟨by rw [hin]; simp [CircuitBreaker.transitionTo], by rw [hin], by rw [hex], ?_⟩
  intro hok
  rw [hex, hok]
  simp [CircuitBreaker.complete, CircuitBreaker.onSuccess, CircuitBreaker.transitionTo]

theorem open_breaker_probe_witness :
    (openBreaker.enter 60000100).1.state = .StateHalfOpen ∧ (openBreaker.enter 60000100).2 = true ∧
      (openBreaker.Execute 60000100 60000200 succeedingFn 7).2 = succeedingFn 7 ∧
      ((succeedingFn 7).1.2 = none →
        (openBreaker.Execute 60000100 60000200 succeedingFn 7).2.1.2 = none ∧
          (openBreaker.Execute 60000100 60000200 succeedingFn 7).1.state = .StateClosed ∧
          (openBreaker.Execute 60000100 60000200 succeedingFn 7).1.failures = 0 ∧
          (openBreaker.Execute 60000100 60000200 succeedingFn 7).1.successes = 0 ∧
          (openBreaker.Execute 60000100 60000200 succeedingFn 7).1.halfOpenCalls = 0) :=
  open_breaker_probe openBreaker 60000100 60000200 succeedingFn 7 rfl (by decide)

/-- C13. For every breaker in state half-open, a probe whose `fn` returns an error moves
the breaker to state open and sets `lastFailure` to the time of that failure: this holds of
the second critical section of any call that completes then, and of a whole `Execute` call
let in by the half-open breaker; every `Execute` call made afterwards while the time since
that failure is not greater than `ResetTimeout` returns `ErrCircuitOpen` without invoking
its function and leaves the breaker as it is. -/
theorem half_open_failure_reopens {W R : Type} (cb : CircuitBreaker) (t2 : Int) (e : GoError)
    (hst : cb.state = .StateHalfOpen) :
    ((cb.complete (some e) t2).state = .StateOpen ∧ (cb.complete (some e) t2).lastFailure = t2) ∧
      ∀ (t1 : Int) (fn : W → (Option R × Option GoError) × W) (w : W),
        cb.halfOpenCalls < cb.config.HalfOpenMaxCalls → (fn w).1.2 = some e →
        (cb.Execute t1 t2 fn w).2 = fn w ∧
          (cb.Execute t1 t2 fn w).1.state = .StateOpen ∧
          (cb.Execute t1 t2 fn w).1.lastFailure = t2 ∧
          ∀ (t3 t4 : Int) (fn' : W → (Option R × Option GoError) × W) (w' : W),
            timeSince t3 t2 ≤ cb.config.ResetTimeout →
            (cb.Execute t1 t2 fn w).1.Execute t3 t4 fn' w' =
              ((cb.Execute t1 t2 fn w).1, (none, some ErrCircuitOpen), w') := by
  refine ⟨⟨(onFailure_halfOpen cb t2 hst).1, (onFailure_halfOpen cb t2 hst).2.1⟩, ?_⟩
  intro t1 fn w hadm hfail
  have hnot : ¬ cb.halfOpenCalls ≥ cb.config.HalfOpenMaxCalls := by omega
  have hin : cb.enter t1 =
      ({ cb with halfOpenCalls := wrapInt64 (cb.halfOpenCalls + 1) }, true) := by
    simp [CircuitBreaker.enter, hst, hnot]
  have hex := Execute_entered cb _ t1 t2 fn w hin
  rw [hfail] at hex
  have hcompl : CircuitBreaker.complete
      { cb with halfOpenCalls := wrapInt64 (cb.halfOpenCalls + 1) } (some e) t2 =
      CircuitBreaker.onFailure { cb with halfOpenCalls := wrapInt64 (cb.halfOpenCalls + 1) } t2 :=
    rfl
  rw [hcompl] at hex
  obtain ⟨hs, hl, hc⟩ := onFailure_halfOpen
    { cb with halfOpenCalls := wrapInt64 (cb.halfOpenCalls + 1) } t2 hst
  rw [hex]
  refine ⟨rfl, hs, hl, ?_⟩
  intro t3 t4 fn' w' hwithin
  exact Execute_open_within _ t3 t4 fn' w' hs (by rw [hl, hc]; exact hwithin)

theorem half_open_failure_reopens_witness :
    (halfOpenBreaker.Execute 500 600 failingFn 7).2 = failingFn 7 ∧
      (halfOpenBreaker.Execute 500 600 failingFn 7).1.state = .StateOpen ∧
      (halfOpenBreaker.Execute 500 600 failingFn 7).1.lastFailure = 600 ∧
      (halfOpenBreaker.Execute 500 600 failingFn 7).1.Execute 50000600 50000700 succeedingFn 8 =
        ((halfOpenBreaker.Execute 500 600 failingFn 7).1, (none, some ErrCircuitOpen), 8) :=
  have h := (half_open_failure_reopens halfOpenBreaker 600 "boom" rfl).2 500 failingFn 7
    (by decide) rfl
  ⟨h.1, h.2.1, h.2.2.1, h.2.2.2 50000600 50000700 succeedingFn 8 (by decide)⟩

/-- C14 (failing input). A breaker with `HalfOpenMaxCalls = 1` is open and its timeout has
elapsed; three calls arrive before any of them completes.  The first moves the breaker to
half-open and goes on to invoke its function without being counted in `halfOpenCalls`, the
second is let in as well, and only the third is turned away: two calls run their function
at once in state half-open. -/
theorem half_open_lets_in_one_more :
    openBreaker.config.HalfOpenMaxCalls = 1 ∧
      (enterAll openBreaker [60000100, 60000200, 60000300]).2 = [true, true, false] ∧
      (enterAll openBreaker [60000100, 60000200, 60000300]).1.state = .StateHalfOpen ∧
      (enterAll openBreaker [60000100, 60000200, 60000300]).1.halfOpenCalls = 1 := by
  decide

/-- C15. In state closed a successful `Execute` sets the failure counter to 0 and leaves the
breaker closed; and for every sequence of `Execute` calls made one after the other on a fresh
breaker with `MaxFailures = N ≥ 1` whose outcomes contain no run of `N` consecutive failures,
the breaker is closed after the whole sequence and every call invoked its function: the
values returned and the outside world are those of invoking the functions directly. -/
theorem breaker_closed_without_failure_run {W R : Type} (cfg : CircuitBreakerConfig)
    (hN : 1 ≤ cfg.MaxFailures) (hmax : cfg.MaxFailures ≤ maxInt64) (calls : List (Call W R))
    (w : W)
    (hrun : ∀ run, List.IsInfix run (invokeAll calls w).1 →
      (run.length : Int) = cfg.MaxFailures → ∃ out ∈ run, out.2 = none) :
    (∀ (cb : CircuitBreaker) (t1 t2 : Int) (fn : W → (Option R × Option GoError) × W) (v : W),
        cb.state = .StateClosed → (fn v).1.2 = none →
        (cb.Execute t1 t2 fn v).1.failures = 0 ∧ (cb.Execute t1 t2 fn v).1.state = .StateClosed) ∧
      (executeAll (NewCircuitBreaker cfg) calls w).1.state = .StateClosed ∧
      (executeAll (NewCircuitBreaker cfg) calls w).2 = invokeAll calls w := by
  constructor
  · intro cb t1 t2 fn v hst hok
    rw [Execute_closed cb t1 t2 fn v hst, hok]
    exact ⟨(onSuccess_closed cb hst).2.1, (onSuccess_closed cb hst).2.2⟩
  · have hne : cfg.MaxFailures ≠ 0 := by omega
    have hcfg : (NewCircuitBreaker cfg).config.MaxFailures = cfg.MaxFailures := by
      simp only [NewCircuitBreaker, hne, if_false]
      split_ifs <;> rfl
    exact executeAll_no_run calls (NewCircuitBreaker cfg) w [] rfl rfl (by simp)
      (by rw [hcfg]; simp only [List.length_nil, Nat.cast_zero]; omega) (by rw [hcfg]; exact hmax)
      (by rw [hcfg]; simpa using hrun)

theorem breaker_closed_without_failure_run_witness :
    (executeAll (NewCircuitBreaker cfg3) mixedCalls 0).1.state = .StateClosed ∧
      (executeAll (NewCircuitBreaker cfg3) mixedCalls 0).2 = invokeAll mixedCalls 0 :=
  (breaker_closed_without_failure_run cfg3 (by decide) (by decide) mixedCalls 0
    (by
      intro run hinf hlen
      have h3 : run.length = 3 := by
        have : (run.length : Int) = 3 := hlen
        omega
      obtain ⟨s, t, hst⟩ := hinf
      have hs : s.length + 3 + t.length = 5 := by
        have := congrArg List.length hst
        simp only [List.length_append, h3] at this
        exact this
      have hout : run[2 - s.length]? = some (some 42, none) := by
        have h2 : (s ++ run ++ t)[2]? = some (some 42, none) := by rw [hst]; rfl
        rw [List.append_assoc, List.getElem?_append_right (by omega),
          List.getElem?_append_left (by omega)] at h2
        exact h2
      exact ⟨_, List.getElem?_mem hout, rfl⟩)).2

/-! ## The retry driver: lemmas -/

section Retry

variable {F W : Type}

/-- After the loop: the last error is returned, a `nil` last error is dereferenced. -/
theorem loop_done (env : RetryEnv F W) (cfg : RetryConfig F) (fn : W → Option GoError × W)
    (attempt : Int) (lastErr : Option GoError) (w : W) (h : ¬ attempt < cfg.MaxAttempts) :
    RetryWithBackoff.loop env cfg fn attempt lastErr w =
      RetryWithBackoff.exhausted lastErr w := by
  rw [RetryWithBackoff.loop.eq_def env cfg fn attempt lastErr w]
  simp only [h, dite_false]

/-- The check before an attempt finds the context cancelled. -/
theorem loop_cancelled (env : RetryEnv F W) (cfg : RetryConfig F) (fn : W → Option GoError × W)
    (attempt : Int) (lastErr : Option GoError) (w : W) (h : attempt < cfg.MaxAttempts)
    (e : GoError) (hc : env.ctxErr w = some e) :
    RetryWithBackoff.loop env cfg fn attempt lastErr w = (.returned (some e), [], w) := by
  rw [RetryWithBackoff.loop.eq_def env cfg fn attempt lastErr w]
  simp only [h, dite_true, hc]

/-- The attempt succeeds. -/
theorem loop_success (env : RetryEnv F W) (cfg : RetryConfig F) (fn : W → Option GoError × W)
    (attempt : Int) (lastErr : Option GoError) (w : W) (h : attempt < cfg.MaxAttempts)
    (hc : env.ctxErr w = none) (hfn : (fn w).1 = none) :
    RetryWithBackoff.loop env cfg fn attempt lastErr w =
      (.returned none, [.invoked none], (fn w).2) := by
  rw [RetryWithBackoff.loop.eq_def env cfg fn attempt lastErr w]
  rcases hw : fn w with ⟨err, w1⟩
  rw [hw] at hfn
  simp only at hfn
  subst hfn
  simp only [h, dite_true, hc]

/-- The last attempt fails: no wait follows. -/
theorem loop_fail_last (env : RetryEnv F W) (cfg : RetryConfig F) (fn : W → Option GoError × W)
    (attempt : Int) (lastErr : Option GoError) (w : W) (h : attempt < cfg.MaxAttempts)
    (hc : env.ctxErr w = none) (e : GoError) (hfn : (fn w).1 = some e)
    (hlast : ¬ attempt < cfg.MaxAttempts - 1) :
    RetryWithBackoff.loop env cfg fn attempt lastErr w =
      (.returned (some e), [.invoked (some e)], (fn w).2) := by
  rw [RetryWithBackoff.loop.eq_def env cfg fn attempt lastErr w]
  rcases hw : fn w with ⟨err, w1⟩
  rw [hw] at hfn
  simp only at hfn
  subst hfn
  have hdone : ¬ attempt + 1 < cfg.MaxAttempts := by omega
  simp only [h, dite_true, hc, hlast, if_false, loop_done env cfg fn _ _ _ hdone,
    RetryWithBackoff.exhausted]

/-- An attempt before the last fails and the wait is cut short by the context. -/
theorem loop_fail_wait_cancelled (env : RetryEnv F W) (cfg : RetryConfig F)
    (fn : W → Option GoError × W) (attempt : Int) (lastErr : Option GoError) (w : W)
    (hc : env.ctxErr w = none) (e : GoError) (hfn : (fn w).1 = some e)
    (hmore : attempt < cfg.MaxAttempts - 1)
    (hsel : (env.select (env.calculateDelay attempt cfg (fn w).2).1
      (env.calculateDelay attempt cfg (fn w).2).2).1 = true) :
    RetryWithBackoff.loop env cfg fn attempt lastErr w =
      (.returned (env.ctxErr (env.select (env.calculateDelay attempt cfg (fn w).2).1
          (env.calculateDelay attempt cfg (fn w).2).2).2),
        [.invoked (some e), .waited (env.calculateDelay attempt cfg (fn w).2).1 true],
        (env.select (env.calculateDelay attempt cfg (fn w).2).1
          (env.calculateDelay attempt cfg (fn w).2).2).2) := by
  rw [RetryWithBackoff.loop.eq_def env cfg fn attempt lastErr w]
  rcases hw : fn w with ⟨err, w1⟩
  rw [hw] at hfn hsel
  simp only at hfn hsel
  subst hfn
  have h : attempt < cfg.MaxAttempts := by omega
  rcases hd : env.calculateDelay attempt cfg w1 with ⟨delay, w2⟩
  rw [hd] at hsel
  simp only at hsel
  rcases hs : env.select delay w2 with ⟨b, w3⟩
  rw [hs] at hsel
  simp only at hsel
  subst hsel
  simp only [h, dite_true, hc, hmore, if_true, hd, hs]

/-- An attempt before the last fails and the wait runs to its end. -/
theorem loop_fail_wait (env : RetryEnv F W) (cfg : RetryConfig F)
    (fn : W → Option GoError × W) (attempt : Int) (lastErr : Option GoError) (w : W)
    (hc : env.ctxErr w = none) (e : GoError) (hfn : (fn w).1 = some e)
    (hmore : attempt < cfg.MaxAttempts - 1)
    (hsel : (env.select (env.calculateDelay attempt cfg (fn w).2).1
      (env.calculateDelay attempt cfg (fn w).2).2).1 = false) :
    RetryWithBackoff.loop env cfg fn attempt lastErr w =
      ((RetryWithBackoff.loop env cfg fn (attempt + 1) (some e)
          (env.select (env.calculateDelay attempt cfg (fn w).2).1
            (env.calculateDelay attempt cfg (fn w).2).2).2).1,
        .invoked (some e) :: .waited (env.calculateDelay attempt cfg (fn w).2).1 false ::
          (RetryWithBackoff.loop env cfg fn (attempt + 1) (some e)
            (env.select (env.calculateDelay attempt cfg (fn w).2).1
              (env.calculateDelay attempt cfg (fn w).2).2).2).2.1,
        (RetryWithBackoff.loop env cfg fn (attempt + 1) (some e)
          (env.select (env.calculateDelay attempt cfg (fn w).2).1
            (env.calculateDelay attempt cfg (fn w).2).2).2).2.2) := by
  rw [RetryWithBackoff.loop.eq_def env cfg fn attempt lastErr w]
  rcases hw : fn w with ⟨err, w1⟩
  rw [hw] at hfn hsel
  simp only at hfn hsel
  subst hfn
  have h : attempt < cfg.MaxAttempts := by omega
  rcases hd : env.calculateDelay attempt cfg w1 with ⟨delay, w2⟩
  rw [hd] at hsel
  simp only at hsel
  rcases hs : env.select delay w2 with ⟨b, w3⟩
  rw [hs] at hsel
  simp only at hsel
  subst hsel
  simp only [h, dite_true, hc, hmore, if_true, hd, hs]

/-- Without cancellation and with a function that always fails, the loop with `m + 1`
attempts left invokes the function `m + 1` times, waits `m` times and returns the error of
the last invocation. -/
theorem loop_all_fail (env : RetryEnv F W) (cfg : RetryConfig F) (fn : W → Option GoError × W)
    (hnc : env.NeverCancelled) (hfail : ∀ v, (fn v).1 ≠ none) :
    ∀ (m : Nat) (attempt : Int) (lastErr : Option GoError) (w : W),
      attempt + ((m : Int) + 1) = cfg.MaxAttempts →
      ∃ e, (RetryWithBackoff.loop env cfg fn attempt lastErr w).1 = .returned (some e) ∧
        invocations (RetryWithBackoff.loop env cfg fn attempt lastErr w).2.1 = m + 1 ∧
        waits (RetryWithBackoff.loop env cfg fn attempt lastErr w).2.1 = m ∧
        (RetryWithBackoff.loop env cfg fn attempt lastErr w).2.1.getLast? =
          some (.invoked (some e)) := by
  intro m
  induction m with
  | zero =>
    intro attempt lastErr w hm
    obtain ⟨e, he⟩ := Option.ne_none_iff_exists'.mp (hfail w)
    simp only [Nat.cast_zero, zero_add] at hm
    rw [loop_fail_last env cfg fn attempt lastErr w (by omega) (hnc.1 w) e he (by omega)]
    exact ⟨e, rfl, rfl, rfl, rfl⟩
  | succ m ih =>
    intro attempt lastErr w hm
    obtain ⟨e, he⟩ := Option.ne_none_iff_exists'.mp (hfail w)
    simp only [Nat.cast_add, Nat.cast_one] at hm
    rw [loop_fail_wait env cfg fn attempt lastErr w (hnc.1 w) e he (by omega) (hnc.2 _ _)]
    obtain ⟨e', h1, h2, h3, h4⟩ := ih (attempt + 1) (some e)
      (env.select (env.calculateDelay attempt cfg (fn w).2).1
        (env.calculateDelay attempt cfg (fn w).2).2).2 (by omega)
    refine ⟨e', h1, ?_, ?_, ?_⟩
    · simp only [invocations, h2]
    · simp only [invocations, waits, h3]
    · simp only
      rw [List.getLast?_cons_cons, List.getLast?_cons, h4]
      rfl

/-- Without cancellation and with a function that first succeeds `m` invocations from now,
the loop invokes the function `m + 1` times, waits `m` times and returns `nil`. -/
theorem loop_first_success (env : RetryEnv F W) (cfg : RetryConfig F)
    (fn : W → Option GoError × W) (hnc : env.NeverCancelled) (count : W → Nat) (j : Nat)
    (hcount : env.Counts cfg fn count) (hfail : ∀ v, count v + 1 < j → (fn v).1 ≠ none)
    (hok : ∀ v, count v + 1 = j → (fn v).1 = none) :
    ∀ (m : Nat) (attempt : Int) (lastErr : Option GoError) (w : W),
      count w + m + 1 = j → attempt + (m : Int) < cfg.MaxAttempts →
      (RetryWithBackoff.loop env cfg fn attempt lastErr w).1 = .returned none ∧
        invocations (RetryWithBackoff.loop env cfg fn attempt lastErr w).2.1 = m + 1 ∧
        waits (RetryWithBackoff.loop env cfg fn attempt lastErr w).2.1 = m ∧
        count (RetryWithBackoff.loop env cfg fn attempt lastErr w).2.2 = j := by
  intro m
  induction m with
  | zero =>
    intro attempt lastErr w hj hm
    simp only [Nat.cast_zero, add_zero] at hm
    rw [loop_success env cfg fn attempt lastErr w hm (hnc.1 w) (hok w (by omega))]
    exact ⟨rfl, rfl, rfl, by rw [hcount.1 w]; omega⟩
  | succ m ih =>
    intro attempt lastErr w hj hm
    obtain ⟨e, he⟩ := Option.ne_none_iff_exists'.mp (hfail w (by omega))
    simp only [Nat.cast_add, Nat.cast_one] at hm
    rw [loop_fail_wait env cfg fn attempt lastErr w (hnc.1 w) e he (by omega) (hnc.2 _ _)]
    obtain ⟨h1, h2, h3, h4⟩ := ih (attempt + 1) (some e)
      (env.select (env.calculateDelay attempt cfg (fn w).2).1
        (env.calculateDelay attempt cfg (fn w).2).2).2
      (by rw [hcount.2.2, hcount.2.1, hcount.1]; omega) (by omega)
    exact ⟨h1, by simp only [invocations, h2], by simp only [invocations, waits, h3], h4⟩

end Retry

/-! ## The retry driver: claims -/

/-- C16. For every configuration with `MaxAttempts = n ≥ 1` and a context that is never
cancelled: with an `fn` that fails on every invocation, `RetryWithBackoff` invokes `fn`
exactly `n` times, waits exactly `n - 1` times, ends on an invocation (no wait after the
last attempt) and returns the error of that last invocation; with an `fn` that first
succeeds on its `j`-th invocation, `1 ≤ j ≤ n`, it returns `nil` after exactly `j`
invocations and `j - 1` waits. -/
theorem retry_attempt_count {F W : Type} (env : RetryEnv F W) (cfg : RetryConfig F)
    (fn : W → Option GoError × W) (w : W) (hn : 1 ≤ cfg.MaxAttempts)
    (hnc : env.NeverCancelled) :
    ((∀ v, (fn v).1 ≠ none) →
        ∃ e, (RetryWithBackoff env cfg fn w).1 = .returned (some e) ∧
          (invocations (RetryWithBackoff env cfg fn w).2.1 : Int) = cfg.MaxAttempts ∧
          (waits (RetryWithBackoff env cfg fn w).2.1 : Int) = cfg.MaxAttempts - 1 ∧
          (RetryWithBackoff env cfg fn w).2.1.getLast? = some (.invoked (some e))) ∧
      ∀ (count : W → Nat) (j : Nat), env.Counts cfg fn count → count w = 0 → 1 ≤ j →
        (j : Int) ≤ cfg.MaxAttempts → (∀ v, count v + 1 < j → (fn v).1 ≠ none) →
        (∀ v, count v + 1 = j → (fn v).1 = none) →
        (RetryWithBackoff env cfg fn w).1 = .returned none ∧
          invocations (RetryWithBackoff env cfg fn w).2.1 = j ∧
          waits (RetryWithBackoff env cfg fn w).2.1 = j - 1 ∧
          count (RetryWithBackoff env cfg fn w).2.2 = j := by
  constructor
  · intro hfail
    obtain ⟨e, h1, h2, h3, h4⟩ := loop_all_fail env cfg fn hnc hfail
      (cfg.MaxAttempts.toNat - 1) 0 none w (by omega)
    refine ⟨e, h1, ?_, ?_, h4⟩
    · show (invocations (RetryWithBackoff.loop env cfg fn 0 none w).2.1 : Int) = cfg.MaxAttempts
      rw [h2]; omega
    · show (waits (RetryWithBackoff.loop env cfg fn 0 none w).2.1 : Int) = cfg.MaxAttempts - 1
      rw [h3]; omega
  · intro count j hcount h0 hj1 hjn hfail hok
    obtain ⟨h1, h2, h3, h4⟩ := loop_first_success env cfg fn hnc count j hcount hfail hok
      (j - 1) 0 none w (by omega) (by omega)
    refine ⟨h1, ?_, ?_, h4⟩
    · show invocations (RetryWithBackoff.loop env cfg fn 0 none w).2.1 = j
      rw [h2]; omega
    · exact h3

theorem calmRetryEnv_neverCancelled : calmRetryEnv.NeverCancelled :=
  ⟨fun _ => rfl, fun _ _ => rfl⟩

theorem retry_attempt_count_witness :
    (∃ e, (RetryWithBackoff calmRetryEnv retryCfg5 alwaysFails ⟨0, false⟩).1 = .returned (some e) ∧
      (invocations (RetryWithBackoff calmRetryEnv retryCfg5 alwaysFails ⟨0, false⟩).2.1 : Int) = 5 ∧
      (waits (RetryWithBackoff calmRetryEnv retryCfg5 alwaysFails ⟨0, false⟩).2.1 : Int) = 5 - 1 ∧
      (RetryWithBackoff calmRetryEnv retryCfg5 alwaysFails ⟨0, false⟩).2.1.getLast? =
        some (.invoked (some e))) ∧
      ((RetryWithBackoff calmRetryEnv retryCfg5 succeedsThird ⟨0, false⟩).1 = .returned none ∧
        invocations (RetryWithBackoff calmRetryEnv retryCfg5 succeedsThird ⟨0, false⟩).2.1 = 3 ∧
        waits (RetryWithBackoff calmRetryEnv retryCfg5 succeedsThird ⟨0, false⟩).2.1 = 3 - 1 ∧
        (RetryWithBackoff calmRetryEnv retryCfg5 succeedsThird ⟨0, false⟩).2.2.calls = 3) :=
  ⟨(retry_attempt_count calmRetryEnv retryCfg5 alwaysFails ⟨0, false⟩ (by decide)
      calmRetryEnv_neverCancelled).1 (fun _ => by simp [alwaysFails]),
    (retry_attempt_count calmRetryEnv retryCfg5 succeedsThird ⟨0, false⟩ (by decide)
      calmRetryEnv_neverCancelled).2 (fun v => v.calls) 3
      ⟨fun _ => rfl, fun _ _ => rfl, fun _ _ => rfl⟩ rfl (by decide) (by decide)
      (fun v hv => by
        have hv1 : v.calls + 1 < 3 := hv
        simp [succeedsThird, hv1])
      (fun v hv => by
        have hv1 : v.calls + 1 = 3 := hv
        have : ¬ v.calls + 1 < 3 := by omega
        simp [succeedsThird, this])⟩

/-- C17. For every configuration and `fn`: when the check before an attempt finds the
context cancelled, `RetryWithBackoff` returns the context's error at once; when a wait
between attempts is cut short by the context, it returns the context's error right after
the wait; in both cases `fn` is not invoked again.  With a context already cancelled at
entry `fn` is invoked zero times (and the context's error is returned when
`MaxAttempts ≥ 1`); with a context cancelled by the time the first, failing attempt is over,
`MaxAttempts ≥ 2` and a cancellation that persists, `fn` is invoked exactly once and the
context's error is returned. -/
theorem retry_cancellation {F W : Type} (env : RetryEnv F W) (cfg : RetryConfig F)
    (fn : W → Option GoError × W) :
    (∀ (attempt : Int) (lastErr : Option GoError) (w : W) (e : GoError),
        attempt < cfg.MaxAttempts → env.ctxErr w = some e →
        RetryWithBackoff.loop env cfg fn attempt lastErr w = (.returned (some e), [], w)) ∧
      (∀ (attempt : Int) (lastErr : Option GoError) (w : W) (e : GoError),
        env.ctxErr w = none → (fn w).1 = some e → attempt < cfg.MaxAttempts - 1 →
        (env.select (env.calculateDelay attempt cfg (fn w).2).1
          (env.calculateDelay attempt cfg (fn w).2).2).1 = true →
        RetryWithBackoff.loop env cfg fn attempt lastErr w =
          (.returned (env.ctxErr (env.select (env.calculateDelay attempt cfg (fn w).2).1
              (env.calculateDelay attempt cfg (fn w).2).2).2),
            [.invoked (some e), .waited (env.calculateDelay attempt cfg (fn w).2).1 true],
            (env.select (env.calculateDelay attempt cfg (fn w).2).1
              (env.calculateDelay attempt cfg (fn w).2).2).2)) ∧
      (∀ (w : W), env.ctxErr w ≠ none →
        invocations (RetryWithBackoff env cfg fn w).2.1 = 0 ∧
          (RetryWithBackoff env cfg fn w).2.2 = w ∧
          (1 ≤ cfg.MaxAttempts → (RetryWithBackoff env cfg fn w).1 = .returned (env.ctxErr w))) ∧
      ∀ (w : W) (e : GoError), 2 ≤ cfg.MaxAttempts → env.ctxErr w = none →
        (fn w).1 = some e → env.ctxErr (fn w).2 ≠ none → env.CancelPersists cfg →
        invocations (RetryWithBackoff env cfg fn w).2.1 = 1 ∧
          ∃ ce, (RetryWithBackoff env cfg fn w).1 = .returned (some ce) ∧
            env.ctxErr (RetryWithBackoff env cfg fn w).2.2 = some ce := by
  refine ⟨?_, ?_, ?_, ?_⟩
  · intro attempt lastErr w e h hc
    exact loop_cancelled env cfg fn attempt lastErr w h e hc
  · intro attempt lastErr w e hc hfn hmore hsel
    exact loop_fail_wait_cancelled env cfg fn attempt lastErr w hc e hfn hmore hsel
  · intro w hc
    obtain ⟨ce, hce⟩ := Option.ne_none_iff_exists'.mp hc
    by_cases h : (0 : Int) < cfg.MaxAttempts
    · have hl := loop_cancelled env cfg fn 0 none w h ce hce
      simp only [RetryWithBackoff, hl, invocations, hce]
      exact ⟨trivial, trivial, fun _ => trivial⟩
    · have hl := loop_done env cfg fn 0 none w h
      simp only [RetryWithBackoff, hl, RetryWithBackoff.exhausted, invocations]
      exact ⟨trivial, trivial, fun h1 => absurd (by omega) h⟩
  · intro w e hn hc hfn hcan hpers
    have hc2 := (hpers _ hcan).1 0
    have hc3 := (hpers _ hc2).2 (env.calculateDelay 0 cfg (fn w).2).1
    obtain ⟨ce, hce⟩ := Option.ne_none_iff_exists'.mp hc3
    cases hsel : (env.select (env.calculateDelay 0 cfg (fn w).2).1
        (env.calculateDelay 0 cfg (fn w).2).2).1 with
    | true =>
      have hl := loop_fail_wait_cancelled env cfg fn 0 none w hc e hfn (by omega) hsel
      simp only [RetryWithBackoff, hl, invocations]
      exact ⟨trivial, ce, by rw [hce], hce⟩
    | false =>
      have hl := loop_fail_wait env cfg fn 0 none w hc e hfn (by omega) hsel
      have hl2 := loop_cancelled env cfg fn (0 + 1) (some e) _ (by omega) ce hce
      simp only [RetryWithBackoff, hl, hl2, invocations]
      exact ⟨trivial, ce, rfl, hce⟩

/-! ## The dead-letter queue: lemmas -/

theorem mapDelete_subset (m : List (String × DeadLetterMessage)) (k : String) :
    ∀ e ∈ mapDelete m k, e ∈ m := by
  intro e he
  exact (List.mem_filter.mp he).1

theorem mapDelete_key_ne (m : List (String × DeadLetterMessage)) (k : String) :
    ∀ e ∈ mapDelete m k, e.1 ≠ k := by
  intro e he
  simpa using (List.mem_filter.mp he).2

theorem mapDelete_keys_nodup (m : List (String × DeadLetterMessage)) (k : String)
    (h : (m.map fun e => e.1).Nodup) : ((mapDelete m k).map fun e => e.1).Nodup := by
  unfold mapDelete
  exact List.Nodup.sublist (List.Sublist.map _ (List.filter_sublist m)) h

/-- Deleting a key that is absent changes nothing. -/
theorem mapDelete_of_not_mem (m : List (String × DeadLetterMessage)) (k : String)
    (h : k ∉ m.map fun e => e.1) : mapDelete m k = m := by
  unfold mapDelete
  apply List.filter_eq_self.mpr
  intro e he
  have : e.1 ≠ k := fun heq => h (List.mem_map.mpr ⟨e, he, heq⟩)
  simpa using this

/-- Deleting a key that is present, in a map with no key twice, removes one entry. -/
theorem mapDelete_length_of_mem (m : List (String × DeadLetterMessage)) (k : String)
    (hnd : (m.map fun e => e.1).Nodup) (h : k ∈ m.map fun e => e.1) :
    (mapDelete m k).length + 1 = m.length := by
  induction m with
  | nil => simp at h
  | cons x rest ih =>
    simp only [List.map_cons, List.nodup_cons] at hnd
    by_cases hx : x.1 = k
    · have hrest : k ∉ rest.map fun e => e.1 := by rw [← hx]; exact hnd.1
      have hd := mapDelete_of_not_mem rest k hrest
      unfold mapDelete at hd ⊢
      rw [List.filter_cons_of_neg (by simpa using hx), hd]
      rfl
    · have hk : k ∈ rest.map fun e => e.1 := by
        simp only [List.map_cons, List.mem_cons] at h
        rcases h with h | h
        · exact absurd h.symm hx
        · exact h
      have := ih hnd.2 hk
      unfold mapDelete at this ⊢
      rw [List.filter_cons_of_pos (by simpa using hx)]
      simp only [List.length_cons]
      omega

/-- The scan that starts with a candidate ends with it or with a visited message. -/
theorem scan_some_mem (l : List (String × DeadLetterMessage)) :
    ∀ o, ∃ o', evictOldest.scan (some o) l = some o' ∧ (o' = o ∨ ∃ k, (k, o') ∈ l) := by
  induction l with
  | nil => intro o; exact ⟨o, rfl, Or.inl rfl⟩
  | cons e rest ih =>
    intro o
    by_cases h : e.2.FirstFailed < o.FirstFailed
    · obtain ⟨o', h1, h2⟩ := ih e.2
      refine ⟨o', by simp only [evictOldest.scan, h, if_true, h1], Or.inr ?_⟩
      rcases h2 with h2 | ⟨k, hk⟩
      · exact ⟨e.1, by rw [h2]; exact List.mem_cons_self _ _⟩
      · exact ⟨k, List.mem_cons_of_mem _ hk⟩
    · obtain ⟨o', h1, h2⟩ := ih o
      refine ⟨o', by simp only [evictOldest.scan, h, if_false, h1], ?_⟩
      rcases h2 with h2 | ⟨k, hk⟩
      · exact Or.inl h2
      · exact Or.inr ⟨k, List.mem_cons_of_mem _ hk⟩

/-- The scan of a map that is not empty finds a stored message. -/
theorem scan_none_mem (l : List (String × DeadLetterMessage)) (hne : l ≠ []) :
    ∃ o k, evictOldest.scan none l = some o ∧ (k, o) ∈ l := by
  cases l with
  | nil => exact absurd rfl hne
  | cons e rest =>
    obtain ⟨o', h1, h2⟩ := scan_some_mem rest e.2
    rcases h2 with h2 | ⟨k, hk⟩
    · exact ⟨o', e.1, by simp only [evictOldest.scan, h1], by rw [h2]; exact List.mem_cons_self _ _⟩
    · exact ⟨o', k, by simp only [evictOldest.scan, h1], List.mem_cons_of_mem _ hk⟩

/-- On a well formed map that is not empty `evictOldest` removes exactly one entry. -/
theorem evictOldest_length (q : DeadLetterQueue)
    (range : List (String × DeadLetterMessage) → List (String × DeadLetterMessage))
    (hwf : q.WellFormed) (hperm : (range q.messages).Perm q.messages) (hne : q.messages ≠ []) :
    (q.evictOldest range).messages.length + 1 = q.messages.length ∧
      (q.evictOldest range).maxSize = q.maxSize ∧ (q.evictOldest range).WellFormed ∧
      ∀ e ∈ (q.evictOldest range).messages, e ∈ q.messages := by
  have hne' : range q.messages ≠ [] := by
    intro h
    rw [h] at hperm
    exact hne (List.Perm.nil_eq hperm).symm
  obtain ⟨o, k, hscan, hmem⟩ := scan_none_mem (range q.messages) hne'
  have hmem' : (k, o) ∈ q.messages := hperm.subset hmem
  have hid : o.ID = k := hwf.2 (k, o) hmem'
  have hkey : o.ID ∈ q.messages.map fun e => e.1 := by
    rw [hid]; exact List.mem_map.mpr ⟨(k, o), hmem', rfl⟩
  simp only [DeadLetterQueue.evictOldest, hscan]
  refine ⟨mapDelete_length_of_mem q.messages o.ID hwf.1 hkey, trivial, ⟨?_, ?_⟩, ?_⟩
  · exact mapDelete_keys_nodup q.messages o.ID hwf.1
  · exact fun e he => hwf.2 e (mapDelete_subset q.messages o.ID e he)
  · exact mapDelete_subset q.messages o.ID

/-- The message that `Enqueue` stores keeps its `ID`. -/
theorem Enqueue_msg_ID (q : DeadLetterQueue) (msg : DeadLetterMessage) (now : Int)
    (range : List (String × DeadLetterMessage) → List (String × DeadLetterMessage)) :
    (q.Enqueue msg now range).2.ID = msg.ID := by
  simp only [DeadLetterQueue.Enqueue]
  split_ifs <;> rfl

/-- The map after `Enqueue`: the map after the eviction, if any, with the message stored
under its `ID`. -/
theorem Enqueue_messages (q : DeadLetterQueue) (msg : DeadLetterMessage) (now : Int)
    (range : List (String × DeadLetterMessage) → List (String × DeadLetterMessage)) :
    (q.Enqueue msg now range).1.messages =
        mapInsert (if (q.messages.length : Int) ≥ q.maxSize then q.evictOldest range else q).messages
          msg.ID (q.Enqueue msg now range).2 ∧
      (q.Enqueue msg now range).1.maxSize =
        (if (q.messages.length : Int) ≥ q.maxSize then q.evictOldest range else q).maxSize := by
  simp only [DeadLetterQueue.Enqueue]
  split_ifs <;> simp

/-- One `Enqueue` of a message with a new `ID` on a well formed queue with `maxSize ≥ 1`
that holds at most `maxSize` messages. -/
theorem Enqueue_new_size (q : DeadLetterQueue) (msg : DeadLetterMessage) (now : Int)
    (range : List (String × DeadLetterMessage) → List (String × DeadLetterMessage))
    (hwf : q.WellFormed) (hperm : (range q.messages).Perm q.messages) (hmax : 1 ≤ q.maxSize)
    (hle : (q.messages.length : Int) ≤ q.maxSize) (hnew : msg.ID ∉ q.keys) :
    (q.Enqueue msg now range).1.WellFormed ∧
      (q.Enqueue msg now range).1.maxSize = q.maxSize ∧
      ((q.Enqueue msg now range).1.messages.length : Int) =
        min ((q.messages.length : Int) + 1) q.maxSize ∧
      ∀ k ∈ (q.Enqueue msg now range).1.keys, k = msg.ID ∨ k ∈ q.keys := by
  obtain ⟨hmsgs, hms⟩ := Enqueue_messages q msg now range
  have hid := Enqueue_msg_ID q msg now range
  -- the queue after the eviction, if any
  have hq1 : ∃ q1 : DeadLetterQueue,
      q1 = (if (q.messages.length : Int) ≥ q.maxSize then q.evictOldest range else q) ∧
      q1.WellFormed ∧ q1.maxSize = q.maxSize ∧ (∀ e ∈ q1.messages, e ∈ q.messages) ∧
      ((q1.messages.length : Int) + 1 = min ((q.messages.length : Int) + 1) q.maxSize) := by
    by_cases hfull : (q.messages.length : Int) ≥ q.maxSize
    · have hne : q.messages ≠ [] := by
        intro h
        rw [h] at hfull
        simp only [List.length_nil, Nat.cast_zero] at hfull
        omega
      obtain ⟨h1, h2, h3, h4⟩ := evictOldest_length q range hwf hperm hne
      refine ⟨q.evictOldest range, by rw [if_pos hfull], h3, h2, h4, ?_⟩
      omega
    · exact ⟨q, by rw [if_neg hfull], hwf, rfl, fun e he => he, by omega⟩
  obtain ⟨q1, hq1eq, hwf1, hmax1, hsub1, hlen1⟩ := hq1
  rw [← hq1eq] at hmsgs hms
  have hnew1 : msg.ID ∉ q1.messages.map fun e => e.1 := by
    intro h
    obtain ⟨e, he, hek⟩ := List.mem_map.mp h
    exact hnew (List.mem_map.mpr ⟨e, hsub1 e he, hek⟩)
  have hdel := mapDelete_of_not_mem q1.messages msg.ID hnew1
  have hm : (q.Enqueue msg now range).1.messages =
      q1.messages ++ [(msg.ID, (q.Enqueue msg now range).2)] := by
    rw [hmsgs, mapInsert, hdel]
  refine ⟨⟨?_, ?_⟩, by rw [hms, hmax1], ?_, ?_⟩
  · simp only [DeadLetterQueue.keys, hm, List.map_append, List.map_cons, List.map_nil]
    apply List.Nodup.append hwf1.1 (List.nodup_singleton _)
    intro k hk1 hk2
    simp only [List.mem_singleton] at hk2
    rw [hk2] at hk1
    exact hnew1 hk1
  · intro e he
    rw [hm] at he
    simp only [List.mem_append, List.mem_singleton] at he
    rcases he with he | he
    · exact hwf1.2 e he
    · rw [he]; exact hid
  · rw [hm]
    simp only [List.length_append, List.length_singleton, Nat.cast_add, Nat.cast_one]
    exact hlen1
  · intro k hk
    simp only [DeadLetterQueue.keys, hm, List.map_append, List.map_cons, List.map_nil,
      List.mem_append, List.mem_singleton] at hk
    rcases hk with hk | hk
    · obtain ⟨e, he, hek⟩ := List.mem_map.mp hk
      exact Or.inr (List.mem_map.mpr ⟨e, hsub1 e he, hek⟩)
    · exact Or.inl hk

theorem enqueueAll_size (calls : List EnqueueCall) :
    ∀ (q : DeadLetterQueue), q.WellFormed → 1 ≤ q.maxSize →
      (q.messages.length : Int) ≤ q.maxSize →
      (calls.map fun c => c.msg.ID).Nodup → (∀ c ∈ calls, c.msg.ID ∉ q.keys) →
      (∀ c ∈ calls, ∀ l, (c.range l).Perm l) →
      (enqueueAll q calls).Size =
        min ((q.messages.length : Int) + (calls.length : Int)) q.maxSize := by
  induction calls with
  | nil =>
    intro q _ _ hle _ _ _
    simp only [enqueueAll, DeadLetterQueue.Size, List.length_nil, Nat.cast_zero, add_zero]
    omega
  | cons c rest ih =>
    intro q hwf hmax hle hnd hnew hperm
    simp only [List.map_cons, List.nodup_cons] at hnd
    obtain ⟨hwf1, hmax1, hlen1, hkeys1⟩ := Enqueue_new_size q c.msg c.now c.range hwf
      (hperm c (List.mem_cons_self _ _) _) hmax hle (hnew c (List.mem_cons_self _ _))
    have hrest := ih (q.Enqueue c.msg c.now c.range).1 hwf1 (by rw [hmax1]; exact hmax)
      (by rw [hmax1, hlen1]; omega) hnd.2
      (by
        intro c' hc' hk
        rcases hkeys1 _ hk with h | h
        · exact hnd.1 (List.mem_map.mpr ⟨c', hc', h⟩)
        · exact hnew c' (List.mem_cons_of_mem _ hc') h)
      (fun c' hc' => hperm c' (List.mem_cons_of_mem _ hc'))
    simp only [enqueueAll, hrest, hmax1, hlen1, List.length_cons, Nat.cast_add, Nat.cast_one]
    omega

/-! ## The dead-letter queue: claims -/

/-- C20. For every `maxSize ≥ 1` and every `n ≥ 0`, after `n` `Enqueue` calls with pairwise
distinct message `ID`s on a queue freshly created by `NewDeadLetterQueue(maxSize)`, with no
`Dequeue` and whatever the order in which the map is visited, `Size() = min(n, maxSize)`. -/
theorem dlq_size_after_enqueues (maxSize : Int) (hmax : 1 ≤ maxSize) (calls : List EnqueueCall)
    (hids : (calls.map fun c => c.msg.ID).Nodup)
    (hrange : ∀ c ∈ calls, ∀ l, (c.range l).Perm l) :
    (enqueueAll (NewDeadLetterQueue maxSize) calls).Size = min (calls.length : Int) maxSize := by
  have hne : maxSize ≠ 0 := by omega
  have hm : (NewDeadLetterQueue maxSize).maxSize = maxSize := by
    simp [NewDeadLetterQueue, hne]
  have h := enqueueAll_size calls (NewDeadLetterQueue maxSize)
    ⟨by simp [DeadLetterQueue.keys, NewDeadLetterQueue], by simp [NewDeadLetterQueue]⟩
    (by rw [hm]; exact hmax) (by rw [hm]; simp [NewDeadLetterQueue]; omega) hids
    (by intro c _; simp [DeadLetterQueue.keys, NewDeadLetterQueue]) hrange
  rw [h, hm]
  simp [NewDeadLetterQueue]

theorem dlq_size_after_enqueues_witness :
    (enqueueAll (NewDeadLetterQueue 2) threeEnqueues).Size = min 3 2 :=
  dlq_size_after_enqueues 2 (by decide) threeEnqueues (by decide)
    (by
      intro c hc l
      simp only [threeEnqueues, List.mem_cons, List.mem_singleton, List.not_mem_nil,
        or_false] at hc
      rcases hc with h | h | h
      · rw [h]; exact List.Perm.refl l
      · rw [h]; exact List.reverse_perm l
      · rw [h]; exact List.Perm.refl l)

/-! ## The dead-letter queue: eviction and stored fields -/

theorem mem_mapDelete (m : List (String × DeadLetterMessage)) (k : String)
    (e : String × DeadLetterMessage) : e ∈ mapDelete m k ↔ e ∈ m ∧ e.1 ≠ k := by
  simp [mapDelete, List.mem_filter]

theorem mem_mapInsert (m : List (String × DeadLetterMessage)) (k : String)
    (v : DeadLetterMessage) (e : String × DeadLetterMessage) :
    e ∈ mapInsert m k v ↔ (e ∈ m ∧ e.1 ≠ k) ∨ e = (k, v) := by
  simp [mapInsert, mem_mapDelete]

/-- The message stored under a key right after it was assigned. -/
theorem mapLookup_mapInsert (m : List (String × DeadLetterMessage)) (k : String)
    (v : DeadLetterMessage) : mapLookup (mapInsert m k v) k = some v := by
  have hnone : (mapDelete m k).find? (fun e => decide (e.1 = k)) = none := by
    rw [List.find?_eq_none]
    intro e he
    have := (mem_mapDelete m k e).mp he
    simpa using this.2
  simp [mapLookup, mapInsert, List.find?_append, hnone]

/-- The scan that starts with a candidate ends with a message that failed first no later
than the candidate and than every visited message. -/
theorem scan_some_min (l : List (String × DeadLetterMessage)) :
    ∀ o o', evictOldest.scan (some o) l = some o' →
      o'.FirstFailed ≤ o.FirstFailed ∧ ∀ e ∈ l, o'.FirstFailed ≤ e.2.FirstFailed := by
  induction l with
  | nil =>
    intro o o' h
    simp only [evictOldest.scan, Option.some.injEq] at h
    subst h
    exact ⟨le_refl _, fun e he => by simp at he⟩
  | cons x rest ih =>
    intro o o' h
    by_cases hx : x.2.FirstFailed < o.FirstFailed
    · simp only [evictOldest.scan, hx, if_true] at h
      obtain ⟨h1, h2⟩ := ih x.2 o' h
      refine ⟨by omega, ?_⟩
      intro e he
      rcases List.mem_cons.mp he with he | he
      · rw [he]; exact h1
      · exact h2 e he
    · simp only [evictOldest.scan, hx, if_false] at h
      obtain ⟨h1, h2⟩ := ih o o' h
      refine ⟨h1, ?_⟩
      intro e he
      rcases List.mem_cons.mp he with he | he
      · rw [he]; omega
      · exact h2 e he

theorem scan_none_min (l : List (String × DeadLetterMessage)) (o : DeadLetterMessage)
    (h : evictOldest.scan none l = some o) : ∀ e ∈ l, o.FirstFailed ≤ e.2.FirstFailed := by
  cases l with
  | nil => simp [evictOldest.scan] at h
  | cons x rest =>
    simp only [evictOldest.scan] at h
    obtain ⟨h1, h2⟩ := scan_some_min rest x.2 o h
    intro e he
    rcases List.mem_cons.mp he with he | he
    · rw [he]; exact h1
    · exact h2 e he

/-- `Enqueue` keeps the map well formed. -/
theorem Enqueue_wellFormed (q : DeadLetterQueue) (msg : DeadLetterMessage) (now : Int)
    (range : List (String × DeadLetterMessage) → List (String × DeadLetterMessage))
    (hwf : q.WellFormed) : (q.Enqueue msg now range).1.WellFormed := by
  obtain ⟨hmsgs, _⟩ := Enqueue_messages q msg now range
  have hid := Enqueue_msg_ID q msg now range
  have hq1 : (if (q.messages.length : Int) ≥ q.maxSize then q.evictOldest range else q).WellFormed := by
    split_ifs
    · unfold DeadLetterQueue.evictOldest
      split
      · exact hwf
      · exact ⟨mapDelete_keys_nodup q.messages _ hwf.1,
          fun e he => hwf.2 e (mapDelete_subset q.messages _ e he)⟩
    · exact hwf
  generalize (if (q.messages.length : Int) ≥ q.maxSize then q.evictOldest range else q) = q1
    at hmsgs hq1
  refine ⟨?_, ?_⟩
  · simp only [DeadLetterQueue.keys, hmsgs, mapInsert, List.map_append, List.map_cons,
      List.map_nil]
    apply List.Nodup.append (mapDelete_keys_nodup q1.messages msg.ID hq1.1)
      (List.nodup_singleton _)
    intro k hk1 hk2
    simp only [List.mem_singleton] at hk2
    obtain ⟨e, he, hek⟩ := List.mem_map.mp hk1
    exact mapDelete_key_ne q1.messages msg.ID e he (by rw [hek, hk2])
  · intro e he
    rw [hmsgs] at he
    rcases (mem_mapInsert _ _ _ e).mp he with h | h
    · exact hq1.2 e h.1
    · rw [h]; exact hid

/-- C21. On a well formed queue that holds `maxSize ≥ 1` messages, `Enqueue` evicts exactly
one stored message: one whose `FirstFailed` is not later than that of any stored message,
the incoming message not being compared; the map afterwards is the old map without it, with
the incoming message stored under its `ID`, so of the stored messages with an `ID` other
than the incoming one exactly the evicted one is gone.  On a queue that holds fewer than
`maxSize` messages no stored message with an `ID` other than the incoming one is removed. -/
theorem enqueue_evicts_oldest (q : DeadLetterQueue) (msg : DeadLetterMessage) (now : Int)
    (range : List (String × DeadLetterMessage) → List (String × DeadLetterMessage))
    (hwf : q.WellFormed) (hperm : (range q.messages).Perm q.messages) :
    ((q.messages.length : Int) = q.maxSize → 1 ≤ q.maxSize →
        ∃ k o, (k, o) ∈ q.messages ∧ (∀ e ∈ q.messages, o.FirstFailed ≤ e.2.FirstFailed) ∧
          (mapDelete q.messages k).length + 1 = q.messages.length ∧
          (q.Enqueue msg now range).1.messages =
            mapInsert (mapDelete q.messages k) msg.ID (q.Enqueue msg now range).2 ∧
          ∀ e ∈ q.messages, e.1 ≠ msg.ID →
            (e ∈ (q.Enqueue msg now range).1.messages ↔ e ≠ (k, o))) ∧
      ((q.messages.length : Int) < q.maxSize →
        ∀ e ∈ q.messages, e.1 ≠ msg.ID → e ∈ (q.Enqueue msg now range).1.messages) := by
  obtain ⟨hmsgs, _⟩ := Enqueue_messages q msg now range
  constructor
  · intro hfull hmax
    have hne : q.messages ≠ [] := by
      intro h
      rw [h] at hfull
      simp only [List.length_nil, Nat.cast_zero] at hfull
      omega
    have hne' : range q.messages ≠ [] := by
      intro h
      rw [h] at hperm
      exact hne (List.Perm.nil_eq hperm).symm
    obtain ⟨o, k, hscan, hmem⟩ := scan_none_mem (range q.messages) hne'
    have hmem' : (k, o) ∈ q.messages := hperm.subset hmem
    have hid : o.ID = k := hwf.2 (k, o) hmem'
    have hmin : ∀ e ∈ q.messages, o.FirstFailed ≤ e.2.FirstFailed :=
      fun e he => scan_none_min (range q.messages) o hscan e (hperm.symm.subset he)
    have hev : (q.evictOldest range).messages = mapDelete q.messages k := by
      simp only [DeadLetterQueue.evictOldest, hscan, hid]
    have hge : (q.messages.length : Int) ≥ q.maxSize := by omega
    rw [if_pos hge, hev] at hmsgs
    refine ⟨k, o, hmem', hmin, ?_, hmsgs, ?_⟩
    · exact mapDelete_length_of_mem q.messages k hwf.1 (List.mem_map.mpr ⟨(k, o), hmem', rfl⟩)
    · intro e he hne1
      rw [hmsgs, mem_mapInsert, mem_mapDelete]
      constructor
      · rintro (⟨⟨_, hk⟩, _⟩ | h)
        · intro heq
          exact hk (by rw [heq])
        · exact absurd (by rw [h]) hne1
      · intro hneq
        refine Or.inl ⟨⟨he, ?_⟩, hne1⟩
        intro hk
        -- two stored entries with the same key are the same entry
        have h1 : e.2.ID = e.1 := hwf.2 e he
        have hnd := hwf.1
        have : e = (k, o) := by
          have hinj := List.inj_on_of_nodup_map hnd he hmem' (by simpa using hk)
          exact hinj
        exact hneq this
  · intro hlt e he hne1
    have hnot : ¬ (q.messages.length : Int) ≥ q.maxSize := by omega
    rw [if_neg hnot] at hmsgs
    rw [hmsgs, mem_mapInsert]
    exact Or.inl ⟨he, hne1⟩

/-- C22. For every queue state and every message `m`, after `Enqueue(m)` at time `t` the
message stored under `m.ID` has `LastFailed = t`, `RetryCount` the Go sum `m.RetryCount + 1`
(the integer successor for every 64-bit count below the largest), `FirstFailed` equal to
`m.FirstFailed` when that was not the zero time and to `t` when it was; `ID`,
`OriginalTopic`, `Payload`, `Error`, `MaxRetries` and `Metadata` are stored unchanged. -/
theorem enqueue_stored_fields (q : DeadLetterQueue) (msg : DeadLetterMessage) (now : Int)
    (range : List (String × DeadLetterMessage) → List (String × DeadLetterMessage)) :
    ∃ stored, mapLookup (q.Enqueue msg now range).1.messages msg.ID = some stored ∧
      stored.LastFailed = now ∧ stored.RetryCount = wrapInt64 (msg.RetryCount + 1) ∧
      (-9223372036854775808 ≤ msg.RetryCount → msg.RetryCount < maxInt64 →
        stored.RetryCount = msg.RetryCount + 1) ∧
      stored.FirstFailed = (if msg.FirstFailed = 0 then now else msg.FirstFailed) ∧
      stored.ID = msg.ID ∧ stored.OriginalTopic = msg.OriginalTopic ∧
      stored.Payload = msg.Payload ∧ stored.Error = msg.Error ∧
      stored.MaxRetries = msg.MaxRetries ∧ stored.Metadata = msg.Metadata := by
  obtain ⟨hmsgs, _⟩ := Enqueue_messages q msg now range
  refine ⟨(q.Enqueue msg now range).2, by rw [hmsgs]; exact mapLookup_mapInsert _ _ _, ?_⟩
  have hw : -9223372036854775808 ≤ msg.RetryCount → msg.RetryCount < maxInt64 →
      wrapInt64 (msg.RetryCount + 1) = msg.RetryCount + 1 := by
    intro h0 h1
    exact wrapInt64_of_range _ (by omega) (by omega)
  simp only [DeadLetterQueue.Enqueue]
  split_ifs <;> simp_all

theorem fullQueue_wellFormed : fullQueue.WellFormed := by
  unfold DeadLetterQueue.WellFormed
  decide

theorem enqueue_evicts_oldest_witness :
    ∃ k o, (k, o) ∈ fullQueue.messages ∧
      (∀ e ∈ fullQueue.messages, o.FirstFailed ≤ e.2.FirstFailed) ∧
      (mapDelete fullQueue.messages k).length + 1 = fullQueue.messages.length ∧
      (fullQueue.Enqueue (newMessage "c") 300 id).1.messages =
        mapInsert (mapDelete fullQueue.messages k) (newMessage "c").ID
          (fullQueue.Enqueue (newMessage "c") 300 id).2 ∧
      ∀ e ∈ fullQueue.messages, e.1 ≠ (newMessage "c").ID →
        (e ∈ (fullQueue.Enqueue (newMessage "c") 300 id).1.messages ↔ e ≠ (k, o)) :=
  (enqueue_evicts_oldest fullQueue (newMessage "c") 300 id fullQueue_wellFormed
    (List.Perm.refl _)).1 (by decide) (by decide)

/-! ## Request mediation: lemmas -/

theorem assocGet_assocSet {α : Type} (m : List (String × α)) (k k' : String) (v : α) :
    assocGet (assocSet m k v) k' = if k' = k then some v else assocGet m k' := by
  unfold assocGet assocSet
  induction m with
  | nil =>
    by_cases h : k' = k
    · simp [h]
    · have h' : ¬ k = k' := fun e => h e.symm
      simp [h, h']
  | cons x rest ih =>
    by_cases hx : x.1 = k
    · have hf : decide (x.1 ≠ k) = false := by simp [hx]
      rw [List.filter_cons_of_neg (by simp [hx])]
      rw [ih]
      by_cases h : k' = k
      · simp [h]
      · have hx' : ¬ x.1 = k' := by rw [hx]; exact fun e => h e.symm
        simp [h, List.find?_cons, hx']
    · rw [List.filter_cons_of_pos (by simp [hx])]
      by_cases hxk : x.1 = k'
      · have h : ¬ k' = k := by rw [← hxk]; exact hx
        simp [List.find?_cons, hxk, h]
      · simp only [List.cons_append, List.find?_cons, hxk, decide_False]
        exact ih

/-- The map built by `RoleGuard` holds `true` exactly under the allowed roles. -/
theorem roleSet_foldl (allowed : List String) (role : String) :
    ∀ m : List (String × Bool),
      (assocGet (allowed.foldl (fun m r => assocSet m r true) m) role).getD false = true ↔
        role ∈ allowed ∨ (assocGet m role).getD false = true := by
  induction allowed with
  | nil => intro m; simp
  | cons r rest ih =>
    intro m
    rw [List.foldl_cons, ih, assocGet_assocSet]
    by_cases h : role = r
    · simp [h]
    · simp [h]

theorem roleSet_spec (allowed : List String) (role : String) :
    (assocGet (RoleGuard.roleSet allowed) role).getD false = true ↔ role ∈ allowed := by
  unfold RoleGuard.roleSet
  rw [roleSet_foldl]
  simp [assocGet]

/-- A header without a space is not split in two. -/
theorem splitN2_no_space (s : String) (h : ' ' ∉ s.data) : (splitN2 s).length = 1 := by
  unfold splitN2
  have hspan : s.data.span (fun ch => decide (ch ≠ ' ')) = (s.data, []) := by
    rw [List.span_eq_take_drop]
    have hall : ∀ x ∈ s.data, (fun ch => decide (ch ≠ ' ')) x = true := by
      intro x hx
      have : x ≠ ' ' := fun e => h (e ▸ hx)
      simpa using this
    rw [List.takeWhile_eq_self_iff.mpr hall, List.dropWhile_eq_nil_iff.mpr hall]
  rw [hspan]
  rfl

/-- The toy library keeps the contract of `jwt.ParseWithClaims`. -/
theorem toyGatewayLib_keyFuncRespected : toyGatewayLib.KeyFuncRespected := by
  intro s kf t c h
  simp only [toyGatewayLib] at h ⊢
  by_cases h1 : s = "good"
  · simp only [h1, if_true] at h ⊢
    cases hk : kf { isHMAC := true, Valid := false } with
    | error e => rw [hk] at h; simp at h
    | ok key =>
      rw [hk] at h
      simp only [Prod.mk.injEq, Except.ok.injEq] at h
      exact ⟨_, key, rfl, hk, by rw [← h.1]⟩
  · by_cases h2 : s = "rsa"
    · simp only [h2, if_true] at h ⊢
      have hne : ¬ "rsa" = "good" := by decide
      simp only [hne, if_false] at h ⊢
      cases hk : kf { isHMAC := false, Valid := false } with
      | error e => rw [hk] at h; simp at h
      | ok key =>
        rw [hk] at h
        simp only [Prod.mk.injEq, Except.ok.injEq] at h
        exact ⟨_, key, rfl, hk, by rw [← h.1]⟩
    · simp [h1, h2] at h

/-! ## Request mediation: claims -/

/-- C23. `TenantIsolation` answers 403 Forbidden, without calling the next handler, if and
only if the `org_id` of the request context is missing, no string or empty, or the route
parameter `orgId` is not empty and differs from `org_id`; in every other case it calls the
next handler with the response header `X-Tenant-ID` and the local `tenant_id` set to
`org_id`.  A non-empty `org_id` with a different, non-empty `orgId` is answered with the
error `cross-tenant access denied`, and identical non-empty ids pass. -/
theorem tenant_isolation_decision (c : Ctx) :
    ((∃ body c1, TenantIsolation c = .responded StatusForbidden body c1) ↔
        (LocalValue.asString (c.Locals "org_id") = "" ∨
          (c.Params "orgId" ≠ "" ∧ c.Params "orgId" ≠ LocalValue.asString (c.Locals "org_id")))) ∧
      ((∃ c1, TenantIsolation c = .next c1) ↔
        ¬ (LocalValue.asString (c.Locals "org_id") = "" ∨
          (c.Params "orgId" ≠ "" ∧ c.Params "orgId" ≠ LocalValue.asString (c.Locals "org_id")))) ∧
      (∀ c1, TenantIsolation c = .next c1 →
        assocGet c1.respHeaders "X-Tenant-ID" = some (LocalValue.asString (c.Locals "org_id")) ∧
          c1.Locals "tenant_id" = some (.str (LocalValue.asString (c.Locals "org_id")))) ∧
      (LocalValue.asString (c.Locals "org_id") ≠ "" → c.Params "orgId" ≠ "" →
        c.Params "orgId" ≠ LocalValue.asString (c.Locals "org_id") →
        TenantIsolation c =
          .responded StatusForbidden [("error", .str "cross-tenant access denied")] c) ∧
      (LocalValue.asString (c.Locals "org_id") ≠ "" →
        c.Params "orgId" = LocalValue.asString (c.Locals "org_id") →
        ∃ c1, TenantIsolation c = .next c1) := by
  by_cases h1 : LocalValue.asString (c.Locals "org_id") = ""
  · simp [TenantIsolation, h1]
  · by_cases h2 : c.Params "orgId" ≠ "" ∧
        c.Params "orgId" ≠ LocalValue.asString (c.Locals "org_id")
    · simp [TenantIsolation, h1, h2]
    · refine ⟨?_, ?_, ?_, ?_, ?_⟩
      · simp [TenantIsolation, h1, h2]
      · simp [TenantIsolation, h1, h2]
      · intro c1 hc
        simp only [TenantIsolation, h1, h2, if_false, Reply.next.injEq] at hc
        subst hc
        exact ⟨by simp [Ctx.Set, Ctx.SetLocals, assocGet_assocSet],
          by simp [Ctx.Set, Ctx.SetLocals, Ctx.Locals, assocGet_assocSet]⟩
      · intro _ ha hb
        exact absurd ⟨ha, hb⟩ h2
      · intro _ _
        simp [TenantIsolation, h1, h2]

/-- C24. For every list of allowed roles and every request, `RoleGuard(allowed...)` calls
the next handler if and only if the role of the request context, the empty string when it
is absent or no string, is an element of the list; otherwise it answers 403 Forbidden
without calling the next handler.  With an empty list every request is rejected. -/
theorem role_guard_decision (allowed : List String) (c : Ctx) :
    ((∃ c1, RoleGuard allowed c = .next c1) ↔ LocalValue.asString (c.Locals "role") ∈ allowed) ∧
      (LocalValue.asString (c.Locals "role") ∈ allowed → RoleGuard allowed c = .next c) ∧
      (LocalValue.asString (c.Locals "role") ∉ allowed →
        RoleGuard allowed c =
          .responded StatusForbidden
            [("error", .str "insufficient permissions"), ("required_roles", .strs allowed)] c) ∧
      ∃ body, RoleGuard [] c = .responded StatusForbidden body c := by
  have hspec := roleSet_spec allowed (LocalValue.asString (c.Locals "role"))
  by_cases h : LocalValue.asString (c.Locals "role") ∈ allowed
  · have ht := hspec.mpr h
    refine ⟨?_, ?_, ?_, ?_⟩
    · simp [RoleGuard, ht, h]
    · intro _; simp [RoleGuard, ht]
    · intro hn; exact absurd h hn
    · exact ⟨[("error", .str "insufficient permissions"), ("required_roles", .strs [])],
        by simp [RoleGuard, RoleGuard.roleSet, assocGet]⟩
  · have ht : (assocGet (RoleGuard.roleSet allowed)
        (LocalValue.asString (c.Locals "role"))).getD false = false := by
      cases hv : (assocGet (RoleGuard.roleSet allowed)
        (LocalValue.asString (c.Locals "role"))).getD false with
      | false => rfl
      | true => exact absurd (hspec.mp hv) h
    refine ⟨?_, ?_, ?_, ?_⟩
    · simp [RoleGuard, ht, h]
    · intro hn; exact absurd hn h
    · intro _; simp [RoleGuard, ht]
    · exact ⟨[("error", .str "insufficient permissions"), ("required_roles", .strs [])],
        by simp [RoleGuard, RoleGuard.roleSet, assocGet]⟩

/-- C25. For every request whose `Authorization` header is empty, or contains no space
(so that `strings.SplitN` does not yield two parts), or whose first part differs from
`bearer` after `strings.ToLower`, `JWTAuth` answers 401 Unauthorized, does not call the next
handler and leaves the context, with its locals, as it found it; and whenever `JWTAuth`
calls the next handler, the token parsed from the second part is valid and the locals
`user_id`, `org_id`, `role` and `email` hold the claims `sub`, `org_id`, `role` and `email`
that the parser filled in. -/
theorem jwt_auth_header_and_locals (L : GatewayLib) (cfg : GatewayConfig) (c : Ctx) :
    ((c.Get "Authorization" = "" ∨ ' ' ∉ (c.Get "Authorization").data ∨
          (splitN2 (c.Get "Authorization")).length ≠ 2 ∨
          L.ToLower ((splitN2 (c.Get "Authorization")).getD 0 "") ≠ "bearer") →
        ∃ body, JWTAuth L cfg c = .responded StatusUnauthorized body c) ∧
      ∀ c1, JWTAuth L cfg c = .next c1 →
        ∃ t claims,
          L.ParseWithClaims ((splitN2 (c.Get "Authorization")).getD 1 "") (JWTAuth.keyFunc cfg) =
              (.ok t, claims) ∧
            t.Valid = true ∧ c1.Locals "user_id" = some (.str claims.Subject) ∧
            c1.Locals "org_id" = some (.str claims.OrgID) ∧
            c1.Locals "role" = some (.str claims.Role) ∧
            c1.Locals "email" = some (.str claims.Email) := by
  constructor
  · intro h
    by_cases h0 : c.Get "Authorization" = ""
    · exact ⟨[("error", .str "unauthorized"), ("message", .str "missing authorization header")],
        by simp [JWTAuth, h0]⟩
    · have hbad : (splitN2 (c.Get "Authorization")).length ≠ 2 ∨
          L.ToLower ((splitN2 (c.Get "Authorization")).getD 0 "") ≠ "bearer" := by
        rcases h with h | h | h | h
        · exact absurd h h0
        · left; rw [splitN2_no_space _ h]; decide
        · exact Or.inl h
        · exact Or.inr h
      exact ⟨[("error", .str "unauthorized"), ("message", .str "invalid authorization format")],
        by simp only [JWTAuth, h0, if_false, hbad, if_true]⟩
  · intro c1 hc
    unfold JWTAuth at hc
    simp only at hc
    split_ifs at hc with h0 hbad
    rcases hp : L.ParseWithClaims ((splitN2 (c.Get "Authorization")).getD 1 "")
      (JWTAuth.keyFunc cfg) with ⟨res, claims⟩
    rw [hp] at hc
    cases res with
    | error e => simp at hc
    | ok t =>
      simp only at hc
      split_ifs at hc with hv
      simp only [Reply.next.injEq] at hc
      subst hc
      refine ⟨t, claims, rfl, by simpa using hv, ?_, ?_, ?_, ?_⟩ <;>
        simp [Ctx.SetLocals, Ctx.Locals, assocGet_assocSet]

/-- C26. Over a library that keeps the contract of `jwt.ParseWithClaims`: the key function
of `JWTAuth` returns an error, not the secret, for every token whose signing method is not
an HMAC method; so a request whose token declares such a method is answered 401
Unauthorized and the next handler is not called, whatever else the token holds. -/
theorem jwt_auth_rejects_non_hmac (L : GatewayLib) (hL : L.KeyFuncRespected)
    (cfg : GatewayConfig) (c : Ctx)
    (hdecl : ∀ t0, L.Unverified ((splitN2 (c.Get "Authorization")).getD 1 "") = some t0 →
      t0.isHMAC = false) :
    (∀ t : JwtToken, t.isHMAC = false →
        JWTAuth.keyFunc cfg t = .error "unexpected signing method") ∧
      ∃ body, JWTAuth L cfg c = .responded StatusUnauthorized body c := by
  have hkey : ∀ t : JwtToken, t.isHMAC = false →
      JWTAuth.keyFunc cfg t = .error "unexpected signing method" := by
    intro t ht
    simp [JWTAuth.keyFunc, ht]
  refine ⟨hkey, ?_⟩
  unfold JWTAuth
  simp only
  split_ifs with h0 hbad
  · exact ⟨_, rfl⟩
  · exact ⟨_, rfl⟩
  · rcases hp : L.ParseWithClaims ((splitN2 (c.Get "Authorization")).getD 1 "")
      (JWTAuth.keyFunc cfg) with ⟨res, claims⟩
    cases res with
    | error e => exact ⟨_, rfl⟩
    | ok t =>
      obtain ⟨t0, key, hu, hk, _⟩ := hL _ _ t claims hp
      rw [hkey t0 (hdecl t0 hu)] at hk
      cases hk

theorem jwt_auth_rejects_non_hmac_witness :
    ∃ body, JWTAuth toyGatewayLib toyGatewayConfig rsaRequest =
      .responded StatusUnauthorized body rsaRequest :=
  (jwt_auth_rejects_non_hmac toyGatewayLib toyGatewayLib_keyFuncRespected toyGatewayConfig
    rsaRequest (by decide)).2

/-- C27 (failing input). No route registered by `main` has `TenantIsolation` in its chain:
a protected route is `JWTAuth` followed by the handler of the resource.  The request for
`GET /api/v1/organizations/B` with a valid token whose `org_id` is `A` passes `JWTAuth` and
reaches `GetOrganization`; with `TenantIsolation` in the chain it would be answered 403. -/
theorem cross_tenant_request_reaches_handler :
    (∀ r ∈ routes, Handler.TenantIsolation ∉ r.chain) ∧
      (∃ r ∈ routes, r.method = "GET" ∧ r.path = "/api/v1/organizations/:orgId" ∧
        r.chain = [.JWTAuth, .resource "GetOrganization"]) ∧
      (∃ c1, runChain toyGatewayLib toyGatewayConfig [.JWTAuth, .resource "GetOrganization"]
          crossTenantRequest = some (.reached "GetOrganization" c1) ∧
        c1.Locals "org_id" = some (.str "A") ∧ c1.Params "orgId" = "B") ∧
      ∃ c1, runChain toyGatewayLib toyGatewayConfig
          [.JWTAuth, .TenantIsolation, .resource "GetOrganization"] crossTenantRequest =
        some (.rejected StatusForbidden [("error", .str "cross-tenant access denied")] c1) := by
  refine ⟨by decide,
    ⟨protectedRoute "GET" "/organizations/:orgId" "GetOrganization", by decide, by decide⟩,
    ⟨_, rfl, by decide⟩, ⟨_, rfl⟩⟩

/-! ## The pipeline orchestrator: lemmas -/

section Pipeline

variable {W O : Type}

/-- What `executeStage` appends and returns. -/
theorem executeStage_spec (env : PipelineEnv W) (run : PipelineRun O) (stage : Stage)
    (fn : StageFn W O) (w : W) :
    (executeStage env run stage fn w).1 =
        { run with Stages := run.Stages ++ [(executeStage env run stage fn w).2.1] } ∧
      (executeStage env run stage fn w).2.1.Stage = stage ∧
      (executeStage env run stage fn w).2.2 = (fn run w).2 ∧
      (∀ e, (fn run w).1.2 = some e →
        (executeStage env run stage fn w).2.1.Status = .StatusFailed ∧
          (executeStage env run stage fn w).2.1.Error = e) ∧
      ((fn run w).1.2 = none →
        (executeStage env run stage fn w).2.1.Status = .StatusCompleted ∧
          (executeStage env run stage fn w).2.1.Error = "") := by
  unfold executeStage
  rcases hf : fn run w with ⟨⟨output, err⟩, w1⟩
  cases err with
  | none => simp
  | some e => simp

/-- A stage is recorded as failed exactly when its function returned an error. -/
theorem executeStage_failed_iff (env : PipelineEnv W) (run : PipelineRun O) (stage : Stage)
    (fn : StageFn W O) (w : W) :
    (executeStage env run stage fn w).2.1.Status = .StatusFailed ↔ (fn run w).1.2 ≠ none := by
  obtain ⟨_, _, _, hfail, hok⟩ := executeStage_spec env run stage fn w
  cases herr : (fn run w).1.2 with
  | none =>
    have := (hok herr).1
    simp [this]
  | some e =>
    have := (hfail e herr).1
    simp [this]

theorem executeStage_stages (env : PipelineEnv W) (run : PipelineRun O) (stage : Stage)
    (fn : StageFn W O) (w : W) :
    (executeStage env run stage fn w).1.Stages =
      run.Stages ++ [(executeStage env run stage fn w).2.1] := by
  have h := (executeStage_spec env run stage fn w).1
  rw [h]

theorem seq_cancelled (env : PipelineEnv W) (s : Stage × StageFn W O)
    (rest : List (Stage × StageFn W O)) (run : PipelineRun O) (w : W) (e : GoError)
    (hc : env.ctxErr w = some e) :
    executePipeline.sequential env (s :: rest) run w =
      { states := [failPipeline env run "pipeline cancelled" w],
        run := failPipeline env run "pipeline cancelled" w, w := w, ok := false } := by
  simp only [executePipeline.sequential, hc]

theorem seq_failed (env : PipelineEnv W) (s : Stage × StageFn W O)
    (rest : List (Stage × StageFn W O)) (run : PipelineRun O) (w : W)
    (hc : env.ctxErr w = none)
    (hf : (executeStage env run s.1 s.2 w).2.1.Status = .StatusFailed) :
    executePipeline.sequential env (s :: rest) run w =
      { states := [(executeStage env run s.1 s.2 w).1,
          failPipeline env (executeStage env run s.1 s.2 w).1
            ("stage " ++ s.1 ++ " failed: " ++ (executeStage env run s.1 s.2 w).2.1.Error)
            (executeStage env run s.1 s.2 w).2.2],
        run := failPipeline env (executeStage env run s.1 s.2 w).1
            ("stage " ++ s.1 ++ " failed: " ++ (executeStage env run s.1 s.2 w).2.1.Error)
            (executeStage env run s.1 s.2 w).2.2,
        w := (executeStage env run s.1 s.2 w).2.2, ok := false } := by
  simp only [executePipeline.sequential, hc, hf, if_true]

theorem seq_next (env : PipelineEnv W) (s : Stage × StageFn W O)
    (rest : List (Stage × StageFn W O)) (run : PipelineRun O) (w : W)
    (hc : env.ctxErr w = none)
    (hf : ¬ (executeStage env run s.1 s.2 w).2.1.Status = .StatusFailed) :
    executePipeline.sequential env (s :: rest) run w =
      { executePipeline.sequential env rest (executeStage env run s.1 s.2 w).1
          (executeStage env run s.1 s.2 w).2.2 with
        states := (executeStage env run s.1 s.2 w).1 ::
          (executePipeline.sequential env rest (executeStage env run s.1 s.2 w).1
            (executeStage env run s.1 s.2 w).2.2).states } := by
  simp only [executePipeline.sequential, hc, hf, if_false]

/-- Every value of the run in the sequential loop holds the old stages followed by results
whose stages are a prefix of the list. -/
theorem seq_states (env : PipelineEnv W) (l : List (Stage × StageFn W O)) :
    ∀ (run : PipelineRun O) (w : W), ∀ r ∈ (executePipeline.sequential env l run w).states,
      ∃ T : List (StageResult O), r.Stages = run.Stages ++ T ∧
        List.IsPrefix (T.map fun t => t.Stage) (l.map fun s => s.1) := by
  induction l with
  | nil =>
    intro run w r hr
    simp [executePipeline.sequential] at hr
  | cons s rest ih =>
    intro run w r hr
    cases hc : env.ctxErr w with
    | some e =>
      rw [seq_cancelled env s rest run w e hc] at hr
      simp only [List.mem_singleton] at hr
      subst hr
      exact ⟨[], by simp [failPipeline], List.nil_prefix⟩
    | none =>
      have hst := executeStage_stages env run s.1 s.2 w
      have hname := (executeStage_spec env run s.1 s.2 w).2.1
      by_cases hf : (executeStage env run s.1 s.2 w).2.1.Status = .StatusFailed
      · rw [seq_failed env s rest run w hc hf] at hr
        have hone : List.IsPrefix
            ([(executeStage env run s.1 s.2 w).2.1].map fun t => t.Stage)
            ((s :: rest).map fun s => s.1) := by
          simp only [List.map_cons, List.map_nil, hname]
          exact ⟨rest.map (fun s : Stage × StageFn W O => s.1), rfl⟩
        simp only [List.mem_cons, List.mem_singleton, List.not_mem_nil, or_false] at hr
        rcases hr with hr | hr
        · subst hr
          exact ⟨[(executeStage env run s.1 s.2 w).2.1], hst, hone⟩
        · subst hr
          exact ⟨[(executeStage env run s.1 s.2 w).2.1], by simp [failPipeline, hst], hone⟩
      · rw [seq_next env s rest run w hc hf] at hr
        simp only [List.mem_cons] at hr
        rcases hr with hr | hr
        · subst hr
          refine ⟨[(executeStage env run s.1 s.2 w).2.1], hst, ?_⟩
          simp only [List.map_cons, List.map_nil, hname]
          exact ⟨rest.map (fun s : Stage × StageFn W O => s.1), rfl⟩
        · obtain ⟨T, hT, hpre⟩ := ih _ _ r hr
          refine ⟨(executeStage env run s.1 s.2 w).2.1 :: T, ?_, ?_⟩
          · rw [hT, hst]; simp
          · simp only [List.map_cons, hname]
            obtain ⟨t, ht⟩ := hpre
            exact ⟨t, by simp [← ht]⟩

/-- The run after the sequential loop is the run it started with or one of its values. -/
theorem seq_run_mem (env : PipelineEnv W) (l : List (Stage × StageFn W O)) :
    ∀ (run : PipelineRun O) (w : W),
      (executePipeline.sequential env l run w).run = run ∨
        (executePipeline.sequential env l run w).run ∈
          (executePipeline.sequential env l run w).states := by
  induction l with
  | nil => intro run w; left; rfl
  | cons s rest ih =>
    intro run w
    cases hc : env.ctxErr w with
    | some e => rw [seq_cancelled env s rest run w e hc]; right; simp
    | none =>
      by_cases hf : (executeStage env run s.1 s.2 w).2.1.Status = .StatusFailed
      · rw [seq_failed env s rest run w hc hf]; right; simp
      · rw [seq_next env s rest run w hc hf]
        right
        rcases ih (executeStage env run s.1 s.2 w).1 (executeStage env run s.1 s.2 w).2.2 with h | h
        · simp only [List.mem_cons]; left; exact h
        · simp only [List.mem_cons]; right; exact h

/-- When the sequential loop runs to its end, the run holds the old stages followed by one
completed result for each stage of the list, in order, and is otherwise unchanged. -/
theorem seq_ok (env : PipelineEnv W) (l : List (Stage × StageFn W O)) :
    ∀ (run : PipelineRun O) (w : W), (executePipeline.sequential env l run w).ok = true →
      ∃ T : List (StageResult O),
        (executePipeline.sequential env l run w).run = { run with Stages := run.Stages ++ T } ∧
          (T.map fun t => t.Stage) = (l.map fun s => s.1) ∧
          ∀ t ∈ T, t.Status = .StatusCompleted := by
  induction l with
  | nil =>
    intro run w _
    exact ⟨[], by simp [executePipeline.sequential], rfl, by simp⟩
  | cons s rest ih =>
    intro run w hok
    cases hc : env.ctxErr w with
    | some e => rw [seq_cancelled env s rest run w e hc] at hok; simp at hok
    | none =>
      by_cases hf : (executeStage env run s.1 s.2 w).2.1.Status = .StatusFailed
      · rw [seq_failed env s rest run w hc hf] at hok; simp at hok
      · rw [seq_next env s rest run w hc hf] at hok ⊢
        obtain ⟨T, hT, hnames, hall⟩ := ih _ _ hok
        obtain ⟨hrun, hname, _, _, _⟩ := executeStage_spec env run s.1 s.2 w
        have hcomp : (executeStage env run s.1 s.2 w).2.1.Status = .StatusCompleted := by
          cases herr : (s.2 run w).1.2 with
          | none => exact ((executeStage_spec env run s.1 s.2 w).2.2.2.2 herr).1
          | some e => exact absurd ((executeStage_spec env run s.1 s.2 w).2.2.2.1 e herr).1 hf
        refine ⟨(executeStage env run s.1 s.2 w).2.1 :: T, ?_, ?_, ?_⟩
        · simp only [hT]
          rw [hrun]
          simp
        · simp only [List.map_cons, hname, hnames]
        · intro t ht
          rcases List.mem_cons.mp ht with h | h
          · rw [h]; exact hcomp
          · exact hall t h

/-- Stages that succeed one after the other take the sequential loop to its end. -/
theorem seq_ok_of_succeeds (env : PipelineEnv W) (l : List (Stage × StageFn W O)) :
    ∀ (run : PipelineRun O) (w : W), SequentialSucceeds env l run w →
      (executePipeline.sequential env l run w).ok = true := by
  induction l with
  | nil => intro run w _; rfl
  | cons s rest ih =>
    intro run w h
    obtain ⟨hc, herr, hrest⟩ := h
    have hf : ¬ (executeStage env run s.1 s.2 w).2.1.Status = .StatusFailed := by
      rw [executeStage_failed_iff]; simp [herr]
    rw [seq_next env s rest run w hc hf]
    exact ih _ _ hrest

theorem par_cons (env : PipelineEnv W) (s : Stage × StageFn W O)
    (rest : List (Stage × StageFn W O)) (run : PipelineRun O) (w : W) :
    executePipeline.parallel env (s :: rest) run w =
      { executePipeline.parallel env rest (executeStage env run s.1 s.2 w).1
          (executeStage env run s.1 s.2 w).2.2 with
        states := (executeStage env run s.1 s.2 w).1 ::
          (executePipeline.parallel env rest (executeStage env run s.1 s.2 w).1
            (executeStage env run s.1 s.2 w).2.2).states } := rfl

/-- Every value of the run in the parallel block holds the old stages followed by results
whose stages are a prefix of the order of completion. -/
theorem par_states (env : PipelineEnv W) (l : List (Stage × StageFn W O)) :
    ∀ (run : PipelineRun O) (w : W), ∀ r ∈ (executePipeline.parallel env l run w).states,
      ∃ T : List (StageResult O), r.Stages = run.Stages ++ T ∧
        List.IsPrefix (T.map fun t => t.Stage) (l.map fun s => s.1) := by
  induction l with
  | nil =>
    intro run w r hr
    simp [executePipeline.parallel] at hr
  | cons s rest ih =>
    intro run w r hr
    have hst := executeStage_stages env run s.1 s.2 w
    have hname := (executeStage_spec env run s.1 s.2 w).2.1
    rw [par_cons] at hr
    simp only [List.mem_cons] at hr
    rcases hr with hr | hr
    · subst hr
      refine ⟨[(executeStage env run s.1 s.2 w).2.1], hst, ?_⟩
      simp only [List.map_cons, List.map_nil, hname]
      exact ⟨rest.map (fun s : Stage × StageFn W O => s.1), rfl⟩
    · obtain ⟨T, hT, hpre⟩ := ih _ _ r hr
      refine ⟨(executeStage env run s.1 s.2 w).2.1 :: T, ?_, ?_⟩
      · rw [hT, hst]; simp
      · simp only [List.map_cons, hname]
        obtain ⟨t, ht⟩ := hpre
        exact ⟨t, by simp [← ht]⟩

/-- After the parallel block the run holds the old stages followed by one result for each
stage, in the order of completion, each the result of `executeStage` for that stage, and is
otherwise unchanged. -/
theorem par_run (env : PipelineEnv W) (l : List (Stage × StageFn W O)) :
    ∀ (run : PipelineRun O) (w : W),
      ∃ T : List (StageResult O),
        (executePipeline.parallel env l run w).run = { run with Stages := run.Stages ++ T } ∧
          (T.map fun t => t.Stage) = (l.map fun s => s.1) ∧
          ∀ t ∈ T, ∃ (f : StageFn W O) (run0 : PipelineRun O) (w0 : W),
            (t.Stage, f) ∈ l ∧ t = (executeStage env run0 t.Stage f w0).2.1 := by
  induction l with
  | nil =>
    intro run w
    exact ⟨[], by simp [executePipeline.parallel], rfl,
      fun t ht => absurd ht (List.not_mem_nil t)⟩
  | cons s rest ih =>
    intro run w
    obtain ⟨T, hT, hnames, hall⟩ := ih (executeStage env run s.1 s.2 w).1
      (executeStage env run s.1 s.2 w).2.2
    obtain ⟨hrun, hname, _, _, _⟩ := executeStage_spec env run s.1 s.2 w
    refine ⟨(executeStage env run s.1 s.2 w).2.1 :: T, ?_, ?_, ?_⟩
    · rw [par_cons]
      simp only [hT]
      rw [hrun]
      simp
    · simp only [List.map_cons, hname, hnames]
    · intro t ht
      rcases List.mem_cons.mp ht with h | h
      · refine ⟨s.2, run, w, ?_, ?_⟩
        · rw [h, hname]; exact List.mem_cons_self _ _
        · rw [h, hname]
      · obtain ⟨f, run0, w0, hmem, heq⟩ := hall t h
        exact ⟨f, run0, w0, List.mem_cons_of_mem _ hmem, heq⟩

theorem sequentialNames_nodup : sequentialNames.Nodup := by decide

theorem parallelNames_nodup : parallelNames.Nodup := by decide

theorem sequential_not_parallel : ∀ x ∈ sequentialNames, x ∉ parallelNames := by decide

/-- A stage list whose stages are a prefix of the sequential block is in order. -/
theorem stageOrder_of_seq_prefix (stages : List (StageResult O))
    (h : List.IsPrefix (stages.map fun t => t.Stage) sequentialNames) : StageOrder stages := by
  have hlen : (stages.map fun t => t.Stage).length ≤ 8 := h.length_le
  refine ⟨?_, ?_, ?_⟩
  · rw [List.take_of_length_le hlen]; exact h
  · intro i t hi hpar
    have hmem : t.Stage ∈ stages.map fun t => t.Stage :=
      List.mem_map.mpr ⟨t, List.getElem?_mem hi, rfl⟩
    exact absurd hpar (sequential_not_parallel _ (h.subset hmem))
  · exact List.Nodup.sublist h.sublist sequentialNames_nodup

/-- The sequential block, all completed, followed by the first results of the parallel block
is in order. -/
theorem stageOrder_of_parallel (T1 T2 : List (StageResult O)) (P : List Stage)
    (h1 : (T1.map fun t => t.Stage) = sequentialNames)
    (hc : ∀ t ∈ T1, t.Status = .StatusCompleted)
    (h2 : List.IsPrefix (T2.map fun t => t.Stage) P) (hP : P.Perm parallelNames) :
    StageOrder (T1 ++ T2) := by
  have hlen : T1.length = 8 := by
    have := congrArg List.length h1
    simpa [sequentialNames] using this
  have htake : (T1 ++ T2).take 8 = T1 := by
    rw [← hlen]; exact List.take_left' rfl
  have hsub : ∀ x ∈ T2.map (fun t => t.Stage), x ∈ parallelNames :=
    fun x hx => hP.subset (h2.subset hx)
  refine ⟨?_, ?_, ?_⟩
  · rw [← List.map_take, htake, h1]
  · intro i t hi hpar
    have h8 : 8 ≤ i := by
      by_contra hlt
      have hi' : T1[i]? = some t := by
        rw [List.getElem?_append_left (by omega)] at hi
        exact hi
      have hmem : t.Stage ∈ T1.map fun t => t.Stage :=
        List.mem_map.mpr ⟨t, List.getElem?_mem hi', rfl⟩
      rw [h1] at hmem
      exact sequential_not_parallel _ hmem hpar
    refine ⟨h8, by rw [htake, h1], ?_⟩
    rw [htake]
    exact hc
  · rw [List.map_append, h1]
    apply List.Nodup.append sequentialNames_nodup
    · exact List.Nodup.sublist h2.sublist (hP.nodup_iff.mpr parallelNames_nodup)
    · intro x hx1 hx2
      exact sequential_not_parallel x hx1 (hsub x hx2)

/-- The order in which the parallel stages complete names each of them once. -/
theorem schedule_names (fns : StageFns W O)
    (schedule : List (Stage × StageFn W O) → List (Stage × StageFn W O))
    (hsched : ∀ l, (schedule l).Perm l) :
    ((schedule (parallelStages fns)).map fun s => s.1).Perm parallelNames :=
  (hsched (parallelStages fns)).map fun s => s.1

/-- The sequential loop up to the first failing stage. -/
theorem seq_first_failure (env : PipelineEnv W) (e : GoError)
    (l : List (Stage × StageFn W O)) :
    ∀ (k : Nat) (run : PipelineRun O) (w : W), FirstFailureAt env e l k run w →
      (executePipeline.sequential env l run w).ok = false ∧
        (executePipeline.sequential env l run w).run.Status = .StatusFailed ∧
        (executePipeline.sequential env l run w).run.CompletedAt =
          some (env.now (executePipeline.sequential env l run w).w) ∧
        ∃ (T : List (StageResult O)) (t : StageResult O),
          (executePipeline.sequential env l run w).run.Stages = run.Stages ++ T ++ [t] ∧
            T.length = k ∧
            ((T ++ [t]).map fun t => t.Stage) = ((l.take (k + 1)).map fun s => s.1) ∧
            (∀ u ∈ T, u.Status = .StatusCompleted) ∧
            t.Status = .StatusFailed ∧ t.Error = e := by
  induction l with
  | nil => intro k run w h; exact absurd h (by simp [FirstFailureAt])
  | cons s rest ih =>
    intro k run w h
    obtain ⟨hrun, hname, _, hfail, hok⟩ := executeStage_spec env run s.1 s.2 w
    cases k with
    | zero =>
      obtain ⟨hc, herr⟩ := h
      obtain ⟨hst, herrtxt⟩ := hfail e herr
      rw [seq_failed env s rest run w hc hst]
      refine ⟨rfl, rfl, rfl, [], (executeStage env run s.1 s.2 w).2.1, ?_, rfl, ?_, by simp,
        hst, herrtxt⟩
      · simp only [failPipeline, List.append_nil]
        rw [hrun]
      · simp [hname]
    | succ k =>
      obtain ⟨hc, herr, hrest⟩ := h
      have hcomp := (hok herr).1
      have hf : ¬ (executeStage env run s.1 s.2 w).2.1.Status = .StatusFailed := by
        rw [hcomp]; decide
      rw [seq_next env s rest run w hc hf]
      obtain ⟨h1, h2, h3, T, t, hT, hlen, hnames, hall, hst, herrtxt⟩ := ih k _ _ hrest
      refine ⟨h1, h2, h3, (executeStage env run s.1 s.2 w).2.1 :: T, t, ?_, by simp [hlen], ?_,
        ?_, hst, herrtxt⟩
      · simp only
        rw [hT, executeStage_stages]
        simp
      · simp only [List.cons_append, List.map_cons, hname, List.take_succ_cons]
        rw [hnames]
      · intro u hu
        rcases List.mem_cons.mp hu with h | h
        · rw [h]; exact hcomp
        · exact hall u h

end Pipeline

/-! ## The pipeline orchestrator: claims -/

/-- C28. For every run created by `StartPipeline`, every choice of the stage functions and
every order in which the parallel stages complete, every value the run takes during
`executePipeline`, the first and the last included, has a stage list in order: its first
entries, up to eight, are a prefix of the sequential block; an entry of the parallel block
stands after the eighth place and only when the eight sequential entries are there, all
completed; no stage occurs twice. -/
theorem pipeline_stage_order {W O : Type} (env : PipelineEnv W) (fns : StageFns W O)
    (schedule : List (Stage × StageFn W O) → List (Stage × StageFn W O))
    (hsched : ∀ l, (schedule l).Perm l) (id repoID orgID commitSHA branch : String)
    (w0 w : W) :
    (∀ r ∈ (StartPipeline env id repoID orgID commitSHA branch w0 : PipelineRun O) ::
        (executePipeline env fns schedule
          (StartPipeline env id repoID orgID commitSHA branch w0) w).states,
      StageOrder r.Stages) ∧
      StageOrder (executePipeline env fns schedule
        (StartPipeline env id repoID orgID commitSHA branch w0) w).run.Stages := by
  have hnil : StageOrder ([] : List (StageResult O)) :=
    stageOrder_of_seq_prefix [] List.nil_prefix
  have hseq : ∀ r ∈ (executePipeline.sequential env (sequentialStages fns)
      (StartPipeline env id repoID orgID commitSHA branch w0 : PipelineRun O) w).states,
      StageOrder r.Stages := by
    intro r hr
    obtain ⟨T, hT, hpre⟩ := seq_states env (sequentialStages fns) _ w r hr
    rw [hT]
    exact stageOrder_of_seq_prefix _ (by simpa [StartPipeline] using hpre)
  cases hok : (executePipeline.sequential env (sequentialStages fns)
      (StartPipeline env id repoID orgID commitSHA branch w0 : PipelineRun O) w).ok with
  | false =>
    have hp : executePipeline env fns schedule
        (StartPipeline env id repoID orgID commitSHA branch w0) w =
        executePipeline.sequential env (sequentialStages fns)
          (StartPipeline env id repoID orgID commitSHA branch w0) w := by
      simp [executePipeline, hok]
    rw [hp]
    constructor
    · intro r hr
      rcases List.mem_cons.mp hr with h | h
      · rw [h]; exact hnil
      · exact hseq r h
    · rcases seq_run_mem env (sequentialStages fns)
        (StartPipeline env id repoID orgID commitSHA branch w0 : PipelineRun O) w with h | h
      · rw [h]; exact hnil
      · exact hseq _ h
  | true =>
    obtain ⟨T1, hT1, hnames1, hall1⟩ := seq_ok env (sequentialStages fns) _ w hok
    have hst1 : (executePipeline.sequential env (sequentialStages fns)
        (StartPipeline env id repoID orgID commitSHA branch w0 : PipelineRun O) w).run.Stages =
        T1 := by
      rw [hT1]; simp [StartPipeline]
    have hpar : ∀ T2 : List (StageResult O),
        List.IsPrefix (T2.map fun t => t.Stage)
          ((schedule (parallelStages fns)).map fun s => s.1) → StageOrder (T1 ++ T2) :=
      fun T2 h2 => stageOrder_of_parallel T1 T2 _ hnames1 hall1 h2
        (schedule_names fns schedule hsched)
    obtain ⟨T2, hT2, hnames2, _⟩ := par_run env (schedule (parallelStages fns))
      (executePipeline.sequential env (sequentialStages fns)
        (StartPipeline env id repoID orgID commitSHA branch w0 : PipelineRun O) w).run
      (executePipeline.sequential env (sequentialStages fns)
        (StartPipeline env id repoID orgID commitSHA branch w0 : PipelineRun O) w).w
    have hdone : StageOrder (executePipeline env fns schedule
        (StartPipeline env id repoID orgID commitSHA branch w0) w).run.Stages := by
      simp only [executePipeline, hok, Bool.not_true, Bool.false_eq_true, if_false]
      rw [hT2]
      simp only [hst1]
      exact hpar T2 (by rw [hnames2])
    refine ⟨?_, hdone⟩
    intro r hr
    rcases List.mem_cons.mp hr with h | h
    · rw [h]; exact hnil
    · simp only [executePipeline, hok, Bool.not_true, Bool.false_eq_true, if_false,
        List.mem_append, List.mem_singleton] at h
      rcases h with (h | h) | h
      · exact hseq r h
      · obtain ⟨T, hT, hpre⟩ := par_states env (schedule (parallelStages fns)) _ _ r h
        rw [hT, hst1]
        exact hpar T hpre
      · have := hdone
        simp only [executePipeline, hok, Bool.not_true, Bool.false_eq_true, if_false] at this
        rw [h]
        exact this

theorem pipeline_stage_order_witness :
    StageOrder (executePipeline toyPipelineEnv toyStageFns List.reverse
      (StartPipeline toyPipelineEnv "run-1" "r1" "o1" "sha" "main" 0) 5).run.Stages :=
  (pipeline_stage_order toyPipelineEnv toyStageFns List.reverse List.reverse_perm
    "run-1" "r1" "o1" "sha" "main" 0 5).2

/-- C29. For every run created by `StartPipeline` in which no cancellation is seen at the
checks and the eight sequential stage functions succeed, and every order in which the
parallel stages complete, `executePipeline` ends with `Status` completed, `CompletedAt` set
and a stage list of exactly 12 entries: the sequential block, all completed, followed by the
four parallel stages in some order, whichever of their functions return an error; each of
these four entries is the result of `executeStage` for its stage, failed with the error text
when the function returned an error and completed otherwise. -/
theorem pipeline_completes {W O : Type} (env : PipelineEnv W) (fns : StageFns W O)
    (schedule : List (Stage × StageFn W O) → List (Stage × StageFn W O))
    (hsched : ∀ l, (schedule l).Perm l) (id repoID orgID commitSHA branch : String)
    (w0 w : W)
    (hsucc : SequentialSucceeds env (sequentialStages fns)
      (StartPipeline env id repoID orgID commitSHA branch w0) w)
    (p : Progress W O)
    (hp : p = executePipeline env fns schedule
      (StartPipeline env id repoID orgID commitSHA branch w0) w) :
    p.run.Status = .StatusCompleted ∧ p.run.CompletedAt = some (env.now p.w) ∧
      p.run.Stages.length = 12 ∧
      ((p.run.Stages.take 8).map fun t => t.Stage) = sequentialNames ∧
      (∀ u ∈ p.run.Stages.take 8, u.Status = .StatusCompleted) ∧
      ((p.run.Stages.drop 8).map fun t => t.Stage).Perm parallelNames ∧
      ∀ t ∈ p.run.Stages.drop 8, ∃ (f : StageFn W O) (run0 : PipelineRun O) (v : W),
        (t.Stage, f) ∈ parallelStages fns ∧ t = (executeStage env run0 t.Stage f v).2.1 ∧
          (∀ e, (f run0 v).1.2 = some e → t.Status = .StatusFailed ∧ t.Error = e) ∧
          ((f run0 v).1.2 = none → t.Status = .StatusCompleted) := by
  have hok := seq_ok_of_succeeds env (sequentialStages fns) _ w hsucc
  obtain ⟨T1, hT1, hnames1, hall1⟩ := seq_ok env (sequentialStages fns) _ w hok
  obtain ⟨T2, hT2, hnames2, hprov⟩ := par_run env (schedule (parallelStages fns))
    (executePipeline.sequential env (sequentialStages fns)
      (StartPipeline env id repoID orgID commitSHA branch w0 : PipelineRun O) w).run
    (executePipeline.sequential env (sequentialStages fns)
      (StartPipeline env id repoID orgID commitSHA branch w0 : PipelineRun O) w).w
  have hlen1 : T1.length = 8 := by
    have := congrArg List.length hnames1
    simpa [sequentialStages] using this
  have hlen2 : T2.length = 4 := by
    have h1 := congrArg List.length hnames2
    have h2 := (hsched (parallelStages fns)).length_eq
    simp only [List.length_map] at h1
    rw [h1, h2]
    rfl
  have hstages : p.run.Stages = T1 ++ T2 := by
    rw [hp]
    simp only [executePipeline, hok, Bool.not_true, Bool.false_eq_true, if_false]
    rw [hT2, hT1]
    simp [StartPipeline]
  have htake : p.run.Stages.take 8 = T1 := by
    rw [hstages, ← hlen1]; exact List.take_left' rfl
  have hdrop : p.run.Stages.drop 8 = T2 := by
    rw [hstages, ← hlen1]; exact List.drop_left' rfl
  refine ⟨?_, ?_, ?_, ?_, ?_, ?_, ?_⟩
  · rw [hp]
    simp only [executePipeline, hok, Bool.not_true, Bool.false_eq_true, if_false]
  · rw [hp]
    simp only [executePipeline, hok, Bool.not_true, Bool.false_eq_true, if_false]
  · rw [hstages, List.length_append, hlen1, hlen2]
  · rw [htake, hnames1]; rfl
  · rw [htake]; exact hall1
  · rw [hdrop, hnames2]
    exact schedule_names fns schedule hsched
  · rw [hdrop]
    intro t ht
    obtain ⟨f, run0, v, hmem, heq⟩ := hprov t ht
    obtain ⟨_, _, _, hfail, hgood⟩ := executeStage_spec env run0 t.Stage f v
    refine ⟨f, run0, v, (hsched (parallelStages fns)).subset hmem, heq, ?_, ?_⟩
    · intro e he
      rw [heq]
      exact hfail e he
    · intro he
      rw [heq]
      exact (hgood he).1

theorem toy_sequential_succeeds :
    SequentialSucceeds toyPipelineEnv (sequentialStages toyStageFns) toyRun 5 := by
  simp [SequentialSucceeds, sequentialStages, toyStageFns, toyPipelineEnv, stageOk]

theorem pipeline_completes_witness :
    (executePipeline toyPipelineEnv toyStageFns List.reverse toyRun 5).run.Status =
        .StatusCompleted ∧
      (executePipeline toyPipelineEnv toyStageFns List.reverse toyRun 5).run.Stages.length = 12 ∧
      (((executePipeline toyPipelineEnv toyStageFns List.reverse toyRun 5).run.Stages.drop 8).map
        fun t => t.Stage).Perm parallelNames :=
  have h := pipeline_completes toyPipelineEnv toyStageFns List.reverse List.reverse_perm
    "run-1" "r1" "o1" "sha" "main" 0 5 toy_sequential_succeeds _ rfl
  ⟨h.1, h.2.2.1, h.2.2.2.2.2.1⟩

/-- The sequential loop whose stage at place `k` is the first to fail does not depend on the
stages after that place: it is the same for every list with the same first `k + 1` stages. -/
theorem seq_first_failure_congr {W O : Type} (env : PipelineEnv W) (e : GoError)
    (l : List (Stage × StageFn W O)) :
    ∀ (l' : List (Stage × StageFn W O)) (k : Nat) (run : PipelineRun O) (w : W),
      FirstFailureAt env e l k run w → l'.take (k + 1) = l.take (k + 1) →
        executePipeline.sequential env l' run w = executePipeline.sequential env l run w := by
  induction l with
  | nil => intro l' k run w h; exact absurd h (by simp [FirstFailureAt])
  | cons s rest ih =>
    intro l' k run w h htake
    cases l' with
    | nil => simp at htake
    | cons s' rest' =>
      simp only [List.take_succ_cons, List.cons.injEq] at htake
      obtain ⟨hs, hrt⟩ := htake
      subst hs
      cases k with
      | zero =>
        obtain ⟨hc, herr⟩ := h
        have hf : (executeStage env run s'.1 s'.2 w).2.1.Status = .StatusFailed := by
          rw [executeStage_failed_iff]; simp [herr]
        rw [seq_failed env s' rest run w hc hf, seq_failed env s' rest' run w hc hf]
      | succ k =>
        obtain ⟨hc, herr, hrest⟩ := h
        have hf : ¬ (executeStage env run s'.1 s'.2 w).2.1.Status = .StatusFailed := by
          rw [executeStage_failed_iff]; simp [herr]
        rw [seq_next env s' rest run w hc hf, seq_next env s' rest' run w hc hf]
        rw [ih rest' k _ _ hrest hrt]

/-- C30. For every run created by `StartPipeline` and every `k` from 1 to 8 (here `k + 1`
with `k` counted from 0): if the `k`-th sequential stage is the first whose function returns
an error and no cancellation is seen at the checks before it, `executePipeline` ends with
`Status` failed, `CompletedAt` set and a stage list of exactly `k` entries, the first `k`
stages of the sequential block: the first `k - 1` completed, the last failed with the text of
the error.  No later sequential stage and no parallel stage is recorded, and none of their
functions is invoked: the whole execution, the outside world it leaves included, is that of
the loop over the first `k` stages alone, and it is the same whatever the later stage
functions, those of the parallel block included, are and in whatever order the parallel
stages would complete. -/
theorem pipeline_fails_at_stage {W O : Type} (env : PipelineEnv W) (fns : StageFns W O)
    (schedule : List (Stage × StageFn W O) → List (Stage × StageFn W O))
    (id repoID orgID commitSHA branch : String) (w0 w : W) (k : Nat) (e : GoError)
    (hfail : FirstFailureAt env e (sequentialStages fns) k
      (StartPipeline env id repoID orgID commitSHA branch w0) w)
    (p : Progress W O)
    (hp : p = executePipeline env fns schedule
      (StartPipeline env id repoID orgID commitSHA branch w0) w) :
    k < 8 ∧ p.ok = false ∧ p.run.Status = .StatusFailed ∧
      p.run.CompletedAt = some (env.now p.w) ∧ p.run.Stages.length = k + 1 ∧
      (p.run.Stages.map fun t => t.Stage) = sequentialNames.take (k + 1) ∧
      (∀ u ∈ p.run.Stages.take k, u.Status = .StatusCompleted) ∧
      (∃ t, p.run.Stages[k]? = some t ∧ t.Status = .StatusFailed ∧ t.Error = e) ∧
      (∀ t ∈ p.run.Stages, t.Stage ∉ parallelNames) ∧
      p = executePipeline.sequential env ((sequentialStages fns).take (k + 1))
        (StartPipeline env id repoID orgID commitSHA branch w0) w ∧
      ∀ (fns' : StageFns W O)
        (schedule' : List (Stage × StageFn W O) → List (Stage × StageFn W O)),
        (sequentialStages fns').take (k + 1) = (sequentialStages fns).take (k + 1) →
          executePipeline env fns' schedule'
            (StartPipeline env id repoID orgID commitSHA branch w0) w = p := by
  obtain ⟨hok, hstatus, hdone, T, t, hT, hlen, hnames, hall, hst, herr⟩ :=
    seq_first_failure env e (sequentialStages fns) k _ w hfail
  have hpe : p = executePipeline.sequential env (sequentialStages fns)
      (StartPipeline env id repoID orgID commitSHA branch w0) w := by
    rw [hp]; simp [executePipeline, hok]
  have hstages : p.run.Stages = T ++ [t] := by
    rw [hpe, hT]; simp [StartPipeline]
  have hnames' : (p.run.Stages.map fun t => t.Stage) = sequentialNames.take (k + 1) := by
    rw [hstages, hnames, List.map_take]
    rfl
  have hk : k < 8 := by
    have h1 := congrArg List.length hnames'
    rw [hstages] at h1
    simp only [List.map_append, List.map_cons, List.map_nil, List.length_append,
      List.length_map, List.length_singleton, List.length_take, hlen] at h1
    have h8 : sequentialNames.length = 8 := rfl
    omega
  refine ⟨hk, by rw [hpe]; exact hok, by rw [hpe]; exact hstatus, by rw [hpe]; exact hdone, ?_,
    hnames', ?_, ?_, ?_, ?_, ?_⟩
  · rw [hstages]; simp [hlen]
  · rw [hstages, ← hlen, List.take_left' rfl]
    exact hall
  · refine ⟨t, ?_, hst, herr⟩
    rw [hstages, ← hlen]
    exact List.getElem?_concat_length T t
  · intro u hu hpar
    have hmem : u.Stage ∈ p.run.Stages.map fun t => t.Stage :=
      List.mem_map.mpr ⟨u, hu, rfl⟩
    rw [hnames'] at hmem
    exact sequential_not_parallel _ (List.mem_of_mem_take hmem) hpar
  · rw [hpe]
    exact (seq_first_failure_congr env e (sequentialStages fns)
      ((sequentialStages fns).take (k + 1)) k _ w hfail
      (by rw [List.take_take, min_self])).symm
  · intro fns' schedule' htake
    have hseq := seq_first_failure_congr env e (sequentialStages fns) (sequentialStages fns') k
      _ w hfail htake
    rw [hpe]
    simp [executePipeline, hseq, hok]

theorem toy_first_failure :
    FirstFailureAt toyPipelineEnv "boom" (sequentialStages toyStageFnsAST) 3 toyRun 5 := by
  simp [FirstFailureAt, sequentialStages, toyStageFnsAST, toyStageFns, toyPipelineEnv, stageOk,
    stageBad]

theorem pipeline_fails_at_stage_witness :
    (executePipeline toyPipelineEnv toyStageFnsAST List.reverse toyRun 5).run.Status =
        .StatusFailed ∧
      (executePipeline toyPipelineEnv toyStageFnsAST List.reverse toyRun 5).run.Stages.length =
        3 + 1 ∧
      ((executePipeline toyPipelineEnv toyStageFnsAST List.reverse toyRun 5).run.Stages.map
        fun t => t.Stage) = sequentialNames.take (3 + 1) ∧
      executePipeline toyPipelineEnv toyStageFnsAST List.reverse toyRun 5 =
        executePipeline.sequential toyPipelineEnv ((sequentialStages toyStageFnsAST).take (3 + 1))
          (StartPipeline toyPipelineEnv "run-1" "r1" "o1" "sha" "main" 0) 5 ∧
      executePipeline toyPipelineEnv
          { toyStageFnsAST with stageLedger := stageBad, stageInsights := stageBad } id
          (StartPipeline toyPipelineEnv "run-1" "r1" "o1" "sha" "main" 0) 5 =
        executePipeline toyPipelineEnv toyStageFnsAST List.reverse toyRun 5 :=
  have h := pipeline_fails_at_stage toyPipelineEnv toyStageFnsAST List.reverse
    "run-1" "r1" "o1" "sha" "main" 0 5 3 "boom" toy_first_failure _ rfl
  ⟨h.2.2.1, h.2.2.2.2.1, h.2.2.2.2.2.1, h.2.2.2.2.2.2.2.2.2.1,
    h.2.2.2.2.2.2.2.2.2.2 { toyStageFnsAST with stageLedger := stageBad, stageInsights := stageBad }
      id rfl⟩


/-! ## The pipeline orchestrator: cancellation -/

section PipelineCancel

variable {W O : Type}

/-- The sequential loop up to the check that sees the cancellation. -/
theorem seq_cancelled_at (env : PipelineEnv W) (l : List (Stage × StageFn W O)) :
    ∀ (k : Nat) (run : PipelineRun O) (w : W), CancelledAt env l k run w →
      (executePipeline.sequential env l run w).ok = false ∧
        (executePipeline.sequential env l run w).run.Status = .StatusFailed ∧
        (executePipeline.sequential env l run w).run.CompletedAt =
          some (env.now (executePipeline.sequential env l run w).w) ∧
        env.ctxErr (executePipeline.sequential env l run w).w ≠ none ∧
        ∃ T : List (StageResult O),
          (executePipeline.sequential env l run w).run.Stages = run.Stages ++ T ∧
            T.length = k ∧
            (T.map fun t => t.Stage) = ((l.take k).map fun s => s.1) ∧
            ∀ u ∈ T, u.Status = .StatusCompleted := by
  induction l with
  | nil => intro k run w h; exact absurd h (by simp [CancelledAt])
  | cons s rest ih =>
    intro k run w h
    cases k with
    | zero =>
      have hc : env.ctxErr w ≠ none := h
      obtain ⟨e, he⟩ := Option.ne_none_iff_exists'.mp hc
      rw [seq_cancelled env s rest run w e he]
      exact ⟨rfl, rfl, rfl, hc, [], by simp [failPipeline], rfl, rfl, by simp⟩
    | succ k =>
      obtain ⟨hc, herr, hrest⟩ := h
      obtain ⟨_, hname, _, _, hok⟩ := executeStage_spec env run s.1 s.2 w
      have hcomp := (hok herr).1
      have hf : ¬ (executeStage env run s.1 s.2 w).2.1.Status = .StatusFailed := by
        rw [hcomp]; decide
      rw [seq_next env s rest run w hc hf]
      obtain ⟨h1, h2, h3, h4, T, hT, hlen, hnames, hall⟩ := ih k _ _ hrest
      refine ⟨h1, h2, h3, h4, (executeStage env run s.1 s.2 w).2.1 :: T, ?_, by simp [hlen], ?_,
        ?_⟩
      · simp only
        rw [hT, executeStage_stages]
        simp
      · simp only [List.map_cons, hname, List.take_succ_cons]
        rw [hnames]
      · intro u hu
        rcases List.mem_cons.mp hu with h | h
        · rw [h]; exact hcomp
        · exact hall u h

/-- The sequential loop that sees the cancellation before the stage at place `k` does not
depend on the stages from that place on. -/
theorem seq_cancelled_at_congr (env : PipelineEnv W) (l : List (Stage × StageFn W O)) :
    ∀ (l' : List (Stage × StageFn W O)) (k : Nat) (run : PipelineRun O) (w : W),
      CancelledAt env l k run w → l'.take k = l.take k → k < l'.length →
        executePipeline.sequential env l' run w = executePipeline.sequential env l run w := by
  induction l with
  | nil => intro l' k run w h; exact absurd h (by simp [CancelledAt])
  | cons s rest ih =>
    intro l' k run w h htake hlen
    cases l' with
    | nil => simp at hlen
    | cons s' rest' =>
      cases k with
      | zero =>
        have hc : env.ctxErr w ≠ none := h
        obtain ⟨e, he⟩ := Option.ne_none_iff_exists'.mp hc
        rw [seq_cancelled env s rest run w e he, seq_cancelled env s' rest' run w e he]
      | succ k =>
        obtain ⟨hc, herr, hrest⟩ := h
        simp only [List.take_succ_cons, List.cons.injEq] at htake
        obtain ⟨hs, hrt⟩ := htake
        subst hs
        have hf : ¬ (executeStage env run s'.1 s'.2 w).2.1.Status = .StatusFailed := by
          rw [executeStage_failed_iff]; simp [herr]
        rw [seq_next env s' rest run w hc hf, seq_next env s' rest' run w hc hf]
        rw [ih rest' k _ _ hrest hrt (by simpa using hlen)]

end PipelineCancel

/-- C31. For every run created by `StartPipeline` and every `k` from 1 to 8 (here `k + 1`
with `k` counted from 0): if the cancellation is seen at the check before the `k`-th
sequential stage, the stages before it having succeeded, `executePipeline` ends with `Status`
failed, `CompletedAt` set and a stage list of exactly `k - 1` entries, the first `k - 1`
stages of the sequential block, all completed.  The world it leaves is the world of that
check: no stage function has run since.  The `k`-th and the later stage functions, those of
the parallel block included, are not invoked: the execution is the same whatever these
functions are and in whatever order the parallel stages would complete. -/
theorem pipeline_cancelled_at_stage {W O : Type} (env : PipelineEnv W) (fns : StageFns W O)
    (schedule : List (Stage × StageFn W O) → List (Stage × StageFn W O))
    (id repoID orgID commitSHA branch : String) (w0 w : W) (k : Nat)
    (hcancel : CancelledAt env (sequentialStages fns) k
      (StartPipeline env id repoID orgID commitSHA branch w0) w)
    (p : Progress W O)
    (hp : p = executePipeline env fns schedule
      (StartPipeline env id repoID orgID commitSHA branch w0) w) :
    k < 8 ∧ p.ok = false ∧ p.run.Status = .StatusFailed ∧
      p.run.CompletedAt = some (env.now p.w) ∧ p.run.Stages.length = k ∧
      (p.run.Stages.map fun t => t.Stage) = sequentialNames.take k ∧
      (∀ u ∈ p.run.Stages, u.Status = .StatusCompleted) ∧
      env.ctxErr p.w ≠ none ∧
      ∀ (fns' : StageFns W O)
        (schedule' : List (Stage × StageFn W O) → List (Stage × StageFn W O)),
        (sequentialStages fns').take k = (sequentialStages fns).take k →
          executePipeline env fns' schedule'
            (StartPipeline env id repoID orgID commitSHA branch w0) w = p := by
  obtain ⟨hok, hstatus, hdone, hctx, T, hT, hlen, hnames, hall⟩ :=
    seq_cancelled_at env (sequentialStages fns) k _ w hcancel
  have hpe : p = executePipeline.sequential env (sequentialStages fns)
      (StartPipeline env id repoID orgID commitSHA branch w0) w := by
    rw [hp]; simp [executePipeline, hok]
  have hstages : p.run.Stages = T := by
    rw [hpe, hT]; simp [StartPipeline]
  have hk : k < 8 := by
    by_contra hge
    have h8 : (sequentialStages fns).length = 8 := rfl
    have hnone : ∀ (l : List (Stage × StageFn W O)) (k : Nat) (run : PipelineRun O) (v : W),
        CancelledAt env l k run v → k < l.length := by
      intro l
      induction l with
      | nil => intro k run v h; exact absurd h (by simp [CancelledAt])
      | cons s rest ih =>
        intro k run v h
        cases k with
        | zero => simp
        | succ k =>
          have := ih k _ _ h.2.2
          simp only [List.length_cons]
          omega
    have := hnone _ _ _ _ hcancel
    omega
  refine ⟨hk, by rw [hpe]; exact hok, by rw [hpe]; exact hstatus, by rw [hpe]; exact hdone,
    by rw [hstages]; exact hlen, ?_, by rw [hstages]; exact hall, by rw [hpe]; exact hctx, ?_⟩
  · rw [hstages, hnames, List.map_take]
    rfl
  · intro fns' schedule' htake
    have h8 : k < (sequentialStages fns').length := hk
    have hseq := seq_cancelled_at_congr env (sequentialStages fns) (sequentialStages fns') k _ w
      hcancel htake h8
    rw [hpe]
    simp [executePipeline, hseq, hok]

theorem toy_cancelled_at :
    CancelledAt cancellingPipelineEnv (sequentialStages toyStageFns) 3
      (StartPipeline cancellingPipelineEnv "run-1" "r1" "o1" "sha" "main" 0) 5 := by
  simp [CancelledAt, sequentialStages, toyStageFns, cancellingPipelineEnv, stageOk, executeStage]

theorem pipeline_cancelled_at_stage_witness :
    (executePipeline cancellingPipelineEnv toyStageFns List.reverse
        (StartPipeline cancellingPipelineEnv "run-1" "r1" "o1" "sha" "main" 0) 5).run.Status =
        .StatusFailed ∧
      (executePipeline cancellingPipelineEnv toyStageFns List.reverse
        (StartPipeline cancellingPipelineEnv "run-1" "r1" "o1" "sha" "main" 0)
          5).run.Stages.length = 3 ∧
      executePipeline cancellingPipelineEnv toyStageFnsAST id
        (StartPipeline cancellingPipelineEnv "run-1" "r1" "o1" "sha" "main" 0) 5 =
        executePipeline cancellingPipelineEnv toyStageFns List.reverse
          (StartPipeline cancellingPipelineEnv "run-1" "r1" "o1" "sha" "main" 0) 5 :=
  have h := pipeline_cancelled_at_stage cancellingPipelineEnv toyStageFns List.reverse
    "run-1" "r1" "o1" "sha" "main" 0 5 3 toy_cancelled_at _ rfl
  ⟨h.2.2.1, h.2.2.2.2.1, h.2.2.2.2.2.2.2.2 toyStageFnsAST id rfl⟩


/-! ## The pipeline orchestrator: the status of a run -/

section PipelineStatus

variable {W O : Type}

theorem executeStage_live (env : PipelineEnv W) (run : PipelineRun O) (stage : Stage)
    (fn : StageFn W O) (w : W) (h : Live run) : Live (executeStage env run stage fn w).1 := by
  obtain ⟨h1, h2, h3⟩ := h
  unfold executeStage
  rcases hf : fn run w with ⟨⟨output, err⟩, w1⟩
  refine ⟨h1, h2, ?_⟩
  intro t ht
  simp only [List.mem_append, List.mem_singleton] at ht
  rcases ht with ht | ht
  · exact h3 t ht
  · subst ht
    cases err with
    | none => simp
    | some e => simp

theorem failPipeline_writes_spec (env : PipelineEnv W) (run : PipelineRun O) (w : W)
    (h : Live run) :
    ∃ (mid : PipelineRun O) (post : List (PipelineRun O)),
      failPipeline.writes env run w = mid :: post ∧ post ≠ [] ∧ StagesFinal mid.Stages ∧
        mid.Status = .StatusFailed ∧ mid.CompletedAt = none ∧
        (∀ r ∈ post, Ended .StatusFailed r) ∧
        (mid :: post).getLast? = some (failPipeline env run "" w) := by
  obtain ⟨_, h2, h3⟩ := h
  refine ⟨_, _, rfl, by simp, h3, rfl, h2, ?_, ?_⟩
  · intro r hr
    simp only [List.mem_cons, List.mem_singleton, List.not_mem_nil, or_false] at hr
    rcases hr with hr | hr <;> subst hr <;> exact ⟨rfl, by simp, h3⟩
  · simp [failPipeline]

theorem completeWrites_spec (env : PipelineEnv W) (run : PipelineRun O) (w : W)
    (h : Live run) :
    ∃ (mid : PipelineRun O) (post : List (PipelineRun O)),
      executePipeline.completeWrites env run w = mid :: post ∧ post ≠ [] ∧
        StagesFinal mid.Stages ∧
        mid.Status = .StatusRunning ∧ mid.CompletedAt ≠ none ∧
        (∀ r ∈ post, Ended .StatusCompleted r) ∧
        (mid :: post).getLast? =
          some { run with CompletedAt := some (env.now w), Status := .StatusCompleted,
                          TotalDuration := env.now w - run.CreatedAt } := by
  obtain ⟨h1, _, h3⟩ := h
  refine ⟨_, _, rfl, by simp, h3, h1, by simp, ?_, ?_⟩
  · intro r hr
    simp only [List.mem_cons, List.mem_singleton, List.not_mem_nil, or_false] at hr
    rcases hr with hr | hr <;> subst hr <;> exact ⟨rfl, by simp, h3⟩
  · simp

/-- The assignments of the sequential loop: when the loop runs to its end they are the
appends of the stages, each leaving the run under way; when it returns early they are such
appends followed by the assignments of `failPipeline`. -/
theorem seq_writes (env : PipelineEnv W) (l : List (Stage × StageFn W O)) :
    ∀ (run : PipelineRun O) (w : W), Live run →
      ((executePipeline.sequential env l run w).ok = true →
        executePipeline.sequentialWrites env l run w =
            (executePipeline.sequential env l run w).states ∧
          (∀ r ∈ executePipeline.sequentialWrites env l run w, Live r) ∧
          Live (executePipeline.sequential env l run w).run) ∧
      ((executePipeline.sequential env l run w).ok = false →
        ∃ (pre : List (PipelineRun O)) (r0 : PipelineRun O) (v : W),
          executePipeline.sequentialWrites env l run w = pre ++ failPipeline.writes env r0 v ∧
            (∀ r ∈ pre, Live r) ∧ Live r0 ∧
            (executePipeline.sequential env l run w).run = failPipeline env r0 "" v) := by
  induction l with
  | nil =>
    intro run w hlive
    refine ⟨fun _ => ⟨rfl, ?_, hlive⟩, fun h => ?_⟩
    · intro r hr; simp [executePipeline.sequentialWrites] at hr
    · simp [executePipeline.sequential] at h
  | cons s rest ih =>
    intro run w hlive
    cases hc : env.ctxErr w with
    | some e =>
      rw [seq_cancelled env s rest run w e hc]
      refine ⟨fun h => by simp at h, fun _ => ⟨[], run, w, ?_, by simp, hlive, rfl⟩⟩
      simp [executePipeline.sequentialWrites, hc]
    | none =>
      have hl1 := executeStage_live env run s.1 s.2 w hlive
      by_cases hf : (executeStage env run s.1 s.2 w).2.1.Status = .StatusFailed
      · rw [seq_failed env s rest run w hc hf]
        refine ⟨fun h => by simp at h, fun _ =>
          ⟨[(executeStage env run s.1 s.2 w).1], (executeStage env run s.1 s.2 w).1,
            (executeStage env run s.1 s.2 w).2.2, ?_, ?_, hl1, rfl⟩⟩
        · simp [executePipeline.sequentialWrites, hc, hf]
        · intro r hr
          simp only [List.mem_singleton] at hr
          rw [hr]; exact hl1
      · rw [seq_next env s rest run w hc hf]
        have hw : executePipeline.sequentialWrites env (s :: rest) run w =
            (executeStage env run s.1 s.2 w).1 ::
              executePipeline.sequentialWrites env rest (executeStage env run s.1 s.2 w).1
                (executeStage env run s.1 s.2 w).2.2 := by
          simp [executePipeline.sequentialWrites, hc, hf]
        obtain ⟨ih1, ih2⟩ := ih (executeStage env run s.1 s.2 w).1
          (executeStage env run s.1 s.2 w).2.2 hl1
        constructor
        · intro hok
          obtain ⟨e1, e2, e3⟩ := ih1 hok
          refine ⟨by rw [hw, e1], ?_, e3⟩
          intro r hr
          rw [hw] at hr
          rcases List.mem_cons.mp hr with h | h
          · rw [h]; exact hl1
          · exact e2 r h
        · intro hok
          obtain ⟨pre, r0, v, e1, e2, e3, e4⟩ := ih2 hok
          refine ⟨(executeStage env run s.1 s.2 w).1 :: pre, r0, v, by rw [hw, e1]; rfl, ?_, e3,
            e4⟩
          intro r hr
          rcases List.mem_cons.mp hr with h | h
          · rw [h]; exact hl1
          · exact e2 r h

/-- The appends of the parallel block leave the run under way. -/
theorem par_live (env : PipelineEnv W) (l : List (Stage × StageFn W O)) :
    ∀ (run : PipelineRun O) (w : W), Live run →
      (∀ r ∈ (executePipeline.parallel env l run w).states, Live r) ∧
        Live (executePipeline.parallel env l run w).run := by
  induction l with
  | nil =>
    intro run w hlive
    exact ⟨fun r hr => by simp [executePipeline.parallel] at hr, hlive⟩
  | cons s rest ih =>
    intro run w hlive
    have hl1 := executeStage_live env run s.1 s.2 w hlive
    obtain ⟨i1, i2⟩ := ih _ (executeStage env run s.1 s.2 w).2.2 hl1
    rw [par_cons]
    refine ⟨?_, i2⟩
    intro r hr
    rcases List.mem_cons.mp hr with h | h
    · rw [h]; exact hl1
    · exact i1 r h

end PipelineStatus


theorem OneStatusChange_values {O : Type} (tr : List (PipelineRun O))
    (h : OneStatusChange tr) :
    (∀ r ∈ tr, r.Status = .StatusRunning ∨ r.Status = .StatusCompleted ∨
        r.Status = .StatusFailed) ∧
      ∀ r ∈ tr, StagesFinal r.Stages := by
  obtain ⟨pre, mid, post, htr, _, hpre, hmid, hcase⟩ := h
  subst htr
  constructor
  · intro r hr
    simp only [List.mem_append, List.mem_cons] at hr
    rcases hr with hr | hr | hr
    · exact Or.inl (hpre r hr).1
    · subst hr
      rcases hcase with ⟨h1, _, _⟩ | ⟨h1, _, _⟩
      · exact Or.inr (Or.inr h1)
      · exact Or.inl h1
    · rcases hcase with ⟨_, _, h3⟩ | ⟨_, _, h3⟩
      · exact Or.inr (Or.inr (h3 r hr).1)
      · exact Or.inr (Or.inl (h3 r hr).1)
  · intro r hr
    simp only [List.mem_append, List.mem_cons] at hr
    rcases hr with hr | hr | hr
    · exact (hpre r hr).2.2
    · subst hr; exact hmid
    · rcases hcase with ⟨_, _, h3⟩ | ⟨_, _, h3⟩
      · exact (h3 r hr).2.2
      · exact (h3 r hr).2.2

/-- The trace of an execution started on a run that is under way has one change of status
and ends with the run that `executePipeline` leaves. -/
theorem writes_oneStatusChange {W O : Type} (env : PipelineEnv W) (fns : StageFns W O)
    (schedule : List (Stage × StageFn W O) → List (Stage × StageFn W O))
    (run : PipelineRun O) (w : W) (hlive : Live run) :
    OneStatusChange (run :: executePipeline.writes env fns schedule run w) ∧
      (run :: executePipeline.writes env fns schedule run w).getLast? =
        some (executePipeline env fns schedule run w).run := by
  obtain ⟨hs1, hs2⟩ := seq_writes env (sequentialStages fns) run w hlive
  cases hok : (executePipeline.sequential env (sequentialStages fns) run w).ok with
  | false =>
    obtain ⟨pre, r0, v, e1, e2, e3, e4⟩ := hs2 hok
    obtain ⟨mid, post, f1, f2, f3, f4, f5, f6, f7⟩ := failPipeline_writes_spec env r0 v e3
    have hw : executePipeline.writes env fns schedule run w = pre ++ mid :: post := by
      simp only [executePipeline.writes, hok, Bool.not_false, if_true]
      rw [e1, f1]
    have hp : executePipeline env fns schedule run w =
        executePipeline.sequential env (sequentialStages fns) run w := by
      simp [executePipeline, hok]
    constructor
    · refine ⟨run :: pre, mid, post, by rw [hw]; rfl, f2, ?_, f3, Or.inl ⟨f4, f5, f6⟩⟩
      intro r hr
      rcases List.mem_cons.mp hr with h | h
      · rw [h]; exact hlive
      · exact e2 r h
    · rw [hw, hp, e4, ← List.cons_append, List.getLast?_append, f7]
      rfl
  | true =>
    obtain ⟨e1, e2, e3⟩ := hs1 hok
    obtain ⟨p1, p2⟩ := par_live env (schedule (parallelStages fns)) _
      (executePipeline.sequential env (sequentialStages fns) run w).w e3
    obtain ⟨mid, post, f1, f2, f3, f4, f5, f6, f7⟩ := completeWrites_spec env
      (executePipeline.parallel env (schedule (parallelStages fns))
        (executePipeline.sequential env (sequentialStages fns) run w).run
        (executePipeline.sequential env (sequentialStages fns) run w).w).run
      (executePipeline.parallel env (schedule (parallelStages fns))
        (executePipeline.sequential env (sequentialStages fns) run w).run
        (executePipeline.sequential env (sequentialStages fns) run w).w).w p2
    have hw : executePipeline.writes env fns schedule run w =
        (executePipeline.sequentialWrites env (sequentialStages fns) run w ++
          (executePipeline.parallel env (schedule (parallelStages fns))
            (executePipeline.sequential env (sequentialStages fns) run w).run
            (executePipeline.sequential env (sequentialStages fns) run w).w).states) ++
          mid :: post := by
      simp only [executePipeline.writes, hok, Bool.not_true, Bool.false_eq_true, if_false]
      rw [f1]
    constructor
    · refine ⟨run :: (executePipeline.sequentialWrites env (sequentialStages fns) run w ++
          (executePipeline.parallel env (schedule (parallelStages fns))
            (executePipeline.sequential env (sequentialStages fns) run w).run
            (executePipeline.sequential env (sequentialStages fns) run w).w).states), mid, post,
        by rw [hw]; rfl, f2, ?_, f3, Or.inr ⟨f4, f5, f6⟩⟩
      intro r hr
      rcases List.mem_cons.mp hr with h | h
      · rw [h]; exact hlive
      · rcases List.mem_append.mp h with h | h
        · exact e2 r h
        · exact p1 r h
    · rw [hw, ← List.cons_append, List.getLast?_append, f7]
      simp [executePipeline, hok]

theorem startPipeline_live {W O : Type} (env : PipelineEnv W)
    (id repoID orgID commitSHA branch : String) (w0 : W) :
    Live (StartPipeline env id repoID orgID commitSHA branch w0 : PipelineRun O) :=
  ⟨rfl, rfl, fun t ht => absurd ht (List.not_mem_nil t)⟩

/-- C40, the claim as it stands fails: between the two assignments of the closing block the
fields `Status` and `CompletedAt` disagree.  In the toy run whose stages all run, the value
of the run after the assignment `run.CompletedAt = &now` of the completion block has
`CompletedAt` set and `Status` still running; in the toy run whose fourth stage fails, the
value after the assignment `run.Status = StatusFailed` of `failPipeline` has `Status` failed
and `CompletedAt` still unset. -/
theorem status_and_completedAt_disagree :
    (∃ r, (executePipeline.writes toyPipelineEnv toyStageFns List.reverse toyRun 5)[12]? =
        some r ∧ r.Status = .StatusRunning ∧ r.CompletedAt = some 125) ∧
      ∃ r, (executePipeline.writes toyPipelineEnv toyStageFnsAST List.reverse toyRun 5)[4]? =
        some r ∧ r.Status = .StatusFailed ∧ r.CompletedAt = none :=
  ⟨⟨_, rfl, rfl, rfl⟩, ⟨_, rfl, rfl, rfl⟩⟩

/-- C40, amended. For every run created by `StartPipeline` and every execution of it, taken
assignment by assignment: the `Status` of the run only takes the values running, completed
and failed; every recorded stage result is completed or failed with `EndedAt` set; and the
trace has one change of status.  First come values with `Status` running and `CompletedAt`
unset.  Then comes one value between the two assignments of the closing block, in which the
two fields disagree: failed with `CompletedAt` unset in `failPipeline`, which assigns
`Status` first, or running with `CompletedAt` set in the completion block, which assigns
`CompletedAt` first.  Then come values with `CompletedAt` set that all have the same status,
failed or completed, the last of them the run that `executePipeline` leaves. -/
theorem pipeline_status_changes_once {W O : Type} (env : PipelineEnv W) (fns : StageFns W O)
    (schedule : List (Stage × StageFn W O) → List (Stage × StageFn W O))
    (id repoID orgID commitSHA branch : String) (w0 w : W) (tr : List (PipelineRun O))
    (htr : tr = StartPipeline env id repoID orgID commitSHA branch w0 ::
      executePipeline.writes env fns schedule
        (StartPipeline env id repoID orgID commitSHA branch w0) w) :
    (∀ r ∈ tr, r.Status = .StatusRunning ∨ r.Status = .StatusCompleted ∨
        r.Status = .StatusFailed) ∧
      (∀ r ∈ tr, StagesFinal r.Stages) ∧
      OneStatusChange tr ∧
      tr.getLast? = some (executePipeline env fns schedule
        (StartPipeline env id repoID orgID commitSHA branch w0) w).run := by
  subst htr
  obtain ⟨h1, h2⟩ := writes_oneStatusChange env fns schedule
    (StartPipeline env id repoID orgID commitSHA branch w0) w
    (startPipeline_live env id repoID orgID commitSHA branch w0)
  obtain ⟨h3, h4⟩ := OneStatusChange_values _ h1
  exact ⟨h3, h4, h1, h2⟩

theorem pipeline_status_changes_once_witness :
    OneStatusChange (toyRun :: executePipeline.writes toyPipelineEnv toyStageFns List.reverse
      toyRun 5) ∧
      (toyRun :: executePipeline.writes toyPipelineEnv toyStageFns List.reverse
        toyRun 5).getLast? =
        some (executePipeline toyPipelineEnv toyStageFns List.reverse toyRun 5).run :=
  (pipeline_status_changes_once toyPipelineEnv toyStageFns List.reverse
    "run-1" "r1" "o1" "sha" "main" 0 5 _ rfl).2.2


/-! ## The circuit breaker: overlapping calls -/

/-- What every step keeps: the configuration; in state closed the failure counter is in
`[0, MaxFailures)`; outside state half-open `halfOpenCalls` is 0. -/
theorem breaker_step_inv (cfg : CircuitBreakerConfig) (h1 : 1 ≤ cfg.MaxFailures)
    (h2 : cfg.MaxFailures ≤ maxInt64) (cb : CircuitBreaker)
    (hinv : cb.config = cfg ∧
      (cb.state = .StateClosed → 0 ≤ cb.failures ∧ cb.failures < cfg.MaxFailures) ∧
      (cb.state ≠ .StateHalfOpen → cb.halfOpenCalls = 0)) :
    (∀ now, (cb.enter now).1.config = cfg ∧
      ((cb.enter now).1.state = .StateClosed →
        0 ≤ (cb.enter now).1.failures ∧ (cb.enter now).1.failures < cfg.MaxFailures) ∧
      ((cb.enter now).1.state ≠ .StateHalfOpen → (cb.enter now).1.halfOpenCalls = 0)) ∧
    ∀ err now, (cb.complete err now).config = cfg ∧
      ((cb.complete err now).state = .StateClosed →
        0 ≤ (cb.complete err now).failures ∧ (cb.complete err now).failures < cfg.MaxFailures) ∧
      ((cb.complete err now).state ≠ .StateHalfOpen → (cb.complete err now).halfOpenCalls = 0) := by
  obtain ⟨hc, hf, hh⟩ := hinv
  rcases cb with ⟨config, state, failures, successes, lastFailure, halfOpenCalls⟩
  simp only at hc hf hh
  subst hc
  constructor
  · intro now
    cases state <;> simp only [CircuitBreaker.enter] <;> (try split_ifs) <;>
      simp_all [CircuitBreaker.transitionTo]
  · intro err now
    cases err with
    | none =>
      cases state <;>
        simp only [CircuitBreaker.complete, CircuitBreaker.onSuccess,
          CircuitBreaker.transitionTo] <;>
        (try split_ifs) <;> simp_all <;> omega
    | some e =>
      cases state with
      | StateClosed =>
        obtain ⟨hf0, hf1⟩ := hf rfl
        have hw : wrapInt64 (failures + 1) = failures + 1 :=
          wrapInt64_of_range _ (by omega) (by omega)
        simp only [CircuitBreaker.complete, CircuitBreaker.onFailure,
          CircuitBreaker.transitionTo, hw]
        split_ifs <;> simp_all
        omega
      | StateOpen =>
        simp only [CircuitBreaker.complete, CircuitBreaker.onFailure,
          CircuitBreaker.transitionTo]
        split_ifs <;> simp_all
      | StateHalfOpen =>
        simp [CircuitBreaker.complete, CircuitBreaker.onFailure, CircuitBreaker.transitionTo]

/-- The invariant holds after every interleaving. -/
theorem runSteps_inv (cfg : CircuitBreakerConfig) (h1 : 1 ≤ cfg.MaxFailures)
    (h2 : cfg.MaxFailures ≤ maxInt64) (steps : List BreakerStep) :
    ∀ (cb : CircuitBreaker) (n : Nat) (cb' : CircuitBreaker) (n' : Nat),
      (cb.config = cfg ∧
        (cb.state = .StateClosed → 0 ≤ cb.failures ∧ cb.failures < cfg.MaxFailures) ∧
        (cb.state ≠ .StateHalfOpen → cb.halfOpenCalls = 0)) →
      runSteps cb n steps = some (cb', n') →
      cb'.config = cfg ∧
        (cb'.state = .StateClosed → 0 ≤ cb'.failures ∧ cb'.failures < cfg.MaxFailures) ∧
        (cb'.state ≠ .StateHalfOpen → cb'.halfOpenCalls = 0) := by
  induction steps with
  | nil =>
    intro cb n cb' n' hinv hrun
    simp only [runSteps, Option.some.injEq, Prod.mk.injEq] at hrun
    rw [← hrun.1]; exact hinv
  | cons s rest ih =>
    intro cb n cb' n' hinv hrun
    obtain ⟨he, hc⟩ := breaker_step_inv cfg h1 h2 cb hinv
    cases s with
    | arrive now =>
      simp only [runSteps] at hrun
      rcases hen : cb.enter now with ⟨cb1, ok⟩
      have hinv1 := he now
      rw [hen] at hrun hinv1
      cases ok with
      | true => exact ih cb1 (n + 1) cb' n' hinv1 hrun
      | false => exact ih cb1 n cb' n' hinv1 hrun
    | finish err now =>
      cases n with
      | zero => simp [runSteps] at hrun
      | succ m =>
        simp only [runSteps] at hrun
        exact ih _ m cb' n' (hc err now) hrun

/-- C36. For every breaker made by `NewCircuitBreaker` whose `MaxFailures` is at least 1 (a
Go `int`, so at most `maxInt64`) and every interleaving of the first and second critical
sections of overlapping `Execute` calls, with any clock readings and any outcomes: in the
state reached, `state` closed implies `0 ≤ failures < MaxFailures`, and `halfOpenCalls > 0`
implies `state` half-open. -/
theorem breaker_invariants_under_interleaving (cfg : CircuitBreakerConfig)
    (hmax : 1 ≤ (NewCircuitBreaker cfg).config.MaxFailures)
    (hint : (NewCircuitBreaker cfg).config.MaxFailures ≤ maxInt64)
    (steps : List BreakerStep) (cb : CircuitBreaker) (n : Nat)
    (hrun : runSteps (NewCircuitBreaker cfg) 0 steps = some (cb, n)) :
    (cb.state = .StateClosed → 0 ≤ cb.failures ∧ cb.failures < cb.config.MaxFailures) ∧
      (0 < cb.halfOpenCalls → cb.state = .StateHalfOpen) := by
  have h0 : (NewCircuitBreaker cfg).state = .StateClosed ∧ (NewCircuitBreaker cfg).failures = 0 ∧
      (NewCircuitBreaker cfg).halfOpenCalls = 0 := ⟨rfl, rfl, rfl⟩
  obtain ⟨hc, hf, hh⟩ := runSteps_inv (NewCircuitBreaker cfg).config hmax hint steps
    (NewCircuitBreaker cfg) 0 cb n
    ⟨rfl, fun _ => by rw [h0.2.1]; exact ⟨le_refl _, by omega⟩, fun _ => h0.2.2⟩ hrun
  refine ⟨fun h => by rw [hc]; exact hf h, fun hpos => ?_⟩
  by_contra hne
  rw [hh hne] at hpos
  exact absurd hpos (by decide)

theorem breaker_invariants_under_interleaving_witness :
    ∃ cb n, runSteps (NewCircuitBreaker cfg3) 0 overlappingSteps = some (cb, n) ∧
      cb.state = .StateClosed ∧ 0 ≤ cb.failures ∧ cb.failures < cb.config.MaxFailures :=
  ⟨_, _, rfl, rfl,
    (breaker_invariants_under_interleaving cfg3 (by decide) (by decide) overlappingSteps _ _
      rfl).1 rfl⟩

/-! ## The retry driver: attempts and panics -/

/-- With an attempt left, or with a last error, the loop returns: it does not panic. -/
theorem loop_returns {F W : Type} (env : RetryEnv F W) (cfg : RetryConfig F)
    (fn : W → Option GoError × W) :
    ∀ (m : Nat) (attempt : Int) (lastErr : Option GoError) (w : W),
      cfg.MaxAttempts - attempt ≤ (m : Int) →
      (attempt < cfg.MaxAttempts ∨ lastErr ≠ none) →
      ∃ err, (RetryWithBackoff.loop env cfg fn attempt lastErr w).1 = .returned err := by
  intro m
  induction m with
  | zero =>
    intro attempt lastErr w hm h
    have hlt : ¬ attempt < cfg.MaxAttempts := by
      simp only [Nat.cast_zero] at hm; omega
    rcases h with h | h
    · exact absurd h hlt
    · obtain ⟨e, he⟩ := Option.ne_none_iff_exists'.mp h
      rw [loop_done env cfg fn attempt lastErr w hlt, he]
      exact ⟨some e, rfl⟩
  | succ m ih =>
    intro attempt lastErr w hm h
    by_cases hlt : attempt < cfg.MaxAttempts
    · cases hc : env.ctxErr w with
      | some e =>
        rw [loop_cancelled env cfg fn attempt lastErr w hlt e hc]
        exact ⟨some e, rfl⟩
      | none =>
        cases hfn : (fn w).1 with
        | none =>
          rw [loop_success env cfg fn attempt lastErr w hlt hc hfn]
          exact ⟨none, rfl⟩
        | some e =>
          by_cases hmore : attempt < cfg.MaxAttempts - 1
          · cases hsel : (env.select (env.calculateDelay attempt cfg (fn w).2).1
                (env.calculateDelay attempt cfg (fn w).2).2).1 with
            | true =>
              rw [loop_fail_wait_cancelled env cfg fn attempt lastErr w hc e hfn hmore hsel]
              exact ⟨_, rfl⟩
            | false =>
              rw [loop_fail_wait env cfg fn attempt lastErr w hc e hfn hmore hsel]
              simp only [Nat.cast_add, Nat.cast_one] at hm
              exact ih (attempt + 1) (some e) _ (by omega) (Or.inr (by simp))
          · rw [loop_fail_last env cfg fn attempt lastErr w hlt hc e hfn hmore]
            exact ⟨some e, rfl⟩
    · rcases h with h | h
      · exact absurd h hlt
      · obtain ⟨e, he⟩ := Option.ne_none_iff_exists'.mp h
        rw [loop_done env cfg fn attempt lastErr w hlt, he]
        exact ⟨some e, rfl⟩

/-- C37. For every environment, function and outside world: with `MaxAttempts ≤ 0` the
driver does not invoke `fn` and does not wait, and it panics, as `lastErr.Error()` is
evaluated for the log line while `lastErr` is `nil`; it does not return `nil`.  With
`MaxAttempts ≥ 1` it returns a value and does not panic. -/
theorem retry_panics_without_attempts {F W : Type} (env : RetryEnv F W) (cfg : RetryConfig F)
    (fn : W → Option GoError × W) (w : W) :
    (cfg.MaxAttempts ≤ 0 → RetryWithBackoff env cfg fn w = (.panicked, [], w)) ∧
      (1 ≤ cfg.MaxAttempts → ∃ err, (RetryWithBackoff env cfg fn w).1 = .returned err) := by
  constructor
  · intro h
    unfold RetryWithBackoff
    rw [loop_done env cfg fn 0 none w (by omega)]
    rfl
  · intro h
    unfold RetryWithBackoff
    exact loop_returns env cfg fn cfg.MaxAttempts.toNat 0 none w (by omega) (Or.inl (by omega))

theorem retry_panics_without_attempts_witness :
    RetryWithBackoff calmRetryEnv retryCfg0 alwaysFails ⟨0, false⟩ =
        (.panicked, [], ⟨0, false⟩) ∧
      ∃ err, (RetryWithBackoff calmRetryEnv retryCfg5 alwaysFails ⟨0, false⟩).1 = .returned err :=
  ⟨(retry_panics_without_attempts calmRetryEnv retryCfg0 alwaysFails ⟨0, false⟩).1 (by decide),
    (retry_panics_without_attempts calmRetryEnv retryCfg5 alwaysFails ⟨0, false⟩).2 (by decide)⟩


/-! ## The dead-letter queue: a message whose `ID` is already stored -/

theorem mem_keys_mapDelete (m : List (String × DeadLetterMessage)) (k k' : String) :
    (k' ∈ (mapDelete m k).map fun e => e.1) ↔ (k' ∈ m.map fun e => e.1) ∧ k' ≠ k := by
  simp only [List.mem_map, mem_mapDelete]
  constructor
  · rintro ⟨e, ⟨he, hne⟩, rfl⟩
    exact ⟨⟨e, he, rfl⟩, hne⟩
  · rintro ⟨⟨e, he, rfl⟩, hne⟩
    exact ⟨e, ⟨he, hne⟩, rfl⟩

/-- Assigning to a key that is present, in a map with no key twice, keeps the number of
entries. -/
theorem mapInsert_length_of_mem (m : List (String × DeadLetterMessage)) (k : String)
    (v : DeadLetterMessage) (hnd : (m.map fun e => e.1).Nodup) (h : k ∈ m.map fun e => e.1) :
    (mapInsert m k v).length = m.length := by
  have := mapDelete_length_of_mem m k hnd h
  simp only [mapInsert, List.length_append, List.length_singleton]
  exact this

/-- C38. `Enqueue` of a message whose `ID` is already stored in a well formed queue.  Below
capacity the message replaces the one stored under its `ID`, every message stored under
another `ID` stays and `Size()` is unchanged.  At capacity (`len(q.messages) >= q.maxSize`)
`evictOldest` runs first although no room is needed: when the message it picks has another
`ID` than the incoming one, that message is deleted, and after the replacement `Size()` is
one less than before. -/
theorem enqueue_stored_id_at_capacity (q : DeadLetterQueue) (msg : DeadLetterMessage)
    (now : Int)
    (range : List (String × DeadLetterMessage) → List (String × DeadLetterMessage))
    (hwf : q.WellFormed) (hperm : (range q.messages).Perm q.messages)
    (hstored : msg.ID ∈ q.keys) :
    ((q.messages.length : Int) < q.maxSize →
        mapLookup (q.Enqueue msg now range).1.messages msg.ID = some (q.Enqueue msg now range).2 ∧
          (∀ e ∈ q.messages, e.1 ≠ msg.ID → e ∈ (q.Enqueue msg now range).1.messages) ∧
          (q.Enqueue msg now range).1.Size = q.Size) ∧
      ((q.messages.length : Int) ≥ q.maxSize →
        ∀ o, evictOldest.scan none (range q.messages) = some o → o.ID ≠ msg.ID →
          (o.ID, o) ∈ q.messages ∧ (o.ID, o) ∉ (q.Enqueue msg now range).1.messages ∧
            o.ID ∉ (q.Enqueue msg now range).1.keys ∧
            (q.Enqueue msg now range).1.Size = q.Size - 1 ∧
            mapLookup (q.Enqueue msg now range).1.messages msg.ID =
              some (q.Enqueue msg now range).2) := by
  obtain ⟨hmsgs, _⟩ := Enqueue_messages q msg now range
  constructor
  · intro hlt
    have hnot : ¬ (q.messages.length : Int) ≥ q.maxSize := by omega
    rw [if_neg hnot] at hmsgs
    refine ⟨?_, ?_, ?_⟩
    · rw [hmsgs]; exact mapLookup_mapInsert _ _ _
    · intro e he hne
      rw [hmsgs]
      exact (mem_mapInsert _ _ _ _).mpr (Or.inl ⟨he, hne⟩)
    · simp only [DeadLetterQueue.Size]
      rw [hmsgs, mapInsert_length_of_mem _ _ _ hwf.1 hstored]
  · intro hge o hscan hne
    rw [if_pos hge] at hmsgs
    have hev : (q.evictOldest range).messages = mapDelete q.messages o.ID := by
      simp only [DeadLetterQueue.evictOldest, hscan]
    rw [hev] at hmsgs
    have hne0 : q.messages ≠ [] := by
      intro h
      simp only [DeadLetterQueue.keys, h, List.map_nil, List.not_mem_nil] at hstored
    have hne' : range q.messages ≠ [] := by
      intro h
      rw [h] at hperm
      exact hne0 (List.Perm.nil_eq hperm).symm
    obtain ⟨o', k, hscan', hmem⟩ := scan_none_mem (range q.messages) hne'
    rw [hscan] at hscan'
    have ho : o' = o := (Option.some.inj hscan').symm
    subst ho
    have hmem' : (k, o') ∈ q.messages := hperm.subset hmem
    have hid : o'.ID = k := hwf.2 (k, o') hmem'
    subst hid
    have hkey : o'.ID ∈ q.messages.map fun e => e.1 :=
      List.mem_map.mpr ⟨(o'.ID, o'), hmem', rfl⟩
    have hstored' : msg.ID ∈ (mapDelete q.messages o'.ID).map fun e => e.1 :=
      (mem_keys_mapDelete _ _ _).mpr ⟨hstored, fun h => hne h.symm⟩
    refine ⟨hmem', ?_, ?_, ?_, ?_⟩
    · rw [hmsgs]
      intro h
      rcases (mem_mapInsert _ _ _ _).mp h with ⟨h1, _⟩ | h1
      · exact ((mem_mapDelete _ _ _).mp h1).2 rfl
      · exact hne (congrArg Prod.fst h1)
    · simp only [DeadLetterQueue.keys, hmsgs, List.mem_map]
      rintro ⟨e, he, hek⟩
      rcases (mem_mapInsert _ _ _ _).mp he with ⟨h1, _⟩ | h1
      · exact ((mem_mapDelete _ _ _).mp h1).2 hek
      · rw [h1] at hek
        exact hne hek.symm
    · simp only [DeadLetterQueue.Size]
      rw [hmsgs, mapInsert_length_of_mem _ _ _ (mapDelete_keys_nodup _ _ hwf.1) hstored']
      have := mapDelete_length_of_mem q.messages o'.ID hwf.1 hkey
      omega
    · rw [hmsgs]; exact mapLookup_mapInsert _ _ _

theorem enqueue_stored_id_at_capacity_witness :
    fullQueue.Size = 2 ∧ fullQueue.maxSize = 2 ∧
      (∃ a, ("a", a) ∈ fullQueue.messages) ∧
      "a" ∉ (fullQueue.Enqueue (newMessage "b") 300 id).1.keys ∧
      (fullQueue.Enqueue (newMessage "b") 300 id).1.Size = fullQueue.Size - 1 :=
  have h := (enqueue_stored_id_at_capacity fullQueue (newMessage "b") 300 id
    fullQueue_wellFormed (List.Perm.refl _) (by decide)).2 (by decide)
    { newMessage "a" with FirstFailed := 100, LastFailed := 100, RetryCount := 1 } (by decide)
    (by decide)
  ⟨by decide, by decide, ⟨_, h.1⟩, h.2.2.1, h.2.2.2.1⟩


/-! ## The encryptor: lemmas -/

/-- The list that `ByteArray.toList` builds is the list of the bytes. -/
theorem byteArray_toList_loop (bs : ByteArray) : ∀ (n i : Nat) (r : List UInt8),
    bs.size - i = n → i ≤ bs.size →
      ByteArray.toList.loop bs i r = r.reverse ++ bs.data.toList.drop i := by
  intro n
  induction n with
  | zero =>
    intro i r hn hi
    have hsz : i = bs.size := by omega
    rw [ByteArray.toList.loop]
    have : ¬ i < bs.size := by omega
    simp only [this, if_false]
    have hlen : bs.data.toList.length ≤ i := by
      rw [hsz]; exact le_of_eq rfl
    rw [List.drop_of_length_le hlen, List.append_nil]
  | succ n ih =>
    intro i r hn hi
    have hlt : i < bs.size := by omega
    rw [ByteArray.toList.loop]
    simp only [hlt, if_true]
    rw [ih (i + 1) _ (by omega) (by omega)]
    have hlt' : i < bs.data.toList.length := hlt
    rw [List.drop_eq_getElem_cons hlt']
    have hget : bs.get! i = bs.data.toList[i] := by
      simp only [ByteArray.get!, Array.getElem_toList, Array.get!_eq_getElem!]
      exact getElem!_pos bs.data i hlt'
    rw [hget]
    simp

/-- The bytes of a string are the UTF-8 encodings of its characters, one after the other. -/
theorem stringBytes_eq (s : String) :
    stringBytes s = (s.data.flatMap String.utf8EncodeChar).map fun u => u.val := by
  unfold stringBytes ByteArray.toList
  rw [byteArray_toList_loop _ _ 0 [] rfl (Nat.zero_le _)]
  simp [String.toUTF8]

theorem byte_xor_val (a b : Byte) : (a ^^^ b).val = a.val ^^^ b.val := by
  rcases a with ⟨a, ha⟩
  rcases b with ⟨b, hb⟩
  show (a ^^^ b) % 256 = a ^^^ b
  exact Nat.mod_eq_of_lt (Nat.xor_lt_two_pow (n := 8) ha hb)

theorem byte_xor_assoc (a b c : Byte) : (a ^^^ b) ^^^ c = a ^^^ (b ^^^ c) := by
  apply Fin.ext
  simp only [byte_xor_val, Nat.xor_assoc]

theorem byte_xor_cancel (a b : Byte) : (a ^^^ b) ^^^ b = a := by
  apply Fin.ext
  simp only [byte_xor_val, Nat.xor_assoc, Nat.xor_self, Nat.xor_zero]

theorem byte_xor_zero (a : Byte) : a ^^^ 0 = a := by
  apply Fin.ext
  rw [byte_xor_val]
  exact Nat.xor_zero _

theorem byte_zero_xor (a : Byte) : 0 ^^^ a = a := by
  apply Fin.ext
  rw [byte_xor_val]
  exact Nat.zero_xor _

theorem byte_xor_left_cancel (a b c : Byte) (h : a ^^^ b = a ^^^ c) : b = c := by
  have h1 : (a ^^^ b).val = (a ^^^ c).val := congrArg Fin.val h
  rw [byte_xor_val, byte_xor_val] at h1
  apply Fin.ext
  exact Nat.xor_right_injective h1

theorem foldl_xor_start (l : List (Nat × Byte)) (a : Byte) :
    l.foldl (fun acc p => acc ^^^ p.2) a = a ^^^ l.foldl (fun acc p => acc ^^^ p.2) 0 := by
  induction l generalizing a with
  | nil => simp [byte_xor_zero]
  | cons x rest ih =>
    simp only [List.foldl_cons]
    rw [ih (a ^^^ x.2), ih (0 ^^^ x.2), byte_zero_xor, byte_xor_assoc]

theorem derive_loop_length (bs : List Byte) : ∀ (d : List Byte) (i : Nat),
    (DerivePerTenantKey.loop d i bs).length = d.length := by
  induction bs with
  | nil => intro d i; rfl
  | cons b rest ih =>
    intro d i
    simp only [DerivePerTenantKey.loop]
    rw [ih, List.length_set]

/-- The byte at place `j` after the loop: the byte before, combined with the fold of the
bytes that the loop sends to that place. -/
theorem derive_loop_getD (bs : List Byte) : ∀ (d : List Byte) (i j : Nat),
    j < d.length → j < 32 →
      (DerivePerTenantKey.loop d i bs).getD j 0 = d.getD j 0 ^^^ tenantPadFrom i bs j := by
  induction bs with
  | nil =>
    intro d i j _ _
    simp [DerivePerTenantKey.loop, tenantPadFrom, byte_xor_zero]
  | cons b rest ih =>
    intro d i j hj hj32
    simp only [DerivePerTenantKey.loop]
    rw [ih _ (i + 1) j (by rw [List.length_set]; exact hj) hj32]
    unfold tenantPadFrom
    simp only [List.enumFrom_cons]
    by_cases hij : i % 32 = j
    · subst hij
      rw [List.filter_cons_of_pos (by simp), List.foldl_cons, foldl_xor_start _ (0 ^^^ b),
        byte_zero_xor, ← byte_xor_assoc]
      congr 1
      simp [List.getD_eq_getElem?_getD, List.getElem?_set, hj]
    · rw [List.filter_cons_of_neg (by simpa using hij)]
      congr 1
      simp [List.getD_eq_getElem?_getD, List.getElem?_set, hij]

theorem ext_getD (l1 l2 : List Byte) (h1 : l1.length = 32) (h2 : l2.length = 32)
    (h : ∀ j, j < 32 → l1.getD j 0 = l2.getD j 0) : l1 = l2 := by
  apply List.ext_getElem (by rw [h1, h2])
  intro j hj1 hj2
  have := h j (by omega)
  rw [List.getD_eq_getElem _ _ hj1, List.getD_eq_getElem _ _ hj2] at this
  exact this

theorem goCopy_length (src : List Byte) : (goCopy (List.replicate 32 0) src).length = 32 := by
  simp only [goCopy, List.length_append, List.length_take, List.length_drop,
    List.length_replicate]
  omega

theorem goCopy_of_length (src : List Byte) (h : src.length = 32) :
    goCopy (List.replicate 32 0) src = src := by
  unfold goCopy
  rw [List.length_replicate, h, List.take_of_length_le (le_of_eq h)]
  exact List.append_nil src

/-- The key derived for a tenant ID: never an error; 32 bytes; at each place the byte of
the copied master key combined with the fold of the tenant ID for that place. -/
theorem derive_spec (e : AESEncryptor) (t : String) :
    ∃ d, e.DerivePerTenantKey t = .ok d ∧ d.masterKey.length = 32 ∧
      ∀ j, j < 32 → d.masterKey.getD j 0 =
        (goCopy (List.replicate 32 0) e.masterKey).getD j 0 ^^^ tenantPad (stringBytes t) j := by
  refine ⟨_, rfl, ?_, ?_⟩
  · rw [derive_loop_length]; exact goCopy_length _
  · intro j hj
    exact derive_loop_getD _ _ 0 j (by rw [goCopy_length]; exact hj) hj

/-- Two tenant IDs get the same key exactly when their folds agree at the 32 places. -/
theorem derive_eq_iff (e : AESEncryptor) (t1 t2 : String) :
    e.DerivePerTenantKey t1 = e.DerivePerTenantKey t2 ↔
      ∀ j, j < 32 → tenantPad (stringBytes t1) j = tenantPad (stringBytes t2) j := by
  obtain ⟨d1, h1, l1, g1⟩ := derive_spec e t1
  obtain ⟨d2, h2, l2, g2⟩ := derive_spec e t2
  rw [h1, h2]
  constructor
  · intro h j hj
    have hd : d1 = d2 := by
      simpa using h
    have := g1 j hj
    rw [hd, g2 j hj] at this
    exact (byte_xor_left_cancel _ _ _ this).symm
  · intro h
    have hk : d1.masterKey = d2.masterKey :=
      ext_getD _ _ l1 l2 fun j hj => by rw [g1 j hj, g2 j hj, h j hj]
    cases d1
    cases d2
    simp only at hk
    rw [hk]

theorem tenantPad_nil (j : Nat) : tenantPad (stringBytes "") j = 0 := by
  rw [stringBytes_eq]; rfl

/-- A tenant ID whose folds are all 0 gets the master key itself. -/
theorem derive_of_pad_zero (e : AESEncryptor) (hk : e.masterKey.length = 32) (t : String)
    (h : ∀ j, j < 32 → tenantPad (stringBytes t) j = 0) : e.DerivePerTenantKey t = .ok e := by
  obtain ⟨d, h1, l1, g1⟩ := derive_spec e t
  rw [h1]
  have hkey : d.masterKey = e.masterKey :=
    ext_getD _ _ l1 hk fun j hj => by
      rw [g1 j hj, h j hj, byte_xor_zero, goCopy_of_length _ hk]
  cases d
  cases e
  simp only at hkey
  rw [hkey]

/-! ## The encryptor: claims -/

/-- C35. The key that `DerivePerTenantKey` derives is not specific to the tenant.  The two
distinct tenant IDs `tenantA` and `tenantB`, both in the form of a UUID, get the same key
from every master key; two tenant IDs get the same key exactly when the folds of their bytes
agree at the 32 places; and the tenant ID `tenantTwice`, which is not empty, gets the master
key itself from every master key of 32 bytes. -/
theorem tenant_keys_collide (e : AESEncryptor) :
    tenantA ≠ tenantB ∧ e.DerivePerTenantKey tenantA = e.DerivePerTenantKey tenantB ∧
      (∀ t1 t2 : String, e.DerivePerTenantKey t1 = e.DerivePerTenantKey t2 ↔
        ∀ j, j < 32 → tenantPad (stringBytes t1) j = tenantPad (stringBytes t2) j) ∧
      tenantTwice ≠ "" ∧
      (e.masterKey.length = 32 → e.DerivePerTenantKey tenantTwice = .ok e) := by
  refine ⟨by decide, ?_, derive_eq_iff e, by decide, ?_⟩
  · rw [derive_eq_iff, stringBytes_eq, stringBytes_eq]
    decide
  · intro hk
    apply derive_of_pad_zero e hk
    rw [stringBytes_eq]
    decide

theorem tenant_keys_collide_witness :
    toyEncryptor.DerivePerTenantKey tenantA = toyEncryptor.DerivePerTenantKey tenantB ∧
      toyEncryptor.DerivePerTenantKey tenantTwice = .ok toyEncryptor :=
  ⟨(tenant_keys_collide toyEncryptor).2.1, (tenant_keys_collide toyEncryptor).2.2.2.2 rfl⟩

/-- C39. For every master key of 32 bytes and every tenant ID `t`, `DerivePerTenantKey`
returns no error; the key of its result has 32 bytes, at each place `j` the byte of the
master key combined by exclusive or with the fold of the bytes of `t` at the positions `p`
with `p % 32 = j`; deriving with `t` from the result gives the master key back; and deriving
with the empty tenant ID gives the master key. -/
theorem derive_per_tenant_key_involution (e : AESEncryptor) (hk : e.masterKey.length = 32)
    (t : String) :
    ∃ d, e.DerivePerTenantKey t = .ok d ∧ d.masterKey.length = 32 ∧
      (∀ j, j < 32 →
        d.masterKey.getD j 0 = e.masterKey.getD j 0 ^^^ tenantPad (stringBytes t) j) ∧
      d.DerivePerTenantKey t = .ok e ∧ e.DerivePerTenantKey "" = .ok e := by
  obtain ⟨d, h1, l1, g1⟩ := derive_spec e t
  obtain ⟨d', h2, l2, g2⟩ := derive_spec d t
  refine ⟨d, h1, l1, ?_, ?_, derive_of_pad_zero e hk "" fun j _ => tenantPad_nil j⟩
  · intro j hj
    rw [g1 j hj, goCopy_of_length _ hk]
  · rw [h2]
    have hkey : d'.masterKey = e.masterKey :=
      ext_getD _ _ l2 hk fun j hj => by
        rw [g2 j hj, goCopy_of_length _ l1, g1 j hj, goCopy_of_length _ hk, byte_xor_cancel]
    cases d'
    cases e
    simp only at hkey
    rw [hkey]

theorem derive_per_tenant_key_involution_witness :
    ∃ d, toyEncryptor.DerivePerTenantKey "acme" = .ok d ∧ d.masterKey.length = 32 ∧
      d.DerivePerTenantKey "acme" = .ok toyEncryptor :=
  match derive_per_tenant_key_involution toyEncryptor rfl "acme" with
  | ⟨d, h1, h2, _, h4, _⟩ => ⟨d, h1, h2, h4⟩


/-! ## The rationale store: lemmas -/

theorem mem_assocSet {α : Type} (m : List (String × α)) (k : String) (v : α)
    (e : String × α) : e ∈ assocSet m k v ↔ (e ∈ m ∧ e.1 ≠ k) ∨ e = (k, v) := by
  simp [assocSet, List.mem_filter]

theorem assocGet_some_mem {α : Type} (m : List (String × α)) (k : String) (v : α)
    (h : assocGet m k = some v) : (k, v) ∈ m := by
  unfold assocGet at h
  cases hf : m.find? (fun e => decide (e.1 = k)) with
  | none => rw [hf] at h; simp at h
  | some e =>
    rw [hf] at h
    simp only [Option.map_some', Option.some.injEq] at h
    have hk : e.1 = k := by simpa using List.find?_some hf
    have hm : e ∈ m := List.mem_of_find?_eq_some hf
    rw [← h, ← hk]
    exact hm

/-- What `UpdateHandler` does to a stored rationale: the rationale it answers with is stored
under the same key, keeps its `ID`, has the body of the request when that is not empty and
the old body otherwise, `UpdatedAt` set to the time of the update, and a fresh signature over
its `ID` followed by its body. -/
theorem UpdateHandler_spec (E : Ed25519) (s : rationale.Service) (id : String)
    (req : rationale.UpdateRequest) (now : Time) (r : Rationale)
    (hget : assocGet s.store id = some r) :
    ∃ r', s.UpdateHandler E id (some req) now =
        ({ s with store := assocSet s.store id r' }, .one 200 r') ∧
      r'.ID = r.ID ∧
      r'.Rationale = (if req.Rationale ≠ "" then req.Rationale else r.Rationale) ∧
      r'.UpdatedAt = now ∧ r'.CreatedAt = r.CreatedAt ∧
      r'.Signature = s.signer.SignHex E (stringBytes (r'.ID ++ r'.Rationale)) := by
  simp only [rationale.Service.UpdateHandler, hget]
  refine ⟨_, rfl, ?_, ?_, rfl, ?_, rfl⟩
  · cases req.Tags <;> split_ifs <;> rfl
  · cases req.Tags <;> split_ifs <;> rfl
  · cases req.Tags <;> split_ifs <;> rfl

/-- Each operation keeps the signer, and keeps every stored rationale under its `ID` with a
signature over its `ID` followed by its body. -/
theorem rationale_apply_inv (E : Ed25519) (signer : Ed25519Signer) (s : rationale.Service)
    (op : rationale.Op)
    (h : s.signer = signer ∧ ∀ e ∈ s.store, e.2.ID = e.1 ∧
      e.2.Signature = signer.SignHex E (stringBytes (e.2.ID ++ e.2.Rationale))) :
    (s.apply E op).signer = signer ∧ ∀ e ∈ (s.apply E op).store, e.2.ID = e.1 ∧
      e.2.Signature = signer.SignHex E (stringBytes (e.2.ID ++ e.2.Rationale)) := by
  obtain ⟨hs, hst⟩ := h
  cases op with
  | create body id now =>
    cases body with
    | none => exact ⟨hs, hst⟩
    | some req =>
      refine ⟨hs, ?_⟩
      intro e he
      simp only [rationale.Service.apply, rationale.Service.CreateHandler] at he
      rcases (mem_assocSet _ _ _ _).mp he with ⟨h1, _⟩ | h1
      · exact hst e h1
      · rw [h1, ← hs]
        exact ⟨rfl, rfl⟩
  | update id body now =>
    cases hget : assocGet s.store id with
    | none =>
      have : s.apply E (.update id body now) = s := by
        simp only [rationale.Service.apply, rationale.Service.UpdateHandler, hget]
      rw [this]
      exact ⟨hs, hst⟩
    | some r =>
      cases body with
      | none =>
        have : s.apply E (.update id none now) = s := by
          simp only [rationale.Service.apply, rationale.Service.UpdateHandler, hget]
        rw [this]
        exact ⟨hs, hst⟩
      | some req =>
        obtain ⟨r', hup, hid, _, _, _, hsig⟩ := UpdateHandler_spec E s id req now r hget
        have hrid : r.ID = id := (hst (id, r) (assocGet_some_mem _ _ _ hget)).1
        have happ : s.apply E (.update id (some req) now) =
            { s with store := assocSet s.store id r' } := by
          simp only [rationale.Service.apply, hup]
        rw [happ]
        refine ⟨hs, ?_⟩
        intro e he
        rcases (mem_assocSet _ _ _ _).mp he with ⟨h1, _⟩ | h1
        · exact hst e h1
        · rw [h1]
          exact ⟨by rw [hid, hrid], by rw [← hs]; exact hsig⟩

theorem rationale_applyAll_inv (E : Ed25519) (signer : Ed25519Signer)
    (ops : List rationale.Op) :
    ∀ s : rationale.Service,
      (s.signer = signer ∧ ∀ e ∈ s.store, e.2.ID = e.1 ∧
        e.2.Signature = signer.SignHex E (stringBytes (e.2.ID ++ e.2.Rationale))) →
      (s.applyAll E ops).signer = signer ∧ ∀ e ∈ (s.applyAll E ops).store, e.2.ID = e.1 ∧
        e.2.Signature = signer.SignHex E (stringBytes (e.2.ID ++ e.2.Rationale)) := by
  induction ops with
  | nil => intro s h; exact h
  | cons op rest ih =>
    intro s h
    exact ih _ (rationale_apply_inv E signer s op h)

/-- The scan of `ListHandler` appends the entries that pass the two filters, in the order of
the visit. -/
theorem listHandler_scan_eq (orgID repoID : String) (l : List (String × Rationale)) :
    ∀ results, rationale.ListHandler.scan orgID repoID l results =
      results ++ (l.map fun e => e.2).filter fun r =>
        decide ((orgID = "" ∨ r.OrgID = orgID) ∧ (repoID = "" ∨ r.RepoID = repoID)) := by
  induction l with
  | nil => intro results; simp [rationale.ListHandler.scan]
  | cons e rest ih =>
    intro results
    simp only [rationale.ListHandler.scan, List.map_cons]
    by_cases h1 : orgID ≠ "" ∧ e.2.OrgID ≠ orgID
    · rw [if_pos h1, ih, List.filter_cons_of_neg]
      simp only [decide_eq_true_eq, not_and, not_or]
      intro h
      rcases h with h | h
      · exact absurd h h1.1
      · exact absurd h h1.2
    · rw [if_neg h1]
      have h1' : orgID = "" ∨ e.2.OrgID = orgID := by
        by_contra hc
        simp only [not_or] at hc
        exact h1 hc
      by_cases h2 : repoID ≠ "" ∧ e.2.RepoID ≠ repoID
      · rw [if_pos h2, ih, List.filter_cons_of_neg]
        simp only [decide_eq_true_eq, not_and, not_or]
        intro _
        exact ⟨h2.1, h2.2⟩
      · rw [if_neg h2]
        have h2' : repoID = "" ∨ e.2.RepoID = repoID := by
          by_contra hc
          simp only [not_or] at hc
          exact h2 hc
        rw [ih, List.filter_cons_of_pos (by simp only [decide_eq_true_eq]; exact ⟨h1', h2'⟩)]
        simp

/-! ## The rationale store: claims -/

/-- C32. For every sequence of create and update operations on a fresh rationale store,
successful or not, over a correct Ed25519 implementation and a signer made by a constructor
of the package: every stored rationale is stored under its `ID`, its `Signature` is
`SignHex` of the bytes of its `ID` followed by its current body, and `VerifyHex` over these
bytes accepts it.  And an update of a stored rationale answers 200 with the rationale as it
is stored afterwards, its `UpdatedAt` the time of the update, its body that of the request
when that is not empty, its signature fresh. -/
theorem rationale_signatures (E : Ed25519) (hE : E.Correct) (signer : Ed25519Signer)
    (hs : signer.Constructed E) (ops : List rationale.Op) :
    (∀ e ∈ ((rationale.NewService signer).applyAll E ops).store,
        e.2.ID = e.1 ∧
          e.2.Signature = signer.SignHex E (stringBytes (e.2.ID ++ e.2.Rationale)) ∧
          signer.VerifyHex E (stringBytes (e.2.ID ++ e.2.Rationale)) e.2.Signature = true) ∧
      ∀ (s : rationale.Service) (id : String) (req : rationale.UpdateRequest) (now : Time)
        (r : Rationale), assocGet s.store id = some r →
        ∃ r', (s.UpdateHandler E id (some req) now).2 = .one 200 r' ∧
          assocGet (s.UpdateHandler E id (some req) now).1.store id = some r' ∧
          r'.UpdatedAt = now ∧
          r'.Rationale = (if req.Rationale ≠ "" then req.Rationale else r.Rationale) ∧
          r'.Signature = s.signer.SignHex E (stringBytes (r'.ID ++ r'.Rationale)) := by
  constructor
  · intro e he
    obtain ⟨_, hinv⟩ := rationale_applyAll_inv E signer ops (rationale.NewService signer)
      ⟨rfl, fun e he => absurd he (List.not_mem_nil e)⟩
    obtain ⟨h1, h2⟩ := hinv e he
    refine ⟨h1, h2, ?_⟩
    rw [h2]
    exact (Constructed_verify_sign E hE signer hs _).2
  · intro s id req now r hget
    obtain ⟨r', hup, _, hbody, htime, _, hsig⟩ := UpdateHandler_spec E s id req now r hget
    refine ⟨r', by rw [hup], ?_, htime, hbody, hsig⟩
    rw [hup]
    simp only [assocGet_assocSet, if_true]

theorem rationale_signatures_witness :
    ∃ e, ((rationale.NewService toySigner).applyAll toyEd25519 toyOps).store[0]? = some e ∧
      e.2.Rationale = "Append only, signed" ∧
      toySigner.VerifyHex toyEd25519 (stringBytes (e.2.ID ++ e.2.Rationale)) e.2.Signature =
        true :=
  have h0 : ((rationale.NewService toySigner).applyAll toyEd25519 toyOps).store[0]? =
      some ((rationale.NewService toySigner).applyAll toyEd25519 toyOps).store[0] := rfl
  ⟨_, h0, rfl,
    ((rationale_signatures toyEd25519 toyEd25519_correct toySigner toySigner_constructed
      toyOps).1 _ (List.getElem?_mem h0)).2.2⟩

/-- C33. For every store, every pair of filters and every order in which the map is
visited, `ListHandler` answers with the stored rationales `r` with (`org_id` empty or
`r.OrgID = org_id`) and (`repo_id` empty or `r.RepoID = repo_id`), each as often as it is
stored, in the order of the visit, and with `total` the number of rationales it answers
with; with both filters empty it answers with every stored rationale.  In a store that holds
no key twice and every rationale under its `ID`, as the handlers keep it, no rationale is in
the answer twice. -/
theorem rationale_list_filter (s : rationale.Service) (orgID repoID : String)
    (range : List (String × Rationale) → List (String × Rationale))
    (hrange : (range s.store).Perm s.store) :
    ∃ data, s.ListHandler orgID repoID range = .list 200 data (data.length : Int) ∧
      data = ((range s.store).map fun e => e.2).filter (fun r =>
        decide ((orgID = "" ∨ r.OrgID = orgID) ∧ (repoID = "" ∨ r.RepoID = repoID))) ∧
      data.Perm ((s.store.map fun e => e.2).filter fun r =>
        decide ((orgID = "" ∨ r.OrgID = orgID) ∧ (repoID = "" ∨ r.RepoID = repoID))) ∧
      (∀ r, r ∈ data ↔ (∃ k, (k, r) ∈ s.store) ∧
        (orgID = "" ∨ r.OrgID = orgID) ∧ (repoID = "" ∨ r.RepoID = repoID)) ∧
      (orgID = "" → repoID = "" → data.Perm (s.store.map fun e => e.2)) ∧
      ((s.store.map fun e => e.1).Nodup → (∀ e ∈ s.store, e.2.ID = e.1) → data.Nodup) := by
  have hscan := listHandler_scan_eq orgID repoID (range s.store) []
  rw [List.nil_append] at hscan
  have hperm : (((range s.store).map fun e => e.2).filter fun r =>
      decide ((orgID = "" ∨ r.OrgID = orgID) ∧ (repoID = "" ∨ r.RepoID = repoID))).Perm
      ((s.store.map fun e => e.2).filter fun r =>
        decide ((orgID = "" ∨ r.OrgID = orgID) ∧ (repoID = "" ∨ r.RepoID = repoID))) :=
    (hrange.map _).filter _
  refine ⟨_, ?_, rfl, hperm, ?_, ?_, ?_⟩
  · simp only [rationale.Service.ListHandler, hscan]
  · intro r
    rw [hperm.mem_iff]
    simp only [List.mem_filter, List.mem_map, decide_eq_true_eq]
    constructor
    · rintro ⟨⟨e, he, rfl⟩, h⟩
      exact ⟨⟨e.1, he⟩, h⟩
    · rintro ⟨⟨k, hk⟩, h⟩
      exact ⟨⟨(k, r), hk, rfl⟩, h⟩
  · intro h1 h2
    have hall : ((s.store.map fun e => e.2).filter fun r =>
        decide ((orgID = "" ∨ r.OrgID = orgID) ∧ (repoID = "" ∨ r.RepoID = repoID))) =
        s.store.map fun e => e.2 := by
      apply List.filter_eq_self.mpr
      intro r _
      simp [h1, h2]
    rw [← hall]
    exact hperm
  · intro hkeys hid
    rw [hperm.nodup_iff]
    apply List.Nodup.filter
    apply List.Nodup.map_on _ (List.Nodup.of_map _ hkeys)
    intro x hx y hy hxy
    have h1 : x.1 = y.1 := by rw [← hid x hx, ← hid y hy, hxy]
    exact Prod.ext h1 hxy

theorem rationale_list_filter_witness :
    ∃ data, toyStore.ListHandler "o2" "" List.reverse = .list 200 data (data.length : Int) ∧
      (∀ r, r ∈ data ↔ (∃ k, (k, r) ∈ toyStore.store) ∧
        ("o2" = "" ∨ r.OrgID = "o2") ∧ (("" : String) = "" ∨ r.RepoID = "")) :=
  match rationale_list_filter toyStore "o2" "" List.reverse (List.reverse_perm _) with
  | ⟨data, h1, _, _, h4, _, _⟩ => ⟨data, h1, h4⟩

/-! ## The vault: rationales and the ledger -/

/-- No handler that `main` of the vault registers changes the ledger. -/
theorem vault_serve_ledger {P : Type} (L : Std P) (v : Vault P) (req : VaultRequest) :
    (v.serve L req).1.ledger = v.ledger := by
  cases req <;> rfl

theorem vault_serveAll_ledger {P : Type} (L : Std P) (reqs : List VaultRequest) :
    ∀ v : Vault P, (v.serveAll L reqs).ledger = v.ledger := by
  induction reqs with
  | nil => intro v; rfl
  | cons req rest ih =>
    intro v
    simp only [Vault.serveAll]
    rw [ih, vault_serve_ledger]

/-- C34. The rationale handlers do not append to the ledger.  In the vault as `main` makes
it, after any sequence of requests: a create with a body that parses answers 201 and an
update of a stored rationale answers 200, and both leave the chain of the ledger as it was;
the chain still holds the genesis entry alone, whatever was created and updated. -/
theorem rationale_mutations_not_anchored {P : Type} (L : Std P) (signer : Ed25519Signer)
    (gid : String) (t0 : Time) (reqs : List VaultRequest) (v : Vault P)
    (hv : v = (NewVault L signer gid t0).serveAll L reqs) :
    (∀ (body : rationale.CreateRequest) (id : String) (now : Time),
        (v.serve L (.createRationale (some body) id now)).2 = 201 ∧
          (v.serve L (.createRationale (some body) id now)).1.ledger.chain = v.ledger.chain) ∧
      (∀ (id : String) (body : rationale.UpdateRequest) (now : Time) (r : Rationale),
        assocGet v.rationales.store id = some r →
          (v.serve L (.updateRationale id (some body) now)).2 = 200 ∧
            (v.serve L (.updateRationale id (some body) now)).1.ledger.chain =
              v.ledger.chain) ∧
      v.ledger.chain.length = 1 := by
  refine ⟨?_, ?_, ?_⟩
  · intro body id now
    exact ⟨rfl, by rw [vault_serve_ledger]⟩
  · intro id body now r hget
    obtain ⟨r', hup, _⟩ := UpdateHandler_spec L.ed v.rationales id body now r hget
    refine ⟨?_, by rw [vault_serve_ledger]⟩
    simp only [Vault.serve, hup, rationale.Response.status]
  · rw [hv, vault_serveAll_ledger]
    rfl

theorem rationale_mutations_not_anchored_witness :
    ((NewVault toyStd toySigner "id-0" t0).serveAll toyStd
        [.createRationale (some toyCreateRequest) "rat-1" { unix := 1700000100, nsec := 0 },
          .updateRationale "rat-1" (some toyUpdateRequest)
            { unix := 1700000200, nsec := 0 }]).ledger.chain.length = 1 :=
  (rationale_mutations_not_anchored toyStd toySigner "id-0" t0
    [.createRationale (some toyCreateRequest) "rat-1" { unix := 1700000100, nsec := 0 },
      .updateRationale "rat-1" (some toyUpdateRequest) { unix := 1700000200, nsec := 0 }]
    _ rfl).2.2

end ArchLens
